import Mathlib

/-!
# Verification of the ts-qs query-string codec

Shallow embedding of the `ts-qs` TypeScript library (src/parser.ts,
src/stringifier.ts, src/utils.ts, src/encoding.ts) and proofs about its
parse / stringify behaviour.

Modelling conventions:
* JS strings are modelled as `List Char` (Unicode scalar values); the
  UTF-16 representation never matters for the inputs treated here.
* JS numbers are modelled as `Int`.  The library's numeric-string
  recognizer also admits decimal fractions (`\d+\.\d+`), which denote
  IEEE doubles; fractional and beyond-2^53 numerics are outside this
  integer-valued embedding and are excluded from the domains of the
  round-trip statements.
* The mutable result object built by `parse` is modelled functionally:
  each mutating helper returns the updated value.  Objects are
  insertion-ordered association lists (JS additionally enumerates
  integer-like keys first; no theorem below depends on enumeration
  order of integer-like keys).
* TS modules are strict-mode JS: a write to a property of a primitive
  throws `TypeError`.  The embedding raises `Err.typeError` at the
  corresponding places.
* Recursive procedures whose JS termination argument is not structural
  are given a fuel parameter; the public wrappers supply a fuel that is
  provably sufficient, so the `Err.fuelExhausted` bookkeeping error is
  never returned by a wrapper.
* Option records carry the subset of the library's options that the
  statements below exercise; omitted options (custom decoder/encoder
  hooks, charset machinery, `parseDates`, RegExp delimiters,
  `plainObjects`, `ignoreQueryPrefix`) are fixed at their defaults.
-/

namespace TsQs

/-- JS strings, as lists of Unicode scalar values. -/
abbrev JSStr := List Char

/-- Shorthand for turning a Lean string literal into a modelled JS string. -/
def js (s : String) : JSStr := s.data

/-- JS runtime values occurring in parse results / stringify inputs. -/
inductive JSVal : Type where
  | undef : JSVal
  | null : JSVal
  | str (s : JSStr) : JSVal
  | num (n : Int) : JSVal
  | bool (b : Bool) : JSVal
  | arr (xs : List JSVal) : JSVal
  | obj (fields : List (JSStr × JSVal)) : JSVal

/-- Errors: `TsQsError` (message, code) from types.ts, strict-mode
`TypeError`s, and the fuel bookkeeping value (never returned by the
public wrappers, see the sufficiency lemmas). -/
inductive Err : Type where
  | tsqs (message code : JSStr) : Err
  | typeError (message : JSStr) : Err
  | fuelExhausted : Err
deriving DecidableEq, Repr

/-- The `DuplicateStrategy` union type from types.ts. -/
inductive Duplicates : Type where
  | combine | first | last
deriving DecidableEq, Repr

/-- Modelled subset of `ParseOptions` (types.ts), with the library's
defaults as the field defaults. Numeric limits are `Nat` (the
`ParseConfig` validation only rejects negative values, which the `Nat`
type rules out). -/
structure ParseOpts : Type where
  allowDots : Bool := false
  allowEmptyArrays : Bool := false
  allowPrototypes : Bool := false
  arrayLimit : Nat := 20
  comma : Bool := false
  decodeDotInKeys : Bool := false
  depth : Nat := 5
  duplicates : Duplicates := .combine
  parameterLimit : Nat := 1000
  parseArrays : Bool := true
  strictNullHandling : Bool := false
  strictDepth : Bool := false
  parseNumbers : Bool := false
  parseBooleans : Bool := false
deriving DecidableEq, Repr

instance : Inhabited ParseOpts := ⟨{}⟩

/-! ## utils.ts -/

/-- utils.ts `isObject`: a non-null object that is not an array.  In the
`JSVal` model only `obj` qualifies. -/
def isObjectM : JSVal → Bool
  | .obj _ => true
  | _ => false

/-- JS truthiness of a modelled value (`''`, `0`, `false`, `null`,
`undefined` are falsy). -/
def jsTruthy : JSVal → Bool
  | .undef => false
  | .null => false
  | .str s => s ≠ []
  | .num n => n ≠ 0
  | .bool b => b
  | .arr _ => true
  | .obj _ => true

/-- Property read `o[k]` on an object: first binding wins, missing
reads give `undefined`.  This is the own-property read; the parse
result containers are plain `\x7b\x7d` objects, so a read at an
`Object.prototype` member name (`toString`, `valueOf`,
`hasOwnProperty`, ...) would instead return the inherited function.
Every read performed inside the statements below happens at a key off
that list: the claim inputs use concrete non-inherited keys, and the
round-trip domain's `keyOk` excludes the `Object.prototype` member
names outright (see `isObjectProtoMember`). -/
def jsGet (fields : List (JSStr × JSVal)) (k : JSStr) : JSVal :=
  match fields.find? (fun p => p.1 = k) with
  | some p => p.2
  | none => (.undef : JSVal)

/-- Property write `o[k] = v` on an object: updates the first binding
in place (JS keeps the original insertion position) or appends. -/
def jsSet (fields : List (JSStr × JSVal)) (k : JSStr) (v : JSVal) :
    List (JSStr × JSVal) :=
  match fields with
  | [] => [(k, v)]
  | (k', v') :: rest =>
      if k' = k then (k', v) :: rest else (k', v') :: jsSet rest k v

/-- Array element read `a[i]` (out of range gives `undefined`). -/
def listGetU (xs : List JSVal) (i : Nat) : JSVal := xs.getD i (.undef : JSVal)

/-- Array element write `a[i] = v` for `i < xs.length` (the only case
the parser reaches after its growth loop). Defined totally: an
out-of-range write extends with holes, as in JS. -/
def listSetU (xs : List JSVal) (i : Nat) (v : JSVal) : List JSVal :=
  if i < xs.length then xs.set i v
  else xs ++ List.replicate (i - xs.length) JSVal.undef ++ [v]

/-- utils.ts `hasPrototypePollution`. -/
def hasPrototypePollutionM (key : JSStr) : Bool :=
  key = js "__proto__" || key = js "constructor" || key = js "prototype"

/-- utils.ts `isArrayIndex`: `/^\d+$/`. -/
def isArrayIndexM (key : JSStr) : Bool :=
  key ≠ [] && key.all (fun c => '0' ≤ c && c ≤ '9')

/-- utils.ts `isBooleanString`. -/
def isBooleanStringM (s : JSStr) : Bool := s = js "true" || s = js "false"

/-- Decimal rendering, fuel-indexed (`n / 10 < n` is not a structural
descent); `natToStr` supplies fuel that always suffices. -/
def natToStrAux : Nat → Nat → JSStr
  | 0, _ => []
  | fuel + 1, n =>
      if n < 10 then [Char.ofNat (48 + n)]
      else natToStrAux fuel (n / 10) ++ [Char.ofNat (48 + n % 10)]

/-- Decimal digits of a non-negative number, as JS `String(n)` renders
them. -/
def natToStr (n : Nat) : JSStr := natToStrAux (n + 1) n

/-- JS `String(n)` for a modelled (integer) number. -/
def intToStr (n : Int) : JSStr :=
  if n < 0 then '-' :: natToStr n.natAbs else natToStr n.natAbs

/-- JS `parseInt(s, 10)` restricted to all-digit strings (the only way
the parser calls it, behind `isArrayIndex`). -/
def parseIntM (s : JSStr) : Nat :=
  s.foldl (fun a c => a * 10 + (c.toNat - 48)) 0

/-- utils.ts `isNumericString`, restricted to the integer case
`/^-?\d+$/`.  The source regex also admits `\d+\.\d+` fractions, which
denote IEEE doubles and are outside this integer-valued embedding (no
statement below feeds such strings to the coercion). -/
def isIntNumericStringM (s : JSStr) : Bool :=
  match s with
  | '-' :: rest => isArrayIndexM rest
  | _ => isArrayIndexM s

/-- JS `Number(s)` on strings accepted by `isIntNumericStringM`
(exact for the ≤ 15-digit strings admitted by the round-trip domain). -/
def numberOfM (s : JSStr) : Int :=
  match s with
  | '-' :: rest => -(parseIntM rest : Int)
  | _ => (parseIntM s : Int)

/-- utils.ts `autoConvert` (timestamp recognition is disabled in every
statement below, so the `parseDates` branch is omitted). -/
def autoConvertM (s : JSStr) (parseNumbers parseBooleans : Bool) : JSVal :=
  if s = [] then .str s
  else if parseBooleans && isBooleanStringM s then .bool (s = js "true")
  else if parseNumbers && isIntNumericStringM s then .num (numberOfM s)
  else .str s

/-- utils.ts `splitByDelimiter` for the default `'&'`-style single-char
delimiter (string split semantics: `"".split d = [""]`). -/
def splitOnChar (d : Char) : JSStr → List JSStr
  | [] => [[]]
  | c :: rest =>
      if c = d then [] :: splitOnChar d rest
      else
        match splitOnChar d rest with
        | [] => [[c]]
        | h :: t => (c :: h) :: t

/-- JS `String.prototype.trim`. -/
def trimM (s : JSStr) : JSStr :=
  (s.dropWhile Char.isWhitespace).reverse.dropWhile Char.isWhitespace |>.reverse

/-- utils.ts `parseBracketNotation`: the left-to-right scan with
`current` / `inBrackets` / `bracketDepth` state. -/
def parseBracketGo (s : JSStr) (current : JSStr) (inBrackets : Bool)
    (bracketDepth : Nat) : List JSStr :=
  match s with
  | [] => if current ≠ [] then [current] else []
  | c :: rest =>
      if c = '[' && !inBrackets then
        (if current ≠ [] then [current] else []) ++ parseBracketGo rest [] true 1
      else if c = '[' && inBrackets then
        parseBracketGo rest (current ++ [c]) inBrackets (bracketDepth + 1)
      else if c = ']' && inBrackets then
        if bracketDepth - 1 = 0 then
          current :: parseBracketGo rest [] false 0
        else parseBracketGo rest (current ++ [c]) inBrackets (bracketDepth - 1)
      else parseBracketGo rest (current ++ [c]) inBrackets bracketDepth

/-- utils.ts `parseBracketNotation`. -/
def parseBracketNotationM (key : JSStr) : List JSStr :=
  parseBracketGo key [] false 0

/-- parser.ts `parseKeyPath`'s `key.replace(/%2E/g, '.')`: left-to-right
non-overlapping global replacement. -/
def replacePercent2E : JSStr → JSStr
  | '%' :: '2' :: 'E' :: rest => '.' :: replacePercent2E rest
  | c :: rest => c :: replacePercent2E rest
  | [] => []

/-- parser.ts `parseKeyPath`. -/
def parseKeyPathM (key : JSStr) (opts : ParseOpts) : List JSStr :=
  if opts.allowDots && key.contains '.' then
    let key := if opts.decodeDotInKeys then replacePercent2E key else key
    splitOnChar '.' key
  else if key.contains '[' then parseBracketNotationM key
  else [key]

/-- utils.ts `compactArray`: drop `undefined` elements. -/
def compactArrayM (xs : List JSVal) : List JSVal :=
  xs.filterMap fun v =>
    match v with
    | .undef => none
    | v => some v

/-- utils.ts `maybeConvertToArray`.  The field list stands for
`Object.keys` enumeration order; when all keys are integer-like, JS
enumerates them in ascending numeric order, which the statements below
assume via a sortedness hypothesis.  NOTE: `parse` never calls this
function — see the C5 theorems. -/
def maybeConvertToArrayM (fields : List (JSStr × JSVal)) (allowSparse : Bool) : JSVal :=
  let keys := fields.map Prod.fst
  if keys = [] then .obj fields
  else if !keys.all isArrayIndexM then .obj fields
  else
    let maxIndex := (keys.map parseIntM).foldl max 0
    if !allowSparse && decide (maxIndex ≥ keys.length * 2) then .obj fields
    else
      let arrv := fields.foldl (fun acc p => listSetU acc (parseIntM p.1) p.2) []
      if allowSparse then .arr arrv else .arr (compactArrayM arrv)

/-! ## The tree builder (parser.ts `setNestedValue` / `handleArrayValue` /
`handleDuplicateKey`) -/

/-- utils.ts `safeSetProperty` (returns the updated object instead of
mutating). -/
def safeSetPropertyM (fields : List (JSStr × JSVal)) (key : JSStr)
    (value : JSVal) (allowPrototypes : Bool) : JSVal :=
  if !allowPrototypes && hasPrototypePollutionM key then .obj fields
  else .obj (jsSet fields key value)

/-- parser.ts `handleDuplicateKey`.  A primitive target is only
reachable through `handleArrayValue`'s unguarded element recursion; for
it the pollution guard still returns silently and any actual write
faults in strict mode. -/
def handleDuplicateKeyM (target : JSVal) (key : JSStr) (value : JSVal)
    (opts : ParseOpts) : Except Err JSVal :=
  match target with
  | .obj fields =>
      match jsGet fields key with
      | .undef => .ok (safeSetPropertyM fields key value opts.allowPrototypes)
      | existing =>
          match opts.duplicates with
          | .first => .ok (.obj fields)
          | .last => .ok (safeSetPropertyM fields key value opts.allowPrototypes)
          | .combine =>
              match existing with
              | .arr xs => .ok (.obj (jsSet fields key (.arr (xs ++ [value]))))
              | _ =>
                  .ok (safeSetPropertyM fields key (.arr [existing, value])
                    opts.allowPrototypes)
  | _ =>
      if !opts.allowPrototypes && hasPrototypePollutionM key then .ok target
      else .error (.typeError (js "Cannot create property on a primitive"))

/-- `handleArrayValue`'s array-to-object conversion for non-numeric
keys (lines 323-336): copy the defined elements under their
stringified indices. -/
def arrayToObjFields (xs : List JSVal) : List (JSStr × JSVal) :=
  xs.enum.filterMap fun p =>
    match p.2 with
    | .undef => none
    | v => some (natToStr p.1, v)

/-- `allowEmptyArrays && value === ''` replacement at a leaf
(parser.ts lines 306-310). -/
def emptyToArr (allow : Bool) (value : JSVal) : JSVal :=
  if allow then
    match value with
    | .str [] => .arr []
    | v => v
  else value

/-- The two mutually recursive procedures of the tree builder, as one
fuel-indexed engine (`set` = `setNestedValue`, `harr` =
`handleArrayValue`); the fuel is bookkeeping only, the wrappers below
supply a provably sufficient amount. -/
inductive PCall : Type where
  | set (target : JSVal) (keyPath : List JSStr) (value : JSVal) (depth : Nat) : PCall
  | harr (target : JSVal) (key : JSStr) (remainingPath : List JSStr)
      (value : JSVal) (depth : Nat) : PCall

/-- One step of the tree builder: parser.ts `setNestedValue`
(lines 198-261) and `handleArrayValue` (lines 266-337), with `recur`
standing for the mutually recursive calls.  Non-recursive, so proofs
can unfold it freely. -/
def engineStep (opts : ParseOpts) (recur : PCall → Except Err JSVal) :
    PCall → Except Err JSVal
  | .set target keyPath value depth =>
      -- strict depth check (lines 206-211)
      if opts.strictDepth && decide (depth > opts.depth) then
        .error (.tsqs
          (js "Input depth exceeded depth option and strictDepth is true")
          (js "DEPTH_EXCEEDED"))
      -- graceful collapse (lines 213-219)
      else if depth > opts.depth then
        let remainingKey := ((keyPath.drop 1).map fun k => '[' :: k ++ [']']).flatten
        let finalKey := keyPath.headD (js "undefined") ++ remainingKey
        handleDuplicateKeyM target finalKey value opts
      else
        match keyPath with
        | [] => .ok target
        | currentKey :: rest =>
            -- line 224 (`currentKey !== '0'` is dead: `'0'` is truthy)
            if currentKey = [] then .ok target
            else if !opts.allowPrototypes && hasPrototypePollutionM currentKey then
              .ok target
            else
              match rest with
              | [] => handleDuplicateKeyM target currentKey value opts
              | nextKey :: _ =>
                  let isArrayAccess :=
                    (nextKey ≠ [] && isArrayIndexM nextKey) || nextKey = []
                  match target with
                  | .obj fields =>
                      -- `if (!obj[currentKey])` creation (lines 241-247)
                      let fields :=
                        if !jsTruthy (jsGet fields currentKey) then
                          if isArrayAccess && opts.parseArrays then
                            jsSet fields currentKey (.arr [])
                          else jsSet fields currentKey (.obj [])
                        else fields
                      if isArrayAccess && opts.parseArrays then
                        recur (.harr (.obj fields) currentKey rest value (depth + 1))
                      else
                        match jsGet fields currentKey with
                        | .obj sub =>
                            (recur (.set (.obj sub) rest value (depth + 1))).map
                              fun r => .obj (jsSet fields currentKey r)
                        | _ => .ok (.obj fields)  -- line 252 `isObject` guard fails: drop
                  | _ =>
                      -- strict-mode write to a primitive target (only
                      -- reachable through the unguarded element recursion
                      -- of handleArrayValue; never hit below)
                      .error (.typeError (js "Cannot create property on a primitive"))
  | .harr target key remainingPath value depth =>
      match target with
      | .obj fields =>
          let arrV := jsGet fields key
          match remainingPath with
          | [] => .ok target  -- callers always pass at least one segment
          | indexKey :: restTail =>
              if indexKey = [] then
                -- empty brackets: push (lines 277-285)
                match arrV with
                | .arr xs =>
                    match restTail with
                    | [] => .ok (.obj (jsSet fields key (.arr (xs ++ [value]))))
                    | _ =>
                        (recur (.set (.obj []) restTail value depth)).map
                          fun newObj => .obj (jsSet fields key (.arr (xs ++ [newObj])))
                | _ => .error (.typeError (js "push is not a function"))
              else if isArrayIndexM indexKey then
                let index := parseIntM indexKey
                if index > opts.arrayLimit then
                  -- convert to object (lines 291-298): a fresh object, the
                  -- existing array contents are NOT copied over
                  let fields :=
                    if isObjectM arrV then fields else jsSet fields key (.obj [])
                  (recur (.set (jsGet fields key) remainingPath value depth)).map
                    fun r => .obj (jsSet fields key r)
                else
                  match arrV with
                  | .arr xs =>
                      -- `while (arr.length <= index) arr.push(undefined)`
                      let xs :=
                        if xs.length ≤ index then
                          xs ++ List.replicate (index + 1 - xs.length) JSVal.undef
                        else xs
                      match restTail with
                      | [] =>
                          .ok (.obj (jsSet fields key
                            (.arr (listSetU xs index (emptyToArr opts.allowEmptyArrays value)))))
                      | _ =>
                          let elem := listGetU xs index
                          let elem := if !jsTruthy elem then JSVal.obj [] else elem
                          (recur (.set elem restTail value depth)).map
                            fun e => .obj (jsSet fields key (.arr (listSetU xs index e)))
                  | .obj g =>
                      -- slot previously converted to a plain object:
                      -- `.length` is undefined so the growth loop is
                      -- skipped, and `arr[index]` is a property access
                      -- under the decimal key
                      match restTail with
                      | [] =>
                          .ok (.obj (jsSet fields key
                            (.obj (jsSet g (natToStr index) (emptyToArr opts.allowEmptyArrays value)))))
                      | _ =>
                          let elem := jsGet g (natToStr index)
                          let elem := if !jsTruthy elem then JSVal.obj [] else elem
                          (recur (.set elem restTail value depth)).map
                            fun e => .obj (jsSet fields key (.obj (jsSet g (natToStr index) e)))
                  | _ =>
                      -- primitive slot: the growth loop / index write
                      -- faults in strict mode
                      .error (.typeError (js "push is not a function"))
              else
                -- non-numeric key (lines 323-336; dead code: callers only
                -- reach handleArrayValue for numeric or empty segments)
                match arrV with
                | .arr xs =>
                    (recur (.set (.obj (arrayToObjFields xs)) remainingPath value depth)).map
                      fun r => .obj (jsSet fields key r)
                | _ =>
                    (recur (.set (.obj []) remainingPath value depth)).map
                      fun r => .obj (jsSet fields key r)
      | _ => .error (.typeError (js "Cannot read properties of a primitive"))

/-- The fuel-indexed engine tying `engineStep`'s recursion. -/
def engine (opts : ParseOpts) : Nat → PCall → Except Err JSVal
  | 0, _ => .error .fuelExhausted
  | fuel + 1, c => engineStep opts (engine opts fuel) c

/-- The depth-exceeded error value raised by `setNestedValue`. -/
def depthExceededErr : Err :=
  .tsqs (js "Input depth exceeded depth option and strictDepth is true")
    (js "DEPTH_EXCEEDED")

/-- Fuel needed by a call: each engine step consumes one unit and the
path shrinks by at least one segment every two steps. -/
def pcallFuel : PCall → Nat
  | .set _ keyPath _ _ => 2 * keyPath.length + 1
  | .harr _ _ remainingPath _ _ => 2 * remainingPath.length + 2

/-- parser.ts `setNestedValue`. -/
def setNestedValueM (target : JSVal) (keyPath : List JSStr) (value : JSVal)
    (opts : ParseOpts) (depth : Nat) : Except Err JSVal :=
  engine opts (2 * keyPath.length + 1) (.set target keyPath value depth)

/-- parser.ts `handleArrayValue`. -/
def handleArrayValueM (target : JSVal) (key : JSStr) (remainingPath : List JSStr)
    (value : JSVal) (opts : ParseOpts) (depth : Nat) : Except Err JSVal :=
  engine opts (2 * remainingPath.length + 2) (.harr target key remainingPath value depth)

/-! ## encoding.ts: the default decoder -/

/-- Hex digit value (both cases, as `decodeURIComponent` accepts). -/
def hexDigitVal? (c : Char) : Option Nat :=
  if '0' ≤ c ∧ c ≤ '9' then some (c.toNat - 48)
  else if 'A' ≤ c ∧ c ≤ 'F' then some (c.toNat - 55)
  else if 'a' ≤ c ∧ c ≤ 'f' then some (c.toNat - 87)
  else none

/-- One `%XX` escape at the head of the string. -/
def percentByte? : JSStr → Option (Nat × JSStr)
  | '%' :: h1 :: h2 :: rest =>
      match hexDigitVal? h1, hexDigitVal? h2 with
      | some a, some b => some (a * 16 + b, rest)
      | _, _ => none
  | _ => none

/-- A scalar value as a `Char`, when in range. -/
def mkChar? (n : Nat) : Option Char :=
  if h : n.isValidChar then some (Char.ofNatAux n h) else none

/-- ECMA-262 `decodeURIComponent`: per-escape UTF-8 decoding, `none` on
any malformed escape / invalid byte sequence (the `URIError` case). -/
def decodeURIGo (fuel : Nat) (s : JSStr) : Option JSStr :=
  match fuel with
  | 0 => none
  | fuel + 1 =>
      match s with
      | [] => some []
      | c :: rest =>
          if c ≠ '%' then (decodeURIGo fuel rest).map (c :: ·)
          else
            match percentByte? (c :: rest) with
            | none => none
            | some (b, rest1) =>
                if b < 0x80 then do
                  let ch ← mkChar? b
                  (decodeURIGo fuel rest1).map (ch :: ·)
                else if 0xC2 ≤ b ∧ b ≤ 0xDF then
                  match percentByte? rest1 with
                  | some (b2, rest2) =>
                      if 0x80 ≤ b2 ∧ b2 ≤ 0xBF then do
                        let ch ← mkChar? ((b - 0xC0) * 64 + (b2 - 0x80))
                        (decodeURIGo fuel rest2).map (ch :: ·)
                      else none
                  | none => none
                else if 0xE0 ≤ b ∧ b ≤ 0xEF then
                  match percentByte? rest1 with
                  | some (b2, rest2) =>
                      match percentByte? rest2 with
                      | some (b3, rest3) =>
                          if (0x80 ≤ b2 ∧ b2 ≤ 0xBF) ∧ (0x80 ≤ b3 ∧ b3 ≤ 0xBF) then
                            let n := (b - 0xE0) * 4096 + (b2 - 0x80) * 64 + (b3 - 0x80)
                            if n < 0x800 then none  -- overlong
                            else do
                              let ch ← mkChar? n
                              (decodeURIGo fuel rest3).map (ch :: ·)
                          else none
                      | none => none
                  | none => none
                else if 0xF0 ≤ b ∧ b ≤ 0xF4 then
                  match percentByte? rest1 with
                  | some (b2, rest2) =>
                      match percentByte? rest2 with
                      | some (b3, rest3) =>
                          match percentByte? rest3 with
                          | some (b4, rest4) =>
                              if (0x80 ≤ b2 ∧ b2 ≤ 0xBF) ∧ (0x80 ≤ b3 ∧ b3 ≤ 0xBF) ∧
                                  (0x80 ≤ b4 ∧ b4 ≤ 0xBF) then
                                let n := (b - 0xF0) * 262144 + (b2 - 0x80) * 4096 +
                                  (b3 - 0x80) * 64 + (b4 - 0x80)
                                if n < 0x10000 then none  -- overlong
                                else do
                                  let ch ← mkChar? n
                                  (decodeURIGo fuel rest4).map (ch :: ·)
                              else none
                          | none => none
                      | none => none
                  | none => none
                else none  -- stray continuation byte or invalid lead

/-- `decodeURIComponent`, `none` for `URIError`. -/
def decodeURIComponentM (s : JSStr) : Option JSStr :=
  decodeURIGo (s.length + 1) s

/-- `str.replace(/\+/g, ' ')`. -/
def replacePlusM (s : JSStr) : JSStr :=
  s.map fun c => if c = '+' then ' ' else c

/-- encoding.ts `defaultDecoder`: `+` to space, percent-decode, and on
a malformed escape return the original string unchanged. -/
def defaultDecoderM (s : JSStr) : JSStr :=
  match decodeURIComponentM (replacePlusM s) with
  | some r => r
  | none => s

/-! ## parser.ts: decode and the top-level parse loop -/

/-- parser.ts `decodeKey` (no custom decoder; charset utf-8;
`interpretNumericEntities` off; `defaultDecoder` never throws so the
catch is dead). -/
def decodeKeyM (key : JSStr) : JSStr :=
  if key = [] then [] else defaultDecoderM key

/-- parser.ts `decodeValue`. -/
def decodeValueM (value : JSStr) (opts : ParseOpts) : JSVal :=
  if value = [] then (if opts.strictNullHandling then .null else .str [])
  else autoConvertM (defaultDecoderM value) opts.parseNumbers opts.parseBooleans

/-- parser.ts `parseKeyValue`'s comma splitting (lines 162-166). -/
def commaAdjust (value : JSVal) (opts : ParseOpts) : JSVal :=
  if opts.comma then
    match value with
    | .str s =>
        if s.contains ',' then
          .arr ((splitOnChar ',' s).map fun piece =>
            autoConvertM (trimM piece) opts.parseNumbers opts.parseBooleans)
        else .str s
    | v => v
  else value

/-- parser.ts `parseKeyValue`. -/
def parseKeyValueM (result : JSVal) (key : JSStr) (value : JSVal)
    (opts : ParseOpts) : Except Err JSVal :=
  let value := commaAdjust value opts
  let keyPath := parseKeyPathM key opts
  setNestedValueM result keyPath value opts 0

/-- The first `=` in a pair (`pair.indexOf('=')` plus the two slices). -/
def splitAtEq : JSStr → Option (JSStr × JSStr)
  | [] => none
  | c :: rest =>
      if c = '=' then some ([], rest)
      else (splitAtEq rest).map fun kv => (c :: kv.1, kv.2)

/-- The body of parse's pair loop (parser.ts lines 58-89), with the
`parameterCount` counter and the silent `break` past the limit.
`checkLimit` is called with `throwOnExceeded = false` and never throws. -/
def parsePairsM (opts : ParseOpts) : List JSStr → Nat → JSVal → Except Err JSVal
  | [], _, result => .ok result
  | pair :: rest, parameterCount, result =>
      let parameterCount := parameterCount + 1
      if parameterCount > opts.parameterLimit then .ok result  -- break
      else if pair = [] then parsePairsM opts rest parameterCount result
      else
        let kv :=
          match splitAtEq pair with
          | none => (pair, ([] : JSStr))
            -- no '=': `value = opts.strictNullHandling ? '' : ''` — both arms ''
          | some kv => kv
        let decodedKey := decodeKeyM kv.1
        let decodedValue := decodeValueM kv.2 opts
        if decodedKey = [] then parsePairsM opts rest parameterCount result
        else
          match parseKeyValueM result decodedKey decodedValue opts with
          | .error e => .error e
          | .ok result => parsePairsM opts rest parameterCount result

/-- parser.ts `parse` (delimiter fixed at the default `'&'`;
`ignoreQueryPrefix` / `charsetSentinel` fixed at their false defaults). -/
def parseM (input : JSStr) (opts : ParseOpts) : Except Err JSVal :=
  if input = [] then .ok (.obj [])  -- `!input` short-circuit
  else
    let str := trimM input
    let pairs := splitOnChar '&' str
    parsePairsM opts pairs 0 (.obj [])

/-! ## encoding.ts: the default encoders -/

/-- The characters `encodeURIComponent` leaves unescaped:
`A-Z a-z 0-9 - _ . ! ~ * ' ( )`. -/
def isUriUnreserved (c : Char) : Bool :=
  ('A' ≤ c && c ≤ 'Z') || ('a' ≤ c && c ≤ 'z') || ('0' ≤ c && c ≤ '9') ||
  c = '-' || c = '_' || c = '.' || c = '!' || c = '~' || c = '*' ||
  c = '\'' || c = '(' || c = ')'

/-- UTF-8 bytes of a scalar value. -/
def utf8EncodeNat (n : Nat) : List Nat :=
  if n < 0x80 then [n]
  else if n < 0x800 then [0xC0 + n / 64, 0x80 + n % 64]
  else if n < 0x10000 then [0xE0 + n / 4096, 0x80 + n / 64 % 64, 0x80 + n % 64]
  else [0xF0 + n / 262144, 0x80 + n / 4096 % 64, 0x80 + n / 64 % 64, 0x80 + n % 64]

/-- Uppercase hex digit. -/
def hexDigitUC (n : Nat) : Char :=
  if n < 10 then Char.ofNat (48 + n) else Char.ofNat (55 + n)

/-- A byte as a `%XX` escape (uppercase, as `encodeURIComponent` and
`charCodeAt(0).toString(16).toUpperCase()` both produce for the
characters involved). -/
def percentHex (b : Nat) : JSStr := ['%', hexDigitUC (b / 16), hexDigitUC (b % 16)]

/-- ECMA-262 `encodeURIComponent`. -/
def encodeURIComponentM (s : JSStr) : JSStr :=
  s.flatMap fun c =>
    if isUriUnreserved c then [c]
    else (utf8EncodeNat c.toNat).flatMap percentHex

/-- encoding.ts `rfc3986Encoder`: `encodeURIComponent` plus escaping of
`!'()*` (each replaced by its `%XX` upper-case escape). -/
def rfc3986EncoderM (s : JSStr) : JSStr :=
  (encodeURIComponentM s).flatMap fun c =>
    if c = '!' || c = '\'' || c = '(' || c = ')' || c = '*' then percentHex c.toNat
    else [c]

/-- `str.replace(/%20/g, '+')`. -/
def replacePercent20 : JSStr → JSStr
  | '%' :: '2' :: '0' :: rest => '+' :: replacePercent20 rest
  | c :: rest => c :: replacePercent20 rest
  | [] => []

/-- encoding.ts `rfc1738Encoder`. -/
def rfc1738EncoderM (s : JSStr) : JSStr :=
  replacePercent20 (rfc3986EncoderM s)

/-- The `Format` union type from types.ts. -/
inductive Format : Type where
  | rfc3986 | rfc1738
deriving DecidableEq, Repr

/-- encoding.ts `getEncoder`. -/
def getEncoderM : Format → JSStr → JSStr
  | .rfc3986 => rfc3986EncoderM
  | .rfc1738 => rfc1738EncoderM

/-! ## stringifier.ts -/

/-- The `ArrayFormat` union type from types.ts (`repeatFmt` models the
`'repeat'` member). -/
inductive ArrayFormat : Type where
  | indices | brackets | repeatFmt | comma
deriving DecidableEq, Repr

/-- Modelled subset of `StringifyOptions` (types.ts) with the library
defaults; omitted options (`sort`, `filter`, custom `encoder`,
`serializeDate`, `charsetSentinel`, `commaRoundTrip`, legacy `indices`)
stay at their defaults / are unused by the statements below. -/
structure StrOpts : Type where
  addQueryPrefix : Bool := false
  allowDots : Bool := false
  allowEmptyArrays : Bool := false
  arrayFormat : ArrayFormat := .indices
  delimiter : JSStr := js "&"
  encode : Bool := true
  encodeDotInKeys : Bool := false
  encodeValuesOnly : Bool := false
  format : Format := .rfc3986
  skipNulls : Bool := false
  strictNullHandling : Bool := false
deriving DecidableEq, Repr

instance : Inhabited StrOpts := ⟨{}⟩

/-- The `encoder` closure built in `stringify` (line 317):
`opts.encode ? getEncoder(opts.format) : identity`. -/
def encoderApp (opts : StrOpts) (s : JSStr) : JSStr :=
  if opts.encode then getEncoderM opts.format s else s

/-- stringifier.ts `encodeKey` (no custom encoder hook; charset utf-8). -/
def encodeKeyM (key : JSStr) (opts : StrOpts) : JSStr :=
  if !opts.encode then key
  else if opts.encodeValuesOnly then key
  else getEncoderM opts.format key

/-- stringifier.ts `encodeValue` (no custom encoder hook; charset utf-8). -/
def encodeValueM (value : JSStr) (opts : StrOpts) : JSStr :=
  if !opts.encode then value else getEncoderM opts.format value

/-- `Array.prototype.join`-style separator interleaving. -/
def joinSep (sep : JSStr) : List JSStr → JSStr
  | [] => []
  | [x] => x
  | x :: xs => x ++ sep ++ joinSep sep xs

mutual

/-- JS `String(v)` (`null`/`undefined` elements render as empty inside
an array join, which is `Array.prototype.toString`). -/
def jsToStringM : JSVal → JSStr
  | .str s => s
  | .num n => intToStr n
  | .bool b => if b then js "true" else js "false"
  | .null => js "null"
  | .undef => js "undefined"
  | .obj _ => js "[object Object]"
  | .arr xs => jsToStringElems xs

/-- The element rendering of `Array.prototype.join(',')`
(`null`/`undefined` elements render as empty). -/
def jsToStringElems : List JSVal → JSStr
  | [] => []
  | [e] =>
      (match e with
       | .null => []
       | .undef => []
       | e => jsToStringM e)
  | e :: rest =>
      (match e with
       | .null => []
       | .undef => []
       | e => jsToStringM e) ++ ',' :: jsToStringElems rest

end

/-- stringifier.ts `stringifyNull`. -/
def stringifyNullM (key : JSStr) (opts : StrOpts) : List JSStr :=
  if opts.strictNullHandling then [encodeKeyM key opts]
  else [encodeKeyM key opts ++ ['=']]

/-- stringifier.ts `stringifyPrimitive`. -/
def stringifyPrimitiveM (key : JSStr) (v : JSVal) (opts : StrOpts) : List JSStr :=
  [encodeKeyM key opts ++ '=' :: encodeValueM (jsToStringM v) opts]

/-- `objKey.replace(/\./g, '%2E')` (stringifyObject, line 549). -/
def replaceDotWith2E (s : JSStr) : JSStr :=
  s.flatMap fun c => if c = '.' then js "%2E" else [c]

/-- The nested key synthesis of `stringifyObject` (lines 546-553). -/
def nestedKeyOf (key objKey : JSStr) (opts : StrOpts) : JSStr :=
  if opts.allowDots then
    if opts.encodeDotInKeys then key ++ '.' :: replaceDotWith2E objKey
    else key ++ '.' :: objKey
  else key ++ '[' :: objKey ++ [']']

mutual

/-- stringifier.ts `stringifyValue` / `stringifyArray` /
`stringifyObject` (the `keyPath` accumulator of the source carries no
behaviour and is dropped).  `stringifyArrayGo` is the indexed `for`
loop of `stringifyArray`; `stringifyObjectGo` the key loop of
`stringifyObject` (no `sort` comparator configured). -/
def stringifyValueM : JSStr → JSVal → StrOpts → List JSStr
  | key, .null, opts => stringifyNullM key opts
  | _, .undef, _ => []
  | key, .arr xs, opts =>
      -- stringifyArray (lines 468-521)
      if xs.isEmpty then
        if opts.allowEmptyArrays then [encodeKeyM key opts ++ js "[]"] else []
      else stringifyArrayGo key xs opts 0
  | key, .obj fields, opts => stringifyObjectGo key fields opts
  | key, v, opts => stringifyPrimitiveM key v opts

/-- The element loop of `stringifyArray`; `i` is the loop index, the
list argument the elements from `i` on (so at `i = 0` it is the whole
array, as the `comma` branch requires). -/
def stringifyArrayGo : JSStr → List JSVal → StrOpts → Nat → List JSStr
  | _, [], _, _ => []
  | key, v :: rest, opts, i =>
      match v with
      | .undef => stringifyArrayGo key rest opts (i + 1)  -- continue
      | _ =>
          match opts.arrayFormat with
          | .indices =>
              stringifyValueM (key ++ '[' :: natToStr i ++ [']']) v opts ++
                stringifyArrayGo key rest opts (i + 1)
          | .brackets =>
              stringifyValueM (key ++ js "[]") v opts ++
                stringifyArrayGo key rest opts (i + 1)
          | .repeatFmt =>
              stringifyValueM key v opts ++
                stringifyArrayGo key rest opts (i + 1)
          | .comma =>
              if i = 0 then
                -- join ALL defined elements' string forms and return the
                -- single pair (lines 499-507)
                [encodeKeyM key opts ++ '=' ::
                  joinSep (encoderApp opts (js ","))
                    ((v :: rest).filterMap fun e =>
                      match e with
                      | .undef => none
                      | e => some (encodeValueM (jsToStringM e) opts))]
              else stringifyArrayGo key rest opts (i + 1)  -- continue

/-- The key loop of `stringifyObject` (lines 540-560). -/
def stringifyObjectGo : JSStr → List (JSStr × JSVal) → StrOpts → List JSStr
  | _, [], _ => []
  | key, (objKey, v) :: rest, opts =>
      match v with
      | .undef => stringifyObjectGo key rest opts
      | .null =>
          if opts.skipNulls then stringifyObjectGo key rest opts
          else
            stringifyValueM (nestedKeyOf key objKey opts) v opts ++
              stringifyObjectGo key rest opts
      | _ =>
          stringifyValueM (nestedKeyOf key objKey opts) v opts ++
            stringifyObjectGo key rest opts

end

/-- The top-level key loop of `stringify` (lines 319-328). -/
def stringifyTopGo : List (JSStr × JSVal) → StrOpts → List JSStr
  | [], _ => []
  | (key, v) :: rest, opts =>
      match v with
      | .undef => stringifyTopGo rest opts
      | .null =>
          if opts.skipNulls then stringifyTopGo rest opts
          else stringifyValueM key v opts ++ stringifyTopGo rest opts
      | _ => stringifyValueM key v opts ++ stringifyTopGo rest opts

/-- stringifier.ts `stringify` (no filter / sort / charset sentinel
configured; top-level non-objects are outside the `StringifyInput`
record type and return the empty string via the `!input` guard). -/
def stringifyM (input : JSVal) (opts : StrOpts) : JSStr :=
  match input with
  | .obj fields =>
      let pairs := stringifyTopGo fields opts
      let result := joinSep opts.delimiter pairs
      if opts.addQueryPrefix && result ≠ [] then '?' :: result else result
  | _ => []

/-- The array produced by `maybeConvertToArray`'s `arr[index] = obj[key]`
loop on an ascending all-numeric field list, written out shape-first:
each entry sits at its index, with the gaps before it filled by
`undefined` holes (present-but-undefined slots). -/
def buildFrom (start : Nat) : List (JSStr × JSVal) → List JSVal
  | [] => []
  | p :: rest =>
      List.replicate (parseIntM p.1 - start) JSVal.undef ++
        p.2 :: buildFrom (parseIntM p.1 + 1) rest

/-! ## A heap model of stringify, for the frame property

JS objects are mutable heap cells.  To state that `stringify` does not
mutate its input, the relevant code is re-translated over an explicit
heap: nodes live at numeric addresses, property values are primitives
or references, allocation appends a cell, and a property write updates
a cell in place.  `applyFilter` (stringifier.ts lines 348-379) is the
one stringify helper that allocates and writes (into its own fresh
result object); every other helper only reads, so the read-out of a
heap value into the pure `JSVal` tree (`readVal`) composes with the
pure stringifier above.  A user-supplied filter callback is modelled
as a pure function of key and value. -/

/-- Primitive (non-reference) JS values stored inline. -/
inductive Prim : Type where
  | undef
  | null
  | str (s : JSStr)
  | num (n : Int)
  | bool (b : Bool)

/-- A property value: a primitive, or a reference to a heap cell. -/
inductive HVal : Type where
  | prim (p : Prim)
  | ref (a : Nat)

/-- A heap cell: a plain object or an array. -/
inductive Node : Type where
  | obj (fields : List (JSStr × HVal))
  | arr (elems : List HVal)

/-- The heap: cell at address `a` is the list entry at index `a`. -/
abbrev Heap : Type := List Node

/-- Read the cell at an address. -/
def heapGet (h : Heap) (a : Nat) : Option Node := h.get? a

/-- Allocate a fresh cell (`\x7b\x7d` / `[]` literals): append it and hand
back its address. -/
def heapAlloc (h : Heap) (n : Node) : Heap × Nat := (h ++ [n], h.length)

/-- Overwrite the cell at an address (a property write rewrites the
owning cell). -/
def heapWrite (h : Heap) (a : Nat) (n : Node) : Heap := h.set a n

/-- The `filter` option: absent, an allow-list of keys, or a
transform function (modelled pure). -/
inductive Filter : Type where
  | noFilter
  | allowList (keys : List JSStr)
  | transform (f : JSStr → HVal → Option HVal)

/-- JS `key in node` (allow-list membership test, line 359). -/
def nodeHasKey : Node → JSStr → Bool
  | .obj fs, k => fs.any fun p => decide (p.1 = k)
  | .arr xs, k => isArrayIndexM k && decide (parseIntM k < xs.length)

/-- JS `node[key]` read (missing property reads as `undefined`). -/
def nodeFieldGet : Node → JSStr → HVal
  | .obj fs, k => ((fs.find? fun p => decide (p.1 = k)).map Prod.snd).getD (.prim .undef)
  | .arr xs, k =>
      if isArrayIndexM k then (xs.get? (parseIntM k)).getD (.prim .undef)
      else (.prim .undef : HVal)

/-- JS `Object.keys` (array indices render as decimal strings). -/
def nodeKeys : Node → List JSStr
  | .obj fs => fs.map Prod.fst
  | .arr xs => (List.range xs.length).map natToStr

/-- JS `Object.entries`. -/
def nodeEntries : Node → List (JSStr × HVal)
  | .obj fs => fs
  | .arr xs => xs.enum.map fun p => (natToStr p.1, p.2)

/-- `result[key] = v` on the filter's freshly created result object:
a new own property appends in insertion order. -/
def appendField (h : Heap) (r : Nat) (k : JSStr) (v : HVal) : Heap :=
  match heapGet h r with
  | some (.obj rf) => heapWrite h r (.obj (rf ++ [(k, v)]))
  | _ => h

/-- stringifier.ts `applyFilter` (lines 348-379): no filter returns
the input itself; an allow-list or transform filter allocates a fresh
result object and writes the selected entries into it. -/
def applyFilterH (h : Heap) (root : Nat) : Filter → Heap × Nat
  | .noFilter => (h, root)
  | .allowList keys =>
      let hr := heapAlloc h (.obj [])
      let h2 := keys.foldl (fun hh k =>
        match heapGet hh root with
        | some n => if nodeHasKey n k then appendField hh hr.2 k (nodeFieldGet n k) else hh
        | none => hh) hr.1
      (h2, hr.2)
  | .transform f =>
      let hr := heapAlloc h (.obj [])
      let entries := match heapGet h root with | some n => nodeEntries n | none => []
      let h2 := entries.foldl (fun hh kv =>
        match f kv.1 kv.2 with
        | some w => appendField hh hr.2 kv.1 w
        | none => hh) hr.1
      (h2, hr.2)

/-- A primitive as a pure tree value. -/
def primVal : Prim → JSVal
  | .undef => .undef
  | .null => .null
  | .str s => .str s
  | .num n => .num n
  | .bool b => .bool b

/-- Read a heap value out into the pure tree (the read-only traversal
the recursive stringifier performs; fuel covers any acyclic heap, and
a cyclic input would overflow the JS stack anyway). -/
def readVal : Nat → Heap → HVal → JSVal
  | 0, _, _ => .undef
  | _ + 1, _, .prim p => primVal p
  | fuel + 1, h, .ref a =>
      match heapGet h a with
      | some (.obj fs) => .obj (fs.map fun kv => (kv.1, readVal fuel h kv.2))
      | some (.arr xs) => .arr (xs.map (readVal fuel h))
      | none => (.undef : JSVal)

/-- The `for (const key of keys)` loop of `stringify`
(lines 319-328) over the filtered node: reads only. -/
def topPairsH (h : Heap) (n : Node) (fuel : Nat) (opts : StrOpts) :
    List JSStr → List JSStr
  | [] => []
  | k :: ks =>
      match nodeFieldGet n k with
      | .prim .undef => topPairsH h n fuel opts ks
      | .prim .null =>
          if opts.skipNulls then topPairsH h n fuel opts ks
          else stringifyValueM k .null opts ++ topPairsH h n fuel opts ks
      | v => stringifyValueM k (readVal fuel h v) opts ++ topPairsH h n fuel opts ks

/-- stringifier.ts `stringify` over the heap: a primitive (dangling)
input returns `""`; otherwise the filter runs first and the pair loop
then only reads (no sort comparator / charset sentinel configured).
The returned heap is the heap after the call. -/
def stringifyH (h : Heap) (root : Nat) (opts : StrOpts) (filter : Filter) :
    Heap × JSStr :=
  match heapGet h root with
  | none => (h, [])
  | some _ =>
      let fr := applyFilterH h root filter
      let node := match heapGet fr.1 fr.2 with | some n => n | none => .obj []
      let pairs := topPairsH fr.1 node (fr.1.length + 1) opts (nodeKeys node)
      let result := joinSep opts.delimiter pairs
      (fr.1, if opts.addQueryPrefix && result ≠ [] then '?' :: result else result)

/-- The singleton nested-object chain `\x7bk1:\x7bk2:...\x7bkn:v\x7d...\x7d\x7d` that
`setNestedValue` builds along a fresh path. -/
def nestPath : List JSStr → JSVal → JSVal
  | [], v => v
  | k :: ks, v => .obj [(k, nestPath ks v)]

/-- The literal bracket-annotated flat key the depth collapse produces
from a `b[b][b]...` tail: `b` followed by `m` literal `[b]` groups. -/
def collapsedKey (m : Nat) : JSStr :=
  'b' :: (List.replicate m (js "[b]")).flatten

/-! ## The round-trip domain and its specification functions -/

/-! Structure size (for strong induction). -/
mutual

def sizeV : JSVal → Nat
  | .obj fields => 1 + sizeFields fields
  | .arr xs => 1 + sizeElems xs
  | _ => 1

def sizeFields : List (JSStr × JSVal) → Nat
  | [] => 0
  | p :: rest => sizeV p.2 + 1 + sizeFields rest

def sizeElems : List JSVal → Nat
  | [] => 0
  | v :: rest => sizeV v + 1 + sizeElems rest

end

/-! Nesting height: a scalar is 0, a container is 1 + its children's
maximum (the longest key-path a leaf generates). -/
mutual

def heightV : JSVal → Nat
  | .obj fields => 1 + heightFields fields
  | .arr xs => 1 + heightElems xs
  | _ => 0

def heightFields : List (JSStr × JSVal) → Nat
  | [] => 0
  | p :: rest => max (heightV p.2) (heightFields rest)

def heightElems : List JSVal → Nat
  | [] => 0
  | v :: rest => max (heightV v) (heightElems rest)

end

/-! Number of scalar leaves = number of emitted `key=value` pairs. -/
mutual

def leafCount : JSVal → Nat
  | .obj fields => leafCountFields fields
  | .arr xs => leafCountElems xs
  | _ => 1

def leafCountFields : List (JSStr × JSVal) → Nat
  | [] => 0
  | p :: rest => leafCount p.2 + leafCountFields rest

def leafCountElems : List JSVal → Nat
  | [] => 0
  | v :: rest => leafCount v + leafCountElems rest

end

/-! Map every scalar leaf through `f` applied to its JS string form,
keeping the tree shape (the parse result of a stringified tree). -/
mutual

def mapLeaf (f : JSStr → JSVal) : JSVal → JSVal
  | .obj fields => .obj (mapLeafFields f fields)
  | .arr xs => .arr (mapLeafElems f xs)
  | v => f (jsToStringM v)

def mapLeafFields (f : JSStr → JSVal) : List (JSStr × JSVal) → List (JSStr × JSVal)
  | [] => []
  | p :: rest => (p.1, mapLeaf f p.2) :: mapLeafFields f rest

def mapLeafElems (f : JSStr → JSVal) : List JSVal → List JSVal
  | [] => []
  | v :: rest => mapLeaf f v :: mapLeafElems f rest

end

/-- The source's `/^-?\d+\.\d+$/`-shaped decimal strings (they denote
IEEE doubles, outside this integer-valued embedding, and are excluded
from the round-trip domain's string leaves). -/
def looksDecimalM (s : JSStr) : Bool :=
  match splitOnChar '.' s with
  | [a, b] => isIntNumericStringM a && isArrayIndexM b
  | _ => false

/-- A scalar admitted by the round-trip domain: strings that do not
look fractional and whose integer-like forms stay within 15 digits
(IEEE-exact), integers below 2^53, booleans. -/
def leafOk : JSVal → Bool
  | .str s =>
      !looksDecimalM s &&
        (!isIntNumericStringM s || decide (s.length ≤ 15))
  | .num n => decide (n.natAbs < 2 ^ 53)
  | .bool _ => true
  | _ => false

/-- The property names a plain `\x7b\x7d` object inherits from
`Object.prototype`: a read `o[k]` at one of these without an own
binding returns the inherited member, not `undefined`, so the parser's
`handleDuplicateKey` / `!obj[key]` / `isObject(obj[key])` checks
behave differently there. -/
def isObjectProtoMember (k : JSStr) : Bool :=
  k = js "constructor" || k = js "hasOwnProperty" || k = js "isPrototypeOf" ||
  k = js "propertyIsEnumerable" || k = js "toLocaleString" ||
  k = js "toString" || k = js "valueOf" || k = js "__defineGetter__" ||
  k = js "__defineSetter__" || k = js "__lookupGetter__" ||
  k = js "__lookupSetter__" || k = js "__proto__"

/-- A mapping key admitted by the round-trip domain: non-empty, not
integer-like (those would parse back as array indices), no bracket
characters (they would re-split), not a prototype-pollution name, and
not an `Object.prototype` member name (those read the inherited
function through the prototype chain in `handleDuplicateKey`, so the
duplicate combine fires and the round trip fails on them). -/
def keyOk (k : JSStr) : Bool :=
  k ≠ [] && !isArrayIndexM k && !hasPrototypePollutionM k &&
    !isObjectProtoMember k &&
    k.all fun c => !(c = '[') && !(c = ']')

/-- Pairwise-distinct keys. -/
def keysDistinct : List JSStr → Bool
  | [] => true
  | k :: rest => rest.all (fun k' => !(k' = k)) && keysDistinct rest

/-! Round-trip well-formedness of a subtree: scalars are `leafOk`;
mappings are non-empty with admissible distinct keys; sequences are
non-empty, hold at most `arrayLimit + 1 = 21` elements, and contain no
directly nested sequence (the parser rebuilds those as integer-keyed
mappings). -/
mutual

def wfV : JSVal → Bool
  | .obj fields =>
      !(fields.isEmpty) && keysDistinct (fields.map Prod.fst) && wfFields fields
  | .arr xs => !(xs.isEmpty) && decide (xs.length ≤ 21) && wfElems xs
  | v => leafOk v

def wfFields : List (JSStr × JSVal) → Bool
  | [] => true
  | p :: rest => keyOk p.1 && wfV p.2 && wfFields rest

def wfElems : List JSVal → Bool
  | [] => true
  | v :: rest =>
      (match v with
       | .arr _ => false
       | _ => true) && wfV v && wfElems rest

end

/-- The whole round-trip domain: a non-empty well-formed mapping at the
top, nested at most 6 levels (the default `depth` 5 admits key paths of
up to 6 segments), with at most 1000 leaves (the default
`parameterLimit`). -/
def wfTop : JSVal → Bool
  | .obj fields =>
      wfV (.obj fields) && decide (heightV (.obj fields) ≤ 6) &&
        decide (leafCount (.obj fields) ≤ 1000)
  | _ => false

/-- The bracket-chain key text of a segment path
(`a`, `a[b]`, `a[b][0]`, ...). -/
def renderPath : List JSStr → JSStr
  | [] => []
  | k :: rest => k ++ (rest.map fun s => '[' :: s ++ [']']).flatten

/-- What the tree builder creates below a not-yet-bound slot: fresh
containers chosen by each segment's syntax (`handleArrayValue` makes
the element containers plain objects, hence no nested fresh arrays in
the domain). -/
def buildFresh : List JSStr → JSVal → JSVal
  | [], w => w
  | k :: rest, w =>
      if isArrayIndexM k then .arr [buildFresh rest w]
      else .obj [(k, buildFresh rest w)]

/-- The specification of one parser write: insert `w` at the given key
path, descending through present containers and creating fresh ones
below the first absent slot. -/
def graft : JSVal → List JSStr → JSVal → JSVal
  | _, [], w => w
  | .obj fields, k :: rest, w =>
      (match jsGet fields k with
       | .undef => .obj (jsSet fields k (buildFresh rest w))
       | sub => .obj (jsSet fields k (graft sub rest w)))
  | .arr xs, k :: rest, w =>
      if parseIntM k < xs.length then
        .arr (xs.set (parseIntM k) (graft (listGetU xs (parseIntM k)) rest w))
      else .arr (xs ++ [buildFresh rest w])
  | t, _ :: _, _ => t

/-- Every integer-like segment is `0` (what fresh descent requires:
the first write into a fresh slot targets element 0). -/
def freshIdx0 : List JSStr → Bool
  | [] => true
  | k :: rest => (!isArrayIndexM k || decide (parseIntM k = 0)) && freshIdx0 rest

/-- No two consecutive integer-like segments (directly nested
sequences are outside the domain). -/
def noConsecIdx : List JSStr → Bool
  | [] => true
  | [_] => true
  | a :: b :: rest =>
      !(isArrayIndexM a && isArrayIndexM b) && noConsecIdx (b :: rest)

/-- One admissible path segment: non-empty and not a pollution name. -/
def segOk (k : JSStr) : Bool :=
  !(k = []) && !hasPrototypePollutionM k

/-- Admissible key path for the builder lemmas: admissible segments,
no consecutive indices, indices within the array limit. -/
def pathOk (lim : Nat) (P : List JSStr) : Bool :=
  P.all segOk && noConsecIdx P &&
    P.all fun k => !isArrayIndexM k || decide (parseIntM k ≤ lim)

/-- Readiness of an accumulator for a write at a path: the walk
descends through containers whose kind matches each segment's syntax,
ends at an absent slot (or leaves the present part entirely), indices
stay within the built prefix plus one, and the post-absence tail only
ever asks for element 0. -/
def preB : JSVal → List JSStr → Bool
  | _, [] => false
  | .obj fields, k :: rest =>
      !isArrayIndexM k &&
        (match jsGet fields k with
         | .undef => freshIdx0 rest
         | sub => preB sub rest)
  | .arr xs, k :: rest =>
      isArrayIndexM k &&
        (if parseIntM k < xs.length then preB (listGetU xs (parseIntM k)) rest
         else decide (parseIntM k = xs.length) && freshIdx0 rest)
  | _, _ => false

/-- `encodeURIComponent` keeps, after the `rfc3986Encoder` post-pass
also escapes `!'()*`: the characters that survive unescaped. -/
def isU2 (c : Char) : Bool :=
  ('A' ≤ c && c ≤ 'Z') || ('a' ≤ c && c ≤ 'z') || ('0' ≤ c && c ≤ '9') ||
  c = '-' || c = '_' || c = '.' || c = '~'

/-- Per-character form of the RFC 3986 encoder. -/
def enc2Char (c : Char) : JSStr :=
  if isU2 c then [c] else (utf8EncodeNat c.toNat).flatMap percentHex

/-- The last segment of a path (`[]` for the empty path). -/
def lastSeg : List JSStr → JSStr
  | [] => []
  | [k] => k
  | _ :: rest => lastSeg rest

/-- Bracket-free path segments: the rendered bracket chain re-splits
into exactly these segments when none of them holds a bracket. -/
def brackFree (P : List JSStr) : Bool :=
  P.all fun k => k.all fun c => !(c = '[') && !(c = ']')

/-! Leaves whose string form coerces back to the leaf itself under
`parseNumbers` / `parseBooleans`: numbers and booleans always do;
strings do unless they themselves look boolean or numeric (those widen,
the claim's "up to scalar type widening" proviso). -/
mutual

def strictV : JSVal → Bool
  | .obj fields => strictFieldsV fields
  | .arr xs => strictElemsV xs
  | .str s => !isBooleanStringM s && !isIntNumericStringM s
  | _ => true

def strictFieldsV : List (JSStr × JSVal) → Bool
  | [] => true
  | p :: rest => strictV p.2 && strictFieldsV rest

def strictElemsV : List JSVal → Bool
  | [] => true
  | v :: rest => strictV v && strictElemsV rest

end

/-! ## Infrastructure lemmas -/

theorem engine_succ (opts : ParseOpts) (f : Nat) (c : PCall) :
    engine opts (f + 1) c = engineStep opts (engine opts f) c := rfl

/-- The engine's result does not depend on the fuel, as long as the
fuel covers `pcallFuel` (each step consumes one unit and passes a call
whose own requirement is at least one smaller). -/
theorem engine_irrel (opts : ParseOpts) :
    ∀ f₁ : Nat, ∀ f₂ c, pcallFuel c ≤ f₁ → pcallFuel c ≤ f₂ →
      engine opts f₁ c = engine opts f₂ c := by
  intro f₁
  induction f₁ using Nat.strong_induction_on with
  | _ f₁ ih =>
    intro f₂ c h1 h2
    match c with
    | .set target keyPath value depth =>
      have hμ : pcallFuel (.set target keyPath value depth) = 2 * keyPath.length + 1 := rfl
      rw [hμ] at h1 h2
      obtain ⟨a, rfl⟩ : ∃ a, f₁ = a + 1 := ⟨f₁ - 1, by omega⟩
      obtain ⟨b, rfl⟩ : ∃ b, f₂ = b + 1 := ⟨f₂ - 1, by omega⟩
      rw [engine_succ, engine_succ]
      simp only [engineStep]
      split
      · rfl
      · split
        · rfl
        · match keyPath with
          | [] => rfl
          | currentKey :: rest =>
            simp only
            split
            · rfl
            · split
              · rfl
              · match rest with
                | [] => rfl
                | nextKey :: more =>
                  simp only
                  match target with
                  | .obj fields =>
                    simp only
                    split
                    · apply ih a (by omega) b
                      · simp only [pcallFuel, List.length_cons] at *; omega
                      · simp only [pcallFuel, List.length_cons] at *; omega
                    · split
                      · exact congrArg (Except.map _)
                          (ih a (by omega) b _ (by simp only [pcallFuel, List.length_cons] at *; omega)
                            (by simp only [pcallFuel, List.length_cons] at *; omega))
                      · rfl
                  | .undef => rfl
                  | .null => rfl
                  | .str s => rfl
                  | .num n => rfl
                  | .bool b' => rfl
                  | .arr xs => rfl
    | .harr target key remainingPath value depth =>
      have hμ : pcallFuel (.harr target key remainingPath value depth) =
          2 * remainingPath.length + 2 := rfl
      rw [hμ] at h1 h2
      obtain ⟨a, rfl⟩ : ∃ a, f₁ = a + 1 := ⟨f₁ - 1, by omega⟩
      obtain ⟨b, rfl⟩ : ∃ b, f₂ = b + 1 := ⟨f₂ - 1, by omega⟩
      rw [engine_succ, engine_succ]
      simp only [engineStep]
      match target with
      | .undef => rfl
      | .null => rfl
      | .str s => rfl
      | .num n => rfl
      | .bool b' => rfl
      | .arr xs => rfl
      | .obj fields =>
        simp only
        match remainingPath with
        | [] => rfl
        | indexKey :: restTail =>
          simp only [List.length_cons] at h1 h2
          simp only
          split
          · -- empty brackets: push
            match hget : jsGet fields key with
            | .arr xs =>
              cases restTail with
              | nil => rfl
              | cons r rs =>
                simp only
                exact congrArg (Except.map _)
                  (ih a (by omega) b _ (by simp only [pcallFuel, List.length_cons] at *; omega)
                    (by simp only [pcallFuel, List.length_cons] at *; omega))
            | .undef => rfl
            | .null => rfl
            | .str s => rfl
            | .num n => rfl
            | .bool b' => rfl
            | .obj g => rfl
          · split
            · -- numeric index
              split
              · -- over the array limit
                exact congrArg (Except.map _)
                  (ih a (by omega) b _ (by simp only [pcallFuel, List.length_cons] at *; omega)
                    (by simp only [pcallFuel, List.length_cons] at *; omega))
              · match hget : jsGet fields key with
                | .arr xs =>
                  cases restTail with
                  | nil => rfl
                  | cons r rs =>
                    simp only
                    exact congrArg (Except.map _)
                      (ih a (by omega) b _ (by simp only [pcallFuel, List.length_cons] at *; omega)
                        (by simp only [pcallFuel, List.length_cons] at *; omega))
                | .obj g =>
                  cases restTail with
                  | nil => rfl
                  | cons r rs =>
                    simp only
                    exact congrArg (Except.map _)
                      (ih a (by omega) b _ (by simp only [pcallFuel, List.length_cons] at *; omega)
                        (by simp only [pcallFuel, List.length_cons] at *; omega))
                | .undef => rfl
                | .null => rfl
                | .str s => rfl
                | .num n => rfl
                | .bool b' => rfl
            · -- non-numeric key (dead code branch)
              match hget : jsGet fields key with
              | .arr xs =>
                exact congrArg (Except.map _)
                  (ih a (by omega) b _ (by simp only [pcallFuel, List.length_cons] at *; omega)
                    (by simp only [pcallFuel, List.length_cons] at *; omega))
              | .undef =>
                exact congrArg (Except.map _)
                  (ih a (by omega) b _ (by simp only [pcallFuel, List.length_cons] at *; omega)
                    (by simp only [pcallFuel, List.length_cons] at *; omega))
              | .null =>
                exact congrArg (Except.map _)
                  (ih a (by omega) b _ (by simp only [pcallFuel, List.length_cons] at *; omega)
                    (by simp only [pcallFuel, List.length_cons] at *; omega))
              | .str s =>
                exact congrArg (Except.map _)
                  (ih a (by omega) b _ (by simp only [pcallFuel, List.length_cons] at *; omega)
                    (by simp only [pcallFuel, List.length_cons] at *; omega))
              | .num n =>
                exact congrArg (Except.map _)
                  (ih a (by omega) b _ (by simp only [pcallFuel, List.length_cons] at *; omega)
                    (by simp only [pcallFuel, List.length_cons] at *; omega))
              | .bool b' =>
                exact congrArg (Except.map _)
                  (ih a (by omega) b _ (by simp only [pcallFuel, List.length_cons] at *; omega)
                    (by simp only [pcallFuel, List.length_cons] at *; omega))
              | .obj g =>
                exact congrArg (Except.map _)
                  (ih a (by omega) b _ (by simp only [pcallFuel, List.length_cons] at *; omega)
                    (by simp only [pcallFuel, List.length_cons] at *; omega))

theorem engine_set_eq (opts : ParseOpts) (f : Nat) (t : JSVal) (p : List JSStr)
    (v : JSVal) (d : Nat) (h : 2 * p.length + 1 ≤ f) :
    engine opts f (.set t p v d) = setNestedValueM t p v opts d :=
  engine_irrel opts f (2 * p.length + 1) (.set t p v d) h (le_refl _)

theorem engine_harr_eq (opts : ParseOpts) (f : Nat) (t : JSVal) (k : JSStr)
    (p : List JSStr) (v : JSVal) (d : Nat) (h : 2 * p.length + 2 ≤ f) :
    engine opts f (.harr t k p v d) = handleArrayValueM t k p v opts d :=
  engine_irrel opts f (2 * p.length + 2) (.harr t k p v d) h (le_refl _)

/-! ### Digit strings -/

theorem natToStrAux_succ (f n : Nat) :
    natToStrAux (f + 1) n = if n < 10 then [Char.ofNat (48 + n)]
      else natToStrAux f (n / 10) ++ [Char.ofNat (48 + n % 10)] := rfl

theorem natToStrAux_irrel : ∀ n f₁ f₂ : Nat, n < f₁ → n < f₂ →
    natToStrAux f₁ n = natToStrAux f₂ n := by
  intro n
  induction n using Nat.strong_induction_on with
  | _ n ih =>
    intro f₁ f₂ h1 h2
    obtain ⟨a, rfl⟩ : ∃ a, f₁ = a + 1 := ⟨f₁ - 1, by omega⟩
    obtain ⟨b, rfl⟩ : ∃ b, f₂ = b + 1 := ⟨f₂ - 1, by omega⟩
    by_cases h10 : n < 10
    · rw [natToStrAux_succ, natToStrAux_succ, if_pos h10, if_pos h10]
    · have hd : n / 10 < n := Nat.div_lt_self (by omega) (by omega)
      rw [natToStrAux_succ, natToStrAux_succ, if_neg h10, if_neg h10,
        ih (n / 10) hd a b (by omega) (by omega)]

/-- `String(n)` unfolded one decimal digit at a time. -/
theorem natToStr_eq (n : Nat) :
    natToStr n = if n < 10 then [Char.ofNat (48 + n)]
      else natToStr (n / 10) ++ [Char.ofNat (48 + n % 10)] := by
  by_cases h10 : n < 10
  · simp [natToStr, natToStrAux, h10]
  · rw [if_neg h10, natToStr, natToStr]
    obtain ⟨m, hm⟩ : ∃ m, n = m + 1 := ⟨n - 1, by omega⟩
    subst hm
    have hdd : (m + 1) / 10 < m + 1 := Nat.div_lt_self (by omega) (by omega)
    rw [natToStrAux_succ, if_neg h10,
      natToStrAux_irrel ((m + 1) / 10) (m + 1) ((m + 1) / 10 + 1) hdd (by omega)]

theorem natToStr_digits (n : Nat) : ∀ c ∈ natToStr n, '0' ≤ c ∧ c ≤ '9' := by
  induction n using Nat.strong_induction_on with
  | _ n ih =>
    intro c hc
    rw [natToStr_eq] at hc
    by_cases h10 : n < 10
    · simp only [if_pos h10, List.mem_singleton] at hc
      subst hc
      interval_cases n <;> exact ⟨by decide, by decide⟩
    · simp only [if_neg h10, List.mem_append, List.mem_singleton] at hc
      rcases hc with hc | hc
      · exact ih (n / 10) (Nat.div_lt_self (by omega) (by omega)) c hc
      · subst hc
        have h9 : n % 10 < 10 := Nat.mod_lt _ (by omega)
        set m := n % 10 with hm
        interval_cases m <;> exact ⟨by decide, by decide⟩

theorem natToStr_ne_nil (n : Nat) : natToStr n ≠ [] := by
  rw [natToStr_eq]
  split <;> simp

theorem isArrayIndexM_natToStr (n : Nat) : isArrayIndexM (natToStr n) = true := by
  simp only [isArrayIndexM, Bool.and_eq_true, List.all_eq_true, decide_eq_true_eq, ne_eq]
  refine ⟨by simpa using natToStr_ne_nil n, fun c hc => ?_⟩
  have := natToStr_digits n c hc
  exact ⟨by exact_mod_cast this.1, by exact_mod_cast this.2⟩

theorem parseIntM_append (a b : JSStr) :
    parseIntM (a ++ b) = b.foldl (fun x c => x * 10 + (c.toNat - 48)) (parseIntM a) := by
  simp [parseIntM, List.foldl_append]

theorem parseIntM_natToStr (n : Nat) : parseIntM (natToStr n) = n := by
  induction n using Nat.strong_induction_on with
  | _ n ih =>
    rw [natToStr_eq]
    by_cases h10 : n < 10
    · simp only [if_pos h10, parseIntM, List.foldl_cons, List.foldl_nil]
      have : (Char.ofNat (48 + n)).toNat = 48 + n := by
        interval_cases n <;> decide
      omega
    · simp only [if_neg h10, parseIntM_append, List.foldl_cons, List.foldl_nil]
      rw [ih (n / 10) (Nat.div_lt_self (by omega) (by omega))]
      have h9 : n % 10 < 10 := Nat.mod_lt _ (by omega)
      have : (Char.ofNat (48 + n % 10)).toNat = 48 + n % 10 := by
        set m := n % 10 with hm
        interval_cases m <;> decide
      omega

/-- A digit-only key is never one of the prototype-pollution keys. -/
theorem pollution_of_index (k : JSStr) (h : isArrayIndexM k = true) :
    hasPrototypePollutionM k = false := by
  cases hp : hasPrototypePollutionM k
  · rfl
  · exfalso
    simp only [hasPrototypePollutionM, Bool.or_eq_true, decide_eq_true_eq] at hp
    rcases hp with (hp | hp) | hp <;> (subst hp; exact absurd h (by decide))

/-! ### Object field algebra -/

theorem jsGet_nil (k : JSStr) : jsGet [] k = .undef := rfl

theorem jsGet_cons (k₀ : JSStr) (v₀ : JSVal) (rest : List (JSStr × JSVal)) (k : JSStr) :
    jsGet ((k₀, v₀) :: rest) k = if k₀ = k then v₀ else jsGet rest k := by
  simp only [jsGet, List.find?_cons]
  by_cases h : k₀ = k <;> simp [h]

theorem jsSet_nil (k : JSStr) (v : JSVal) : jsSet [] k v = [(k, v)] := rfl

theorem jsSet_cons (k₀ : JSStr) (v₀ : JSVal) (rest : List (JSStr × JSVal))
    (k : JSStr) (v : JSVal) :
    jsSet ((k₀, v₀) :: rest) k v =
      if k₀ = k then (k₀, v) :: rest else (k₀, v₀) :: jsSet rest k v := rfl

theorem jsGet_jsSet_self (fields : List (JSStr × JSVal)) (k : JSStr) (v : JSVal) :
    jsGet (jsSet fields k v) k = v := by
  induction fields with
  | nil => simp [jsSet_nil, jsGet_cons]
  | cons p rest ih =>
    obtain ⟨k₀, v₀⟩ := p
    rw [jsSet_cons]
    by_cases h : k₀ = k
    · rw [if_pos h, jsGet_cons, if_pos h]
    · rw [if_neg h, jsGet_cons, if_neg h]
      exact ih

theorem jsGet_jsSet_other (fields : List (JSStr × JSVal)) (k k' : JSStr) (v : JSVal)
    (h : k ≠ k') : jsGet (jsSet fields k v) k' = jsGet fields k' := by
  induction fields with
  | nil => rw [jsSet_nil, jsGet_cons, if_neg (fun hh => h hh), jsGet_nil]
  | cons p rest ih =>
    obtain ⟨k₀, v₀⟩ := p
    rw [jsSet_cons]
    by_cases h0 : k₀ = k
    · rw [if_pos h0, jsGet_cons, jsGet_cons]
      have hne : ¬k₀ = k' := by rw [h0]; exact h
      rw [if_neg hne, if_neg hne]
    · rw [if_neg h0, jsGet_cons, jsGet_cons]
      by_cases h1 : k₀ = k'
      · rw [if_pos h1, if_pos h1]
      · rw [if_neg h1, if_neg h1]
        exact ih

theorem jsSet_jsSet (fields : List (JSStr × JSVal)) (k : JSStr) (a b : JSVal) :
    jsSet (jsSet fields k a) k b = jsSet fields k b := by
  induction fields with
  | nil => simp [jsSet_nil, jsSet_cons]
  | cons p rest ih =>
    obtain ⟨k₀, v₀⟩ := p
    rw [jsSet_cons]
    by_cases h : k₀ = k
    · rw [if_pos h, jsSet_cons, if_pos h, jsSet_cons, if_pos h]
    · rw [if_neg h, jsSet_cons, if_neg h, jsSet_cons, if_neg h, ih]

/-- A key not bound at all reads as `undefined`. -/
theorem jsGet_undef_of_not_mem (fields : List (JSStr × JSVal)) (k : JSStr)
    (h : ∀ p ∈ fields, p.1 ≠ k) : jsGet fields k = .undef := by
  induction fields with
  | nil => rfl
  | cons p rest ih =>
    obtain ⟨k₀, v₀⟩ := p
    rw [jsGet_cons, if_neg (h (k₀, v₀) (by simp))]
    exact ih fun q hq => h q (by simp [hq])

/-- Writing a key not yet bound appends at the end. -/
theorem jsSet_append_of_not_mem (fields : List (JSStr × JSVal)) (k : JSStr) (v : JSVal)
    (h : ∀ p ∈ fields, p.1 ≠ k) : jsSet fields k v = fields ++ [(k, v)] := by
  induction fields with
  | nil => rfl
  | cons p rest ih =>
    obtain ⟨k₀, v₀⟩ := p
    rw [jsSet_cons, if_neg (h (k₀, v₀) (by simp))]
    rw [ih fun q hq => h q (by simp [hq])]
    rfl

/-! ### splitOnChar -/

theorem splitOnChar_cons (d c : Char) (rest : JSStr) :
    splitOnChar d (c :: rest) =
      if c = d then [] :: splitOnChar d rest
      else
        match splitOnChar d rest with
        | [] => [[c]]
        | h :: t => (c :: h) :: t := rfl

theorem splitOnChar_ne_nil (d : Char) (s : JSStr) : splitOnChar d s ≠ [] := by
  cases s with
  | nil => simp [splitOnChar]
  | cons c rest =>
    rw [splitOnChar_cons]
    split
    · simp
    · split <;> simp_all

theorem splitOnChar_not_mem (d : Char) (s : JSStr) (h : d ∉ s) :
    splitOnChar d s = [s] := by
  induction s with
  | nil => rfl
  | cons c rest ih =>
    simp only [List.mem_cons, not_or] at h
    rw [splitOnChar_cons, if_neg (fun hc : c = d => h.1 hc.symm), ih h.2]

theorem splitOnChar_append_sep (d : Char) (a b : JSStr) :
    splitOnChar d (a ++ d :: b) = splitOnChar d a ++ splitOnChar d b := by
  induction a with
  | nil =>
    rw [List.nil_append, splitOnChar_cons, if_pos rfl]
    rfl
  | cons c rest ih =>
    by_cases hc : c = d
    · subst hc
      rw [List.cons_append, splitOnChar_cons, if_pos rfl, ih, splitOnChar_cons,
        if_pos rfl]
      rfl
    · rw [List.cons_append, splitOnChar_cons, if_neg hc, ih, splitOnChar_cons,
        if_neg hc]
      rcases hsp : splitOnChar d rest with _ | ⟨h1, t1⟩
      · exact absurd hsp (splitOnChar_ne_nil d rest)
      · rfl

/-- Once the parameter count has reached the limit, the pair loop
consumes nothing further and returns the accumulator (the `break` at
parser.ts line 62). -/
theorem parsePairs_saturated (opts : ParseOpts) (ps : List JSStr) (c : Nat)
    (r : JSVal) (h : opts.parameterLimit ≤ c) : parsePairsM opts ps c r = .ok r := by
  cases ps with
  | nil => rfl
  | cons p rest =>
      simp only [parsePairsM]
      rw [if_pos (by omega : c + 1 > opts.parameterLimit)]

/-- Pairs beyond the parameter limit are ignored: when the pairs
before the cut exactly exhaust the limit, appending any further pairs
leaves the loop's result unchanged. -/
theorem parsePairs_truncate (opts : ParseOpts) :
    ∀ (ps extra : List JSStr) (c : Nat) (r : JSVal),
      c + ps.length = opts.parameterLimit →
      parsePairsM opts (ps ++ extra) c r = parsePairsM opts ps c r := by
  intro ps
  induction ps with
  | nil =>
      intro extra c r h
      simp only [List.length_nil] at h
      rw [List.nil_append, parsePairs_saturated opts extra c r (by omega)]
      rfl
  | cons p rest ih =>
      intro extra c r h
      simp only [List.length_cons] at h
      have hc : ¬(c + 1 > opts.parameterLimit) := by omega
      simp only [List.cons_append, parsePairsM]
      rw [if_neg hc, if_neg hc]
      by_cases hp : p = []
      · rw [if_pos hp, if_pos hp]
        exact ih extra (c + 1) r (by omega)
      · rw [if_neg hp, if_neg hp]
        cases hsp : splitAtEq p with
        | none =>
            dsimp only
            by_cases hdk : decodeKeyM p = []
            · rw [if_pos hdk, if_pos hdk]
              exact ih extra (c + 1) r (by omega)
            · rw [if_neg hdk, if_neg hdk]
              cases hres : parseKeyValueM r (decodeKeyM p)
                  (decodeValueM [] opts) opts with
              | error e => rfl
              | ok r' => exact ih extra (c + 1) r' (by omega)
        | some kv =>
            dsimp only
            by_cases hdk : decodeKeyM kv.1 = []
            · rw [if_pos hdk, if_pos hdk]
              exact ih extra (c + 1) r (by omega)
            · rw [if_neg hdk, if_neg hdk]
              cases hres : parseKeyValueM r (decodeKeyM kv.1)
                  (decodeValueM kv.2 opts) opts with
              | error e => rfl
              | ok r' => exact ih extra (c + 1) r' (by omega)

/-! ### replacePercent2E -/

theorem replacePercent2E_cons_ne (c : Char) (rest : JSStr) (h : ¬c = '%') :
    replacePercent2E (c :: rest) = c :: replacePercent2E rest := by
  rw [replacePercent2E.eq_def]
  split
  · rename_i r heq
    injection heq with h1 h2
    exact absurd h1 h
  · rename_i c' rest' hshape heq
    injection heq with h1 h2
    rw [h1, h2]
  · rename_i heq
    exact List.noConfusion heq

/-- For strings not containing `'%'` the `%2E` replacement is the
identity. -/
theorem replacePercent2E_no_percent (s : JSStr) (h : '%' ∉ s) :
    replacePercent2E s = s := by
  induction s with
  | nil => rfl
  | cons c rest ih =>
    simp only [List.mem_cons, not_or] at h
    rw [replacePercent2E_cons_ne c rest (fun hh => h.1 hh.symm), ih h.2]

/-- A literal `%2E` after a `%`-free prefix is restored to `'.'`. -/
theorem replacePercent2E_match (a b : JSStr) (ha : '%' ∉ a) :
    replacePercent2E (a ++ '%' :: '2' :: 'E' :: b) = a ++ '.' :: replacePercent2E b := by
  induction a with
  | nil => rw [List.nil_append, List.nil_append]; rw [replacePercent2E]
  | cons c rest ih =>
    simp only [List.mem_cons, not_or] at ha
    rw [List.cons_append, replacePercent2E_cons_ne c _ (fun hh => ha.1 hh.symm), ih ha.2]
    rfl

/-! ### Step lemmas for the tree builder -/

/-- An empty current key makes `setNestedValue` return silently
(parser.ts line 224), provided the depth guards pass. -/
theorem setNested_empty_key (t : JSVal) (p : List JSStr) (v : JSVal)
    (opts : ParseOpts) (d : Nat) (hd : d ≤ opts.depth) :
    setNestedValueM t ([] :: p) v opts d = .ok t := by
  have hlt : ¬(d > opts.depth) := by omega
  have hdec : decide (d > opts.depth) = false := by simp [hlt]
  unfold setNestedValueM
  have hf : 2 * (([] : JSStr) :: p).length + 1 = (2 * p.length + 2) + 1 := by
    simp only [List.length_cons]; omega
  rw [hf, engine_succ]
  simp [engineStep, hdec, if_neg hlt]

/-- A prototype-pollution current key makes `setNestedValue` return
silently (parser.ts lines 227-229), provided the depth guards pass. -/
theorem setNested_pollution (t : JSVal) (k : JSStr) (p : List JSStr) (v : JSVal)
    (opts : ParseOpts) (d : Nat) (hd : d ≤ opts.depth)
    (hpol : (!opts.allowPrototypes && hasPrototypePollutionM k) = true) :
    setNestedValueM t (k :: p) v opts d = .ok t := by
  have hlt : ¬(d > opts.depth) := by omega
  have hdec : decide (d > opts.depth) = false := by simp [hlt]
  unfold setNestedValueM
  have hf : 2 * (k :: p).length + 1 = (2 * p.length + 2) + 1 := by
    simp only [List.length_cons]; omega
  rw [hf, engine_succ]
  simp [engineStep, hdec, if_neg hlt, hpol]

/-- `setNestedValue` on a path of ≥ 2 segments whose current key passes
the guards, whose next segment is a named (non-index, non-empty)
segment, and whose slot holds a truthy non-object: the pair is
silently dropped (parser.ts line 252's `isObject` guard fails and the
function falls through). -/
theorem setNested_drop (fields : List (JSStr × JSVal)) (k seg : JSStr)
    (rest : List JSStr) (v : JSVal) (opts : ParseOpts) (d : Nat)
    (hd : d ≤ opts.depth) (hk : k ≠ [])
    (hpol : (!opts.allowPrototypes && hasPrototypePollutionM k) = false)
    (harr : ((seg ≠ [] && isArrayIndexM seg) || seg = []) = false)
    (htruthy : jsTruthy (jsGet fields k) = true)
    (hnotobj : isObjectM (jsGet fields k) = false) :
    setNestedValueM (.obj fields) (k :: seg :: rest) v opts d = .ok (.obj fields) := by
  have hlt : ¬(d > opts.depth) := by omega
  have hdec : decide (d > opts.depth) = false := by simp [hlt]
  unfold setNestedValueM
  have hf : 2 * (k :: seg :: rest).length + 1 = (2 * rest.length + 4) + 1 := by
    simp only [List.length_cons]; omega
  rw [hf, engine_succ]
  simp only [engineStep, hdec, Bool.and_false, Bool.false_eq_true, if_false,
    if_neg hlt, if_neg hk, hpol, htruthy, Bool.not_true, Bool.false_and,
    Bool.false_eq_true, if_false, harr]
  rcases hget : jsGet fields k with _ | _ | s' | n | b | xs | g <;>
    first
      | rfl
      | (rw [hget] at hnotobj; simp [isObjectM] at hnotobj)

/-- `handleDuplicateKey` on a not-yet-bound, non-pollution key simply
writes the value. -/
theorem handleDuplicate_fresh (fields : List (JSStr × JSVal)) (k : JSStr) (v : JSVal)
    (opts : ParseOpts) (hget : jsGet fields k = .undef)
    (hpol : (!opts.allowPrototypes && hasPrototypePollutionM k) = false) :
    handleDuplicateKeyM (.obj fields) k v opts = .ok (.obj (jsSet fields k v)) := by
  simp only [handleDuplicateKeyM]
  rw [hget]
  simp [safeSetPropertyM, hpol]

/-- `setNestedValue` at a final segment reduces to
`handleDuplicateKey` once the guards pass. -/
theorem setNested_leaf (t : JSVal) (k : JSStr) (v : JSVal) (opts : ParseOpts)
    (d : Nat) (hd : d ≤ opts.depth) (hk : k ≠ [])
    (hpol : (!opts.allowPrototypes && hasPrototypePollutionM k) = false) :
    setNestedValueM t [k] v opts d = handleDuplicateKeyM t k v opts := by
  have hlt : ¬(d > opts.depth) := by omega
  have hdec : decide (d > opts.depth) = false := by simp [hlt]
  unfold setNestedValueM
  have hf : 2 * ([k] : List JSStr).length + 1 = 2 + 1 := by simp
  rw [hf, engine_succ]
  simp [engineStep, hdec, if_neg hlt, if_neg hk, hpol]

/-- A key starting with `'b'` is none of the three pollution names. -/
theorem pollution_head_b (rest : JSStr) :
    hasPrototypePollutionM ('b' :: rest) = false := by
  have h1 : ('b' :: rest) ≠ js "__proto__" := by
    intro h; injection h with hc _; exact absurd hc (by decide)
  have h2 : ('b' :: rest) ≠ js "constructor" := by
    intro h; injection h with hc _; exact absurd hc (by decide)
  have h3 : ('b' :: rest) ≠ js "prototype" := by
    intro h; injection h with hc _; exact absurd hc (by decide)
  simp [hasPrototypePollutionM, h1, h2, h3]

/-- With `strictDepth` on, any call past the depth limit raises the
depth-exceeded error before anything else (parser.ts lines 206-211). -/
theorem setNested_strict_exceeded (t : JSVal) (p : List JSStr) (v : JSVal)
    (opts : ParseOpts) (d : Nat) (hs : opts.strictDepth = true)
    (hd : opts.depth < d) :
    setNestedValueM t p v opts d = .error depthExceededErr := by
  have hdec : decide (d > opts.depth) = true := by simpa using hd
  unfold setNestedValueM
  rw [engine_succ]
  simp [engineStep, hs, hdec, depthExceededErr]

/-- Without `strictDepth`, a call past the depth limit collapses the
remaining segments into one literal bracket-annotated key and hands it
to `handleDuplicateKey` (parser.ts lines 213-219). -/
theorem setNested_collapse (t : JSVal) (p : List JSStr) (v : JSVal)
    (opts : ParseOpts) (d : Nat) (hs : opts.strictDepth = false)
    (hd : opts.depth < d) :
    setNestedValueM t p v opts d =
      handleDuplicateKeyM t
        (p.headD (js "undefined") ++
          ((p.drop 1).map fun k => '[' :: k ++ [']']).flatten) v opts := by
  unfold setNestedValueM
  rw [engine_succ]
  simp [engineStep, hs, hd]

/-- One descent step of `setNestedValue` along a named (non-index)
next segment into a not-yet-bound slot: a fresh object is created
there and the recursion's result is wrapped back under the current
key. -/
theorem setNested_step_named (fields : List (JSStr × JSVal)) (k seg : JSStr)
    (rest : List JSStr) (v : JSVal) (opts : ParseOpts) (d : Nat)
    (hd : d ≤ opts.depth) (hk : k ≠ [])
    (hpol : (!opts.allowPrototypes && hasPrototypePollutionM k) = false)
    (harr : ((seg ≠ [] && isArrayIndexM seg) || seg = []) = false)
    (hfresh : jsTruthy (jsGet fields k) = false) :
    setNestedValueM (.obj fields) (k :: seg :: rest) v opts d =
      (setNestedValueM (.obj []) (seg :: rest) v opts (d + 1)).map
        fun r => .obj (jsSet fields k r) := by
  have hlt : ¬(d > opts.depth) := by omega
  have hdec : decide (d > opts.depth) = false := by simp [hlt]
  unfold setNestedValueM
  have hf : 2 * (k :: seg :: rest).length + 1 = (2 * rest.length + 4) + 1 := by
    simp only [List.length_cons]; omega
  rw [hf, engine_succ]
  simp only [engineStep, hdec, Bool.and_false, Bool.false_eq_true, if_false,
    if_neg hlt, if_neg hk, hpol, hfresh, Bool.not_false, eq_self_iff_true,
    if_true, harr, Bool.false_and, Bool.false_eq_true, if_false]
  rw [jsGet_jsSet_self]
  dsimp only
  rw [engine_set_eq opts (2 * rest.length + 4) (.obj []) (seg :: rest) v (d + 1)
    (by simp only [List.length_cons]; omega)]
  simp only [jsSet_jsSet]
  rfl

/-- Descending a `b`-chain with `strictDepth` on errors whenever the
descent must pass the depth limit. -/
theorem chain_strict_err (opts : ParseOpts) (v : JSVal)
    (hs : opts.strictDepth = true) :
    ∀ m, 1 ≤ m → ∀ d, opts.depth < d + m - 1 →
      setNestedValueM (.obj []) (List.replicate m (js "b")) v opts d =
        .error depthExceededErr := by
  have hpolb : ∀ o : ParseOpts,
      (!o.allowPrototypes && hasPrototypePollutionM (js "b")) = false := by
    intro o
    rw [show hasPrototypePollutionM (js "b") = false from by decide, Bool.and_false]
  intro m
  induction m with
  | zero => intro h d hd; exact absurd h (by omega)
  | succ m' ih =>
      intro _ d hd
      by_cases hdd : opts.depth < d
      · exact setNested_strict_exceeded _ _ _ _ _ hs hdd
      · have hdle : d ≤ opts.depth := by omega
        have hm' : 1 ≤ m' := by omega
        obtain ⟨m'', rfl⟩ : ∃ m'', m' = m'' + 1 := ⟨m' - 1, by omega⟩
        rw [List.replicate_succ, List.replicate_succ]
        rw [setNested_step_named [] (js "b") (js "b")
          (List.replicate m'' (js "b")) v opts d hdle (by decide) (hpolb opts)
          (by decide) (by decide)]
        rw [show (js "b" :: List.replicate m'' (js "b")) =
          List.replicate (m'' + 1) (js "b") from (List.replicate_succ _ _).symm]
        rw [ih (by omega) (d + 1) (by omega)]
        rfl

/-- Descending a `b`-chain that stays within the depth limit builds
the full nested singleton chain. -/
theorem chain_desc (opts : ParseOpts) (v : JSVal) :
    ∀ m, 1 ≤ m → ∀ d, d + m - 1 ≤ opts.depth →
      setNestedValueM (.obj []) (List.replicate m (js "b")) v opts d =
        .ok (nestPath (List.replicate m (js "b")) v) := by
  have hpolb : ∀ o : ParseOpts,
      (!o.allowPrototypes && hasPrototypePollutionM (js "b")) = false := by
    intro o
    rw [show hasPrototypePollutionM (js "b") = false from by decide, Bool.and_false]
  intro m
  induction m with
  | zero => intro h d hd; exact absurd h (by omega)
  | succ m' ih =>
      intro _ d hd
      cases Nat.eq_zero_or_pos m' with
      | inl h0 =>
          subst h0
          rw [List.replicate_succ, List.replicate_zero]
          rw [setNested_leaf (.obj []) (js "b") v opts d (by omega) (by decide)
            (hpolb opts)]
          rw [handleDuplicate_fresh [] (js "b") v opts rfl (hpolb opts)]
          rfl
      | inr hpos =>
          have hdle : d ≤ opts.depth := by omega
          obtain ⟨m'', rfl⟩ : ∃ m'', m' = m'' + 1 := ⟨m' - 1, by omega⟩
          rw [List.replicate_succ, List.replicate_succ]
          rw [setNested_step_named [] (js "b") (js "b")
            (List.replicate m'' (js "b")) v opts d hdle (by decide) (hpolb opts)
            (by decide) (by decide)]
          rw [show (js "b" :: List.replicate m'' (js "b")) =
            List.replicate (m'' + 1) (js "b") from (List.replicate_succ _ _).symm]
          rw [ih (by omega) (d + 1) (by omega)]
          rfl

/-- Descending a `b`-chain without `strictDepth` past the depth limit:
the levels up to the limit are built, and the remaining segments
collapse into one literal bracket-annotated flat key. -/
theorem chain_collapse (opts : ParseOpts) (v : JSVal)
    (hs : opts.strictDepth = false) :
    ∀ m, 1 ≤ m → ∀ d, d ≤ opts.depth → opts.depth < d + m - 1 →
      setNestedValueM (.obj []) (List.replicate m (js "b")) v opts d =
        .ok (nestPath (List.replicate (opts.depth - d + 1) (js "b"))
          (.obj [(collapsedKey (d + m - opts.depth - 2), v)])) := by
  have hpolb : ∀ o : ParseOpts,
      (!o.allowPrototypes && hasPrototypePollutionM (js "b")) = false := by
    intro o
    rw [show hasPrototypePollutionM (js "b") = false from by decide, Bool.and_false]
  intro m
  induction m with
  | zero => intro h d hd hover; exact absurd h (by omega)
  | succ m' ih =>
      intro _ d hd hover
      have hm' : 1 ≤ m' := by omega
      obtain ⟨m'', rfl⟩ : ∃ m'', m' = m'' + 1 := ⟨m' - 1, by omega⟩
      rw [List.replicate_succ, List.replicate_succ]
      rw [setNested_step_named [] (js "b") (js "b")
        (List.replicate m'' (js "b")) v opts d hd (by decide) (hpolb opts)
        (by decide) (by decide)]
      by_cases hdD : d = opts.depth
      · subst hdD
        rw [show (js "b" :: List.replicate m'' (js "b")) =
          List.replicate (m'' + 1) (js "b") from (List.replicate_succ _ _).symm]
        rw [setNested_collapse (.obj []) _ v opts (opts.depth + 1) hs (by omega)]
        have hfk : (List.replicate (m'' + 1) (js "b")).headD (js "undefined") ++
            (((List.replicate (m'' + 1) (js "b")).drop 1).map
              fun k => '[' :: k ++ [']']).flatten = collapsedKey m'' := by
          rw [List.replicate_succ]
          simp only [List.headD_cons, List.drop_succ_cons, List.drop_zero,
            List.map_replicate]
          rfl
        rw [hfk]
        rw [handleDuplicate_fresh [] (collapsedKey m'') v opts rfl
          (by rw [collapsedKey, pollution_head_b, Bool.and_false])]
        have h1 : opts.depth - opts.depth + 1 = 1 := by omega
        have h2 : opts.depth + (m'' + 1 + 1) - opts.depth - 2 = m'' := by omega
        rw [h1, h2]
        rfl
      · have hdlt : d < opts.depth := by omega
        rw [show (js "b" :: List.replicate m'' (js "b")) =
          List.replicate (m'' + 1) (js "b") from (List.replicate_succ _ _).symm]
        rw [ih (by omega) (d + 1) (by omega) (by omega)]
        have h1 : opts.depth - (d + 1) + 1 = opts.depth - d := by omega
        have h2 : d + 1 + (m'' + 1) - opts.depth - 2 =
            d + (m'' + 1 + 1) - opts.depth - 2 := by omega
        rw [h1, h2]
        rw [show opts.depth - d + 1 = (opts.depth - d) + 1 from rfl,
          List.replicate_succ]
        rfl

/-- Setting index `m` in `m+1` replicated holes puts the value last. -/
theorem replicate_set_last {α : Type} (m : Nat) (a w : α) :
    (List.replicate (m + 1) a).set m w = List.replicate m a ++ [w] := by
  induction m with
  | zero => rfl
  | succ m ih =>
    rw [List.replicate_succ, List.set_cons_succ, ih, List.replicate_succ]
    rfl

/-- Setting past the left part of an append lands in the right part. -/
theorem set_append_right {α : Type} (xs ys : List α) (i : Nat) (w : α)
    (h : xs.length ≤ i) : (xs ++ ys).set i w = xs ++ ys.set (i - xs.length) w := by
  induction xs generalizing i with
  | nil => simp
  | cons x rest ih =>
    cases i with
    | zero => simp at h
    | succ i =>
      simp only [List.cons_append, List.set_cons_succ, List.cons.injEq, true_and]
      simp only [List.length_cons] at h ⊢
      have harith : i + 1 - (rest.length + 1) = i - rest.length := by omega
      rw [harith, ih i (by omega)]

/-- Writing at an address the original heap does not own keeps the
original heap a prefix. -/
theorem heap_prefix_set (h l : Heap) (hp : h <+: l) (i : Nat)
    (hi : h.length ≤ i) (n : Node) : h <+: l.set i n := by
  obtain ⟨t, rfl⟩ := hp
  rw [set_append_right h t i n hi]
  exact ⟨t.set (i - h.length) n, rfl⟩

/-- `appendField` writes only at its target address: any heap prefix
not containing that address survives. -/
theorem heap_prefix_appendField (h l : Heap) (hp : h <+: l) (r : Nat)
    (hr : h.length ≤ r) (k : JSStr) (v : HVal) : h <+: appendField l r k v := by
  unfold appendField
  rcases heapGet l r with _ | n
  · exact hp
  · cases n with
    | obj rf => exact heap_prefix_set h l hp r hr _
    | arr xs => exact hp

/-- The filter's write loops touch only the fresh result object. -/
theorem heap_prefix_applyFilter (h : Heap) (root : Nat) (f : Filter) :
    h <+: (applyFilterH h root f).1 := by
  cases f with
  | noFilter => exact List.prefix_refl h
  | allowList keys =>
      show h <+: keys.foldl _ (heapAlloc h (.obj [])).1
      have hbase : h <+: (heapAlloc h (.obj [])).1 := ⟨[.obj []], rfl⟩
      generalize (heapAlloc h (Node.obj [])).1 = l at hbase
      induction keys generalizing l with
      | nil => exact hbase
      | cons k ks ih =>
          rw [List.foldl_cons]
          apply ih
          rcases heapGet l root with _ | n
          · exact hbase
          · dsimp only
            by_cases hmem : nodeHasKey n k = true
            · rw [if_pos hmem]
              exact heap_prefix_appendField h l hbase h.length (le_refl _) _ _
            · rw [if_neg hmem]
              exact hbase
  | transform g =>
      show h <+: List.foldl _ (heapAlloc h (.obj [])).1 _
      have hbase : h <+: (heapAlloc h (.obj [])).1 := ⟨[.obj []], rfl⟩
      generalize (match heapGet h root with
        | some n => nodeEntries n | none => []) = es
      generalize (heapAlloc h (Node.obj [])).1 = l at hbase
      induction es generalizing l with
      | nil => exact hbase
      | cons kv es ih =>
          rw [List.foldl_cons]
          apply ih
          rcases g kv.1 kv.2 with _ | w
          · exact hbase
          · dsimp only
            exact heap_prefix_appendField h l hbase h.length (le_refl _) _ _

/-! ### compactArray and the maybeConvertToArray fold -/

theorem compactArrayM_nil : compactArrayM [] = [] := rfl

theorem compactArrayM_undef_cons (rest : List JSVal) :
    compactArrayM (JSVal.undef :: rest) = compactArrayM rest := rfl

theorem compactArrayM_cons_ne (v : JSVal) (rest : List JSVal) (h : v ≠ .undef) :
    compactArrayM (v :: rest) = v :: compactArrayM rest := by
  cases v <;> first | rfl | exact absurd rfl h

theorem compactArrayM_append (a b : List JSVal) :
    compactArrayM (a ++ b) = compactArrayM a ++ compactArrayM b := by
  simp [compactArrayM, List.filterMap_append]

theorem compactArrayM_replicate_undef (m : Nat) :
    compactArrayM (List.replicate m JSVal.undef) = [] := by
  induction m with
  | zero => rfl
  | succ m ih => rw [List.replicate_succ, compactArrayM_undef_cons, ih]

/-- The `arr[index] = obj[key]` loop over an ascending field list
builds the hole-interleaved array. -/
theorem fold_listSetU_build :
    ∀ (fields : List (JSStr × JSVal)) (acc : List JSVal),
      List.Pairwise (fun p q => parseIntM p.1 < parseIntM q.1) fields →
      (∀ p ∈ fields, acc.length ≤ parseIntM p.1) →
      fields.foldl (fun a p => listSetU a (parseIntM p.1) p.2) acc =
        acc ++ buildFrom acc.length fields := by
  intro fields
  induction fields with
  | nil => intro acc _ _; simp [buildFrom]
  | cons p rest ih =>
    intro acc hasc hge
    rw [List.foldl_cons]
    have hlen : acc.length ≤ parseIntM p.1 := hge p (by simp)
    have hstep : listSetU acc (parseIntM p.1) p.2 =
        acc ++ List.replicate (parseIntM p.1 - acc.length) JSVal.undef ++ [p.2] := by
      unfold listSetU
      rw [if_neg (by omega)]
    rw [hstep, List.pairwise_cons] at *
    rcases hasc with ⟨hlt, hasc⟩
    have hge' : ∀ q ∈ rest,
        (acc ++ List.replicate (parseIntM p.1 - acc.length) JSVal.undef ++ [p.2]).length ≤
          parseIntM q.1 := by
      intro q hq
      have := hlt q hq
      simp only [List.length_append, List.length_replicate, List.length_singleton]
      omega
    rw [ih _ hasc hge']
    have hlen2 :
        (acc ++ List.replicate (parseIntM p.1 - acc.length) JSVal.undef ++ [p.2]).length =
          parseIntM p.1 + 1 := by
      simp only [List.length_append, List.length_replicate, List.length_singleton]
      omega
    rw [hlen2, buildFrom]
    simp [List.append_assoc]

/-- Compacting the hole-interleaved array recovers exactly the values,
in key order. -/
theorem compact_buildFrom :
    ∀ (fields : List (JSStr × JSVal)) (start : Nat),
      (∀ p ∈ fields, p.2 ≠ JSVal.undef) →
      compactArrayM (buildFrom start fields) = fields.map Prod.snd := by
  intro fields
  induction fields with
  | nil => intro start _; rfl
  | cons p rest ih =>
    intro start hdef
    rw [buildFrom, compactArrayM_append, compactArrayM_replicate_undef,
      compactArrayM_cons_ne _ _ (hdef p (by simp)), List.nil_append,
      ih _ (fun q hq => hdef q (by simp [hq]))]
    rfl

theorem contains_true_of_mem (s : JSStr) (c : Char) (h : c ∈ s) :
    s.contains c = true := by
  simp only [List.contains, List.elem_iff]
  exact h

theorem contains_false_of_not_mem (s : JSStr) (c : Char) (h : c ∉ s) :
    s.contains c = false := by
  simp only [List.contains]
  simpa using h

/-! ### Percent-encoding round trip -/

theorem hexDigit_round : ∀ d : Nat, d < 16 → hexDigitVal? (hexDigitUC d) = some d := by
  decide

theorem percentByte_percentHex (b : Nat) (hb : b < 256) (r : JSStr) :
    percentByte? (percentHex b ++ r) = some (b, r) := by
  show percentByte? ('%' :: hexDigitUC (b / 16) :: hexDigitUC (b % 16) :: r) = _
  simp only [percentByte?]
  rw [hexDigit_round (b / 16) (by omega), hexDigit_round (b % 16) (by omega)]
  simp only [Option.some.injEq, Prod.mk.injEq]
  refine ⟨by omega, trivial⟩

theorem mkChar_toNat (c : Char) : mkChar? c.toNat = some c := by
  have h2 := Char.ofNat_toNat c
  unfold Char.ofNat at h2
  unfold mkChar?
  split
  · rename_i h
    rw [dif_pos h] at h2
    rw [h2]
  · rename_i h
    exact absurd (c.valid : c.toNat.isValidChar) h

theorem isU2_ne_percent (c : Char) (h : isU2 c = true) : ¬(c = '%') := by
  intro hc; subst hc; exact absurd h (by decide)

/-- Decoding one encoded character: each `decodeURIGo` iteration
consumes exactly the escape group of one source character. -/
theorem decode_enc2Char (f : Nat) (c : Char) (r : JSStr) :
    decodeURIGo (f + 1) (enc2Char c ++ r) = (decodeURIGo f r).map (c :: ·) := by
  by_cases hu : isU2 c = true
  · rw [show enc2Char c = [c] from by simp [enc2Char, hu]]
    show decodeURIGo (f + 1) (c :: r) = _
    simp only [decodeURIGo]
    rw [if_pos (isU2_ne_percent c hu)]
  · rw [show enc2Char c = (utf8EncodeNat c.toNat).flatMap percentHex from by
      simp [enc2Char, hu]]
    have hvalid : c.toNat.isValidChar := c.valid
    have hlt : c.toNat < 0x110000 := by
      rcases hvalid with h | ⟨_, h⟩ <;> omega
    unfold utf8EncodeNat
    by_cases h1 : c.toNat < 0x80
    · rw [if_pos h1]
      simp only [List.flatMap_cons, List.flatMap_nil, List.append_nil]
      show decodeURIGo (f + 1)
        ('%' :: hexDigitUC (c.toNat / 16) :: hexDigitUC (c.toNat % 16) :: r) = _
      simp only [decodeURIGo]
      rw [if_neg (by simp)]
      rw [show percentByte?
          ('%' :: hexDigitUC (c.toNat / 16) :: hexDigitUC (c.toNat % 16) :: r) =
          some (c.toNat, r) from percentByte_percentHex c.toNat (by omega) r]
      dsimp only
      rw [if_pos h1, mkChar_toNat]
      rfl
    · rw [if_neg h1]
      by_cases h2 : c.toNat < 0x800
      · rw [if_pos h2]
        simp only [List.flatMap_cons, List.flatMap_nil, List.append_nil,
          List.append_assoc]
        show decodeURIGo (f + 1) ('%' :: hexDigitUC ((0xC0 + c.toNat / 64) / 16) ::
          hexDigitUC ((0xC0 + c.toNat / 64) % 16) ::
          (percentHex (0x80 + c.toNat % 64) ++ r)) = _
        simp only [decodeURIGo]
        rw [if_neg (by simp)]
        rw [show percentByte? ('%' :: hexDigitUC ((0xC0 + c.toNat / 64) / 16) ::
            hexDigitUC ((0xC0 + c.toNat / 64) % 16) ::
            (percentHex (0x80 + c.toNat % 64) ++ r)) =
            some (0xC0 + c.toNat / 64, percentHex (0x80 + c.toNat % 64) ++ r) from
          percentByte_percentHex (0xC0 + c.toNat / 64) (by omega) _]
        dsimp only
        rw [if_neg (by omega), if_pos ⟨by omega, by omega⟩]
        rw [percentByte_percentHex (0x80 + c.toNat % 64) (by omega) r]
        dsimp only
        rw [if_pos ⟨by omega, by omega⟩]
        rw [show (0xC0 + c.toNat / 64 - 0xC0) * 64 + (0x80 + c.toNat % 64 - 0x80) =
          c.toNat from by omega]
        rw [mkChar_toNat]
        rfl
      · rw [if_neg h2]
        by_cases h3 : c.toNat < 0x10000
        · rw [if_pos h3]
          simp only [List.flatMap_cons, List.flatMap_nil, List.append_nil,
            List.append_assoc]
          show decodeURIGo (f + 1) ('%' ::
            hexDigitUC ((0xE0 + c.toNat / 4096) / 16) ::
            hexDigitUC ((0xE0 + c.toNat / 4096) % 16) ::
            (percentHex (0x80 + c.toNat / 64 % 64) ++
              (percentHex (0x80 + c.toNat % 64) ++ r))) = _
          simp only [decodeURIGo]
          rw [if_neg (by simp)]
          rw [show percentByte? ('%' :: hexDigitUC ((0xE0 + c.toNat / 4096) / 16) ::
              hexDigitUC ((0xE0 + c.toNat / 4096) % 16) ::
              (percentHex (0x80 + c.toNat / 64 % 64) ++
                (percentHex (0x80 + c.toNat % 64) ++ r))) =
              some (0xE0 + c.toNat / 4096,
                percentHex (0x80 + c.toNat / 64 % 64) ++
                  (percentHex (0x80 + c.toNat % 64) ++ r)) from
            percentByte_percentHex (0xE0 + c.toNat / 4096) (by omega) _]
          dsimp only
          rw [if_neg (by omega), if_neg (by omega), if_pos ⟨by omega, by omega⟩]
          rw [percentByte_percentHex (0x80 + c.toNat / 64 % 64) (by omega) _]
          dsimp only
          rw [percentByte_percentHex (0x80 + c.toNat % 64) (by omega) r]
          dsimp only
          rw [if_pos ⟨⟨by omega, by omega⟩, by omega, by omega⟩]
          rw [show (0xE0 + c.toNat / 4096 - 0xE0) * 4096 +
            (0x80 + c.toNat / 64 % 64 - 0x80) * 64 +
            (0x80 + c.toNat % 64 - 0x80) = c.toNat from by omega]
          rw [if_neg (by omega), mkChar_toNat]
          rfl
        · rw [if_neg h3]
          simp only [List.flatMap_cons, List.flatMap_nil, List.append_nil,
            List.append_assoc]
          show decodeURIGo (f + 1) ('%' ::
            hexDigitUC ((0xF0 + c.toNat / 262144) / 16) ::
            hexDigitUC ((0xF0 + c.toNat / 262144) % 16) ::
            (percentHex (0x80 + c.toNat / 4096 % 64) ++
              (percentHex (0x80 + c.toNat / 64 % 64) ++
                (percentHex (0x80 + c.toNat % 64) ++ r)))) = _
          simp only [decodeURIGo]
          rw [if_neg (by simp)]
          rw [show percentByte? ('%' ::
              hexDigitUC ((0xF0 + c.toNat / 262144) / 16) ::
              hexDigitUC ((0xF0 + c.toNat / 262144) % 16) ::
              (percentHex (0x80 + c.toNat / 4096 % 64) ++
                (percentHex (0x80 + c.toNat / 64 % 64) ++
                  (percentHex (0x80 + c.toNat % 64) ++ r)))) =
              some (0xF0 + c.toNat / 262144,
                percentHex (0x80 + c.toNat / 4096 % 64) ++
                  (percentHex (0x80 + c.toNat / 64 % 64) ++
                    (percentHex (0x80 + c.toNat % 64) ++ r))) from
            percentByte_percentHex (0xF0 + c.toNat / 262144) (by omega) _]
          dsimp only
          rw [if_neg (by omega), if_neg (by omega), if_neg (by omega),
            if_pos ⟨by omega, by omega⟩]
          rw [percentByte_percentHex (0x80 + c.toNat / 4096 % 64) (by omega) _]
          dsimp only
          rw [percentByte_percentHex (0x80 + c.toNat / 64 % 64) (by omega) _]
          dsimp only
          rw [percentByte_percentHex (0x80 + c.toNat % 64) (by omega) r]
          dsimp only
          rw [if_pos ⟨⟨by omega, by omega⟩, ⟨by omega, by omega⟩, by omega, by omega⟩]
          rw [show (0xF0 + c.toNat / 262144 - 0xF0) * 262144 +
            (0x80 + c.toNat / 4096 % 64 - 0x80) * 4096 +
            (0x80 + c.toNat / 64 % 64 - 0x80) * 64 +
            (0x80 + c.toNat % 64 - 0x80) = c.toNat from by omega]
          rw [if_neg (by omega), mkChar_toNat]
          rfl

theorem utf8_bytes_lt (n : Nat) (hn : n < 0x110000) :
    ∀ b ∈ utf8EncodeNat n, b < 256 := by
  unfold utf8EncodeNat
  split_ifs with h1 h2 h3 <;>
    (intro b hb
     simp only [List.mem_cons, List.not_mem_nil, or_false] at hb) <;>
    [rcases hb with rfl;
     rcases hb with rfl | rfl;
     rcases hb with rfl | rfl | rfl;
     rcases hb with rfl | rfl | rfl | rfl] <;>
    omega

theorem enc2Char_length_pos (c : Char) : 0 < (enc2Char c).length := by
  unfold enc2Char
  by_cases hu : isU2 c
  · simp [hu]
  · simp only [hu, Bool.false_eq_true, if_false]
    unfold utf8EncodeNat
    split_ifs <;> simp [percentHex]

theorem decodeURIGo_encoded (s : JSStr) :
    ∀ f, (s.flatMap enc2Char).length < f →
      decodeURIGo f (s.flatMap enc2Char) = some s := by
  induction s with
  | nil =>
      intro f hf
      obtain ⟨g, rfl⟩ : ∃ g, f = g + 1 := ⟨f - 1, by omega⟩
      rfl
  | cons c s ih =>
      intro f hf
      have hpos : 0 < (enc2Char c).length := enc2Char_length_pos c
      simp only [List.flatMap_cons] at hf ⊢
      simp only [List.length_append] at hf
      obtain ⟨g, rfl⟩ : ∃ g, f = g + 1 := ⟨f - 1, by omega⟩
      rw [decode_enc2Char g c _]
      rw [ih g (by omega)]
      rfl

theorem hexDigitUC_not_special : ∀ d : Nat, d < 16 →
    ((hexDigitUC d = '!' || hexDigitUC d = '\'' || hexDigitUC d = '(' ||
      hexDigitUC d = ')' || hexDigitUC d = '*') = false ∧
     ¬hexDigitUC d = '+' ∧ ¬hexDigitUC d = '&' ∧ ¬hexDigitUC d = '=' ∧
     (hexDigitUC d).isWhitespace = false) := by
  decide

theorem isU2_unreserved (c : Char) (h : isU2 c = true) :
    isUriUnreserved c = true := by
  simp only [isU2, Bool.or_eq_true, Bool.and_eq_true, decide_eq_true_eq] at h
  simp only [isUriUnreserved, Bool.or_eq_true, Bool.and_eq_true, decide_eq_true_eq]
  tauto

theorem unreserved_cases (c : Char) (h : isUriUnreserved c = true)
    (h2 : isU2 c = false) :
    c = '!' ∨ c = '\'' ∨ c = '(' ∨ c = ')' ∨ c = '*' := by
  simp only [isUriUnreserved, Bool.or_eq_true, Bool.and_eq_true,
    decide_eq_true_eq] at h
  simp only [isU2, Bool.or_eq_true, Bool.and_eq_true, decide_eq_true_eq,
    Bool.eq_false_iff, ne_eq, not_or, not_and] at h2
  tauto

theorem percentHex_post (b : Nat) (hb : b < 256) :
    (percentHex b).flatMap (fun c =>
      if c = '!' || c = '\'' || c = '(' || c = ')' || c = '*' then
        percentHex c.toNat
      else [c]) = percentHex b := by
  show ['%', hexDigitUC (b / 16), hexDigitUC (b % 16)].flatMap _ = _
  have h1 := (hexDigitUC_not_special (b / 16) (by omega)).1
  have h2 := (hexDigitUC_not_special (b % 16) (by omega)).1
  simp only [List.flatMap_cons, List.flatMap_nil, List.append_nil, h1, h2,
    Bool.false_eq_true, if_false]
  rfl

theorem flatMap_percentHex_post (bs : List Nat) (hb : ∀ b ∈ bs, b < 256) :
    (bs.flatMap percentHex).flatMap (fun c =>
      if c = '!' || c = '\'' || c = '(' || c = ')' || c = '*' then
        percentHex c.toNat
      else [c]) = bs.flatMap percentHex := by
  induction bs with
  | nil => rfl
  | cons b rest ih =>
      simp only [List.flatMap_cons, List.flatMap_append]
      rw [percentHex_post b (hb b (by simp)), ih (fun x hx => hb x (by simp [hx]))]

theorem enc2Char_eq (c : Char) :
    (if isUriUnreserved c then [c]
     else (utf8EncodeNat c.toNat).flatMap percentHex).flatMap (fun c =>
      if c = '!' || c = '\'' || c = '(' || c = ')' || c = '*' then
        percentHex c.toNat
      else [c]) = enc2Char c := by
  have hvalid : c.toNat.isValidChar := c.valid
  have hlt : c.toNat < 0x110000 := by
    rcases hvalid with h | ⟨_, h⟩ <;> omega
  by_cases hu : isU2 c = true
  · rw [if_pos (isU2_unreserved c hu)]
    have hns : (c = '!' || c = '\'' || c = '(' || c = ')' || c = '*') = false := by
      cases hor : (c = '!' || c = '\'' || c = '(' || c = ')' || c = '*') with
      | false => rfl
      | true =>
          simp only [Bool.or_eq_true, decide_eq_true_eq] at hor
          rcases hor with ((((rfl | rfl) | rfl) | rfl) | rfl) <;>
            exact absurd hu (by decide)
    simp only [List.flatMap_cons, List.flatMap_nil, List.append_nil, hns,
      Bool.false_eq_true, if_false]
    simp [enc2Char, hu]
  · rw [Bool.not_eq_true] at hu
    by_cases hr : isUriUnreserved c = true
    · rw [if_pos hr]
      rcases unreserved_cases c hr hu with rfl | rfl | rfl | rfl | rfl <;> decide
    · rw [if_neg (by simpa using hr)]
      rw [show enc2Char c = (utf8EncodeNat c.toNat).flatMap percentHex from by
        simp [enc2Char, hu]]
      exact flatMap_percentHex_post _ (utf8_bytes_lt _ hlt)

theorem rfc3986_flatMap (s : JSStr) : rfc3986EncoderM s = s.flatMap enc2Char := by
  unfold rfc3986EncoderM encodeURIComponentM
  induction s with
  | nil => rfl
  | cons c rest ih =>
      simp only [List.flatMap_cons, List.flatMap_append]
      rw [ih, enc2Char_eq]

theorem hexDigitUC_class : ∀ d : Nat, d < 16 →
    (¬hexDigitUC d = '+' ∧ ¬hexDigitUC d = '&' ∧ ¬hexDigitUC d = '=' ∧
     (hexDigitUC d).isWhitespace = false) := by
  decide

/-- Every character the RFC 3986 encoder emits is inert for the outer
query-string syntax: not a pair or key-value separator, not a `+`, not
whitespace. -/
theorem enc2Char_chars (c : Char) :
    ∀ x ∈ enc2Char c,
      ¬x = '+' ∧ ¬x = '&' ∧ ¬x = '=' ∧ x.isWhitespace = false := by
  intro x hx
  unfold enc2Char at hx
  by_cases hu : isU2 c = true
  · rw [if_pos hu] at hx
    simp only [List.mem_cons, List.not_mem_nil, or_false] at hx
    subst hx
    refine ⟨?_, ?_, ?_, ?_⟩
    · intro hc; subst hc; exact absurd hu (by decide)
    · intro hc; subst hc; exact absurd hu (by decide)
    · intro hc; subst hc; exact absurd hu (by decide)
    · cases hw : x.isWhitespace with
      | false => rfl
      | true =>
          simp only [Char.isWhitespace, Bool.or_eq_true, decide_eq_true_eq] at hw
          rcases hw with ((rfl | rfl) | rfl) | rfl <;> exact absurd hu (by decide)
  · rw [if_neg hu] at hx
    have hvalid : c.toNat.isValidChar := c.valid
    have hlt : c.toNat < 0x110000 := by
      rcases hvalid with h | ⟨_, h⟩ <;> omega
    rcases List.mem_flatMap.mp hx with ⟨b, hb, hxb⟩
    have hb256 : b < 256 := utf8_bytes_lt c.toNat hlt b hb
    show _ ∧ _ ∧ _ ∧ _
    rcases show x = '%' ∨ x = hexDigitUC (b / 16) ∨ x = hexDigitUC (b % 16) from by
        simpa [percentHex] using hxb with rfl | rfl | rfl
    · exact ⟨by decide, by decide, by decide, by decide⟩
    · exact hexDigitUC_class (b / 16) (by omega)
    · exact hexDigitUC_class (b % 16) (by omega)

theorem encoded_chars (s : JSStr) :
    ∀ x ∈ rfc3986EncoderM s,
      ¬x = '+' ∧ ¬x = '&' ∧ ¬x = '=' ∧ x.isWhitespace = false := by
  rw [rfc3986_flatMap]
  intro x hx
  rcases List.mem_flatMap.mp hx with ⟨c, _, hxc⟩
  exact enc2Char_chars c x hxc

/-- The default decoder inverts the RFC 3986 encoder on every string. -/
theorem defaultDecoder_encoded (s : JSStr) :
    defaultDecoderM (rfc3986EncoderM s) = s := by
  unfold defaultDecoderM
  have hplus : replacePlusM (rfc3986EncoderM s) = rfc3986EncoderM s := by
    unfold replacePlusM
    rw [show (rfc3986EncoderM s).map (fun c => if c = '+' then ' ' else c) =
        (rfc3986EncoderM s).map id from
      List.map_congr_left fun x hx => by
        simp only [id]
        rw [if_neg (encoded_chars s x hx).1]]
    exact List.map_id _
  rw [hplus]
  unfold decodeURIComponentM
  rw [rfc3986_flatMap]
  rw [decodeURIGo_encoded s _ (by omega)]

theorem encoded_ne_nil (s : JSStr) (h : s ≠ []) : rfc3986EncoderM s ≠ [] := by
  rw [rfc3986_flatMap]
  cases s with
  | nil => exact absurd rfl h
  | cons c rest =>
      simp only [List.flatMap_cons]
      intro hc
      rcases List.append_eq_nil.mp hc with ⟨h1, _⟩
      have := enc2Char_length_pos c
      rw [h1] at this
      simp at this

theorem encodeKeyM_default (k : JSStr) : encodeKeyM k {} = rfc3986EncoderM k := rfl

theorem encodeValueM_default (v : JSStr) : encodeValueM v {} = rfc3986EncoderM v := rfl

/-- `pair.indexOf('=')` recovery: splitting at the first `=` of
`a ++ '=' :: b` gives back `a` and `b` when `a` has no `=`. -/
theorem splitAtEq_append (a b : JSStr) (ha : '=' ∉ a) :
    splitAtEq (a ++ '=' :: b) = some (a, b) := by
  induction a with
  | nil => simp [splitAtEq]
  | cons c rest ih =>
      simp only [List.mem_cons, not_or] at ha
      simp only [List.cons_append, splitAtEq]
      rw [if_neg (fun hc : c = '=' => ha.1 hc.symm)]
      show Option.map _ (splitAtEq (rest ++ '=' :: b)) = _
      rw [ih ha.2]
      rfl

/-- `join('&')` then `split('&')` is the identity on a non-empty list
of `&`-free chunks. -/
theorem splitOnChar_joinSep (pairs : List JSStr)
    (hne : pairs ≠ []) (hfree : ∀ p ∈ pairs, '&' ∉ p) :
    splitOnChar '&' (joinSep (js "&") pairs) = pairs := by
  induction pairs with
  | nil => exact absurd rfl hne
  | cons p rest ih =>
      cases rest with
      | nil =>
          show splitOnChar '&' p = [p]
          exact splitOnChar_not_mem '&' p (hfree p (by simp))
      | cons q rest' =>
          have hjoin : joinSep (js "&") (p :: q :: rest') =
              p ++ js "&" ++ joinSep (js "&") (q :: rest') := rfl
          rw [hjoin, List.append_assoc]
          show splitOnChar '&' (p ++ '&' :: joinSep (js "&") (q :: rest')) = _
          rw [splitOnChar_append_sep]
          rw [splitOnChar_not_mem '&' p (hfree p (by simp))]
          rw [ih (by simp) (fun x hx => hfree x (by simp [hx]))]
          rfl

theorem trimM_id (s : JSStr) (h : ∀ c ∈ s, c.isWhitespace = false) :
    trimM s = s := by
  unfold trimM
  have h1 : s.dropWhile Char.isWhitespace = s := by
    cases s with
    | nil => rfl
    | cons c rest =>
        rw [List.dropWhile_cons_of_neg (by simp [h c (by simp)])]
  rw [h1]
  have h2 : s.reverse.dropWhile Char.isWhitespace = s.reverse := by
    cases hrev : s.reverse with
    | nil => rfl
    | cons c rest =>
        have hc : c ∈ s := by
          rw [← List.mem_reverse, hrev]; simp
        rw [List.dropWhile_cons_of_neg (by simp [h c hc])]
  rw [h2, List.reverse_reverse]

/-! ### Bracket-notation key paths -/

theorem pbg_outside (s : JSStr) :
    ∀ (r current : JSStr), (∀ c ∈ s, ¬c = '[' ∧ ¬c = ']') →
      parseBracketGo (s ++ r) current false 0 =
        parseBracketGo r (current ++ s) false 0 := by
  induction s with
  | nil => intro r current _; simp
  | cons c rest ih =>
      intro r current h
      have hc := h c (by simp)
      show parseBracketGo (c :: (rest ++ r)) current false 0 = _
      rw [parseBracketGo.eq_def]
      simp only [hc.1, hc.2, Bool.false_and, Bool.and_false,
        Bool.false_eq_true, if_false, Bool.not_false, Bool.and_true,
        decide_False, decide_True]
      rw [ih r (current ++ [c]) (fun x hx => h x (by simp [hx]))]
      rw [List.append_assoc, List.singleton_append]

theorem pbg_inside (s : JSStr) :
    ∀ (r current : JSStr), (∀ c ∈ s, ¬c = '[' ∧ ¬c = ']') →
      parseBracketGo (s ++ r) current true 1 =
        parseBracketGo r (current ++ s) true 1 := by
  induction s with
  | nil => intro r current _; simp
  | cons c rest ih =>
      intro r current h
      have hc := h c (by simp)
      show parseBracketGo (c :: (rest ++ r)) current true 1 = _
      rw [parseBracketGo.eq_def]
      simp only [hc.1, hc.2, Bool.false_and, Bool.and_false,
        Bool.false_eq_true, if_false, Bool.not_true, Bool.and_true,
        decide_False, decide_True]
      rw [ih r (current ++ [c]) (fun x hx => h x (by simp [hx]))]
      rw [List.append_assoc, List.singleton_append]

theorem pbg_tail (segs : List JSStr)
    (hsegs : ∀ k ∈ segs, ∀ c ∈ k, ¬c = '[' ∧ ¬c = ']') :
    parseBracketGo ((segs.map fun s => '[' :: s ++ [']']).flatten) [] false 0 =
      segs := by
  induction segs with
  | nil => rfl
  | cons k rest ih =>
      simp only [List.map_cons, List.flatten_cons]
      rw [show ('[' :: k ++ [']']) ++ (rest.map fun s => '[' :: s ++ [']']).flatten =
        '[' :: (k ++ (']' :: (rest.map fun s => '[' :: s ++ [']']).flatten)) from by
          simp]
      rw [show parseBracketGo
          ('[' :: (k ++ (']' :: (rest.map fun s => '[' :: s ++ [']']).flatten)))
          [] false 0 =
          parseBracketGo (k ++ (']' :: (rest.map fun s => '[' :: s ++ [']']).flatten))
          [] true 1 from rfl]
      rw [pbg_inside k _ [] (hsegs k (by simp))]
      rw [show parseBracketGo (']' :: (rest.map fun s => '[' :: s ++ [']']).flatten)
          ([] ++ k) true 1 =
          ([] ++ k) :: parseBracketGo ((rest.map fun s => '[' :: s ++ [']']).flatten)
            [] false 0 from rfl]
      rw [ih (fun x hx => hsegs x (by simp [hx]))]
      simp

theorem pbg_segs (segs : List JSStr) (current : JSStr)
    (hcur : current ≠ [])
    (hsegs : ∀ k ∈ segs, ∀ c ∈ k, ¬c = '[' ∧ ¬c = ']') :
    parseBracketGo ((segs.map fun s => '[' :: s ++ [']']).flatten) current false 0 =
      current :: segs := by
  cases segs with
  | nil =>
      show (if current ≠ [] then [current] else []) = [current]
      rw [if_pos hcur]
  | cons k rest =>
      simp only [List.map_cons, List.flatten_cons]
      rw [show ('[' :: k ++ [']']) ++ (rest.map fun s => '[' :: s ++ [']']).flatten =
        '[' :: (k ++ (']' :: (rest.map fun s => '[' :: s ++ [']']).flatten)) from by
          simp]
      rw [show parseBracketGo
          ('[' :: (k ++ (']' :: (rest.map fun s => '[' :: s ++ [']']).flatten)))
          current false 0 =
          (if current ≠ [] then [current] else []) ++
            parseBracketGo (k ++ (']' :: (rest.map fun s => '[' :: s ++ [']']).flatten))
              [] true 1 from rfl]
      rw [if_pos hcur]
      rw [pbg_inside k _ [] (hsegs k (by simp))]
      rw [show parseBracketGo (']' :: (rest.map fun s => '[' :: s ++ [']']).flatten)
          ([] ++ k) true 1 =
          ([] ++ k) :: parseBracketGo ((rest.map fun s => '[' :: s ++ [']']).flatten)
            [] false 0 from rfl]
      rw [pbg_tail rest (fun x hx => hsegs x (by simp [hx]))]
      simp

/-- The bracket scanner recovers the segments of a rendered path. -/
theorem parseBracketNotation_render (base : JSStr) (segs : List JSStr)
    (hbase : ∀ c ∈ base, ¬c = '[' ∧ ¬c = ']') (hb : base ≠ [])
    (hsegs : ∀ k ∈ segs, ∀ c ∈ k, ¬c = '[' ∧ ¬c = ']') :
    parseBracketNotationM (renderPath (base :: segs)) = base :: segs := by
  unfold parseBracketNotationM renderPath
  rw [pbg_outside base _ [] hbase]
  exact pbg_segs segs base hb hsegs

theorem renderPath_single (k : JSStr) : renderPath [k] = k := by
  unfold renderPath; simp

theorem renderPath_snoc (P : List JSStr) (hP : P ≠ []) (k : JSStr) :
    renderPath (P ++ [k]) = renderPath P ++ '[' :: k ++ [']'] := by
  cases P with
  | nil => exact absurd rfl hP
  | cons p0 rest =>
      show renderPath (p0 :: (rest ++ [k])) = _
      unfold renderPath
      simp

/-- With dot notation off, splitting a rendered bracket path recovers
its segments. -/
theorem parseKeyPath_render (opts : ParseOpts) (hdots : opts.allowDots = false)
    (base : JSStr) (segs : List JSStr) (hb : base ≠ [])
    (hbase : ∀ c ∈ base, ¬c = '[' ∧ ¬c = ']')
    (hsegs : ∀ k ∈ segs, ∀ c ∈ k, ¬c = '[' ∧ ¬c = ']') :
    parseKeyPathM (renderPath (base :: segs)) opts = base :: segs := by
  unfold parseKeyPathM
  rw [hdots]
  simp only [Bool.false_and, Bool.false_eq_true, if_false]
  cases segs with
  | nil =>
      rw [renderPath_single]
      rw [contains_false_of_not_mem base '[' (fun hm => (hbase '[' hm).1 rfl)]
      simp
  | cons k rest =>
      have hmem : '[' ∈ renderPath (base :: k :: rest) := by
        unfold renderPath
        simp
      rw [contains_true_of_mem _ '[' hmem]
      simp only [if_true]
      exact parseBracketNotation_render base (k :: rest) hbase hb hsegs

/-! ### More step lemmas for the builder: present slots and arrays -/

theorem listSetU_lt (xs : List JSVal) (i : Nat) (v : JSVal) (h : i < xs.length) :
    listSetU xs i v = xs.set i v := by
  unfold listSetU; rw [if_pos h]

theorem listGetU_append_self (xs : List JSVal) (w : JSVal) :
    listGetU (xs ++ [w]) xs.length = w := by
  unfold listGetU
  induction xs with
  | nil => rfl
  | cons x rest ih => simp only [List.cons_append, List.length_cons, List.getD_cons_succ]; exact ih

theorem listSetU_append_self (xs : List JSVal) (w v : JSVal) :
    listSetU (xs ++ [w]) xs.length v = xs ++ [v] := by
  unfold listSetU
  rw [if_pos (by simp)]
  rw [set_append_right xs [w] xs.length v (le_refl _)]
  simp

theorem emptyToArr_false (v : JSVal) : emptyToArr false v = v := rfl

theorem setNested_step_present (fields : List (JSStr × JSVal))
    (sub : List (JSStr × JSVal)) (k seg : JSStr) (rest : List JSStr) (v : JSVal)
    (opts : ParseOpts) (d : Nat)
    (hd : d ≤ opts.depth) (hk : k ≠ [])
    (hpol : (!opts.allowPrototypes && hasPrototypePollutionM k) = false)
    (harr : ((seg ≠ [] && isArrayIndexM seg) || seg = []) = false)
    (hsub : jsGet fields k = .obj sub) :
    setNestedValueM (.obj fields) (k :: seg :: rest) v opts d =
      (setNestedValueM (.obj sub) (seg :: rest) v opts (d + 1)).map
        fun r => .obj (jsSet fields k r) := by
  have hlt : ¬(d > opts.depth) := by omega
  have hdec : decide (d > opts.depth) = false := by simp [hlt]
  have htr : jsTruthy (jsGet fields k) = true := by rw [hsub]; rfl
  unfold setNestedValueM
  have hf : 2 * (k :: seg :: rest).length + 1 = (2 * rest.length + 4) + 1 := by
    simp only [List.length_cons]; omega
  rw [hf, engine_succ]
  simp only [engineStep, hdec, Bool.and_false, Bool.false_eq_true, if_false,
    if_neg hlt, if_neg hk, hpol, htr, Bool.not_true, harr, Bool.false_and]
  rw [hsub]
  dsimp only
  rw [engine_set_eq opts (2 * rest.length + 4) (.obj sub) (seg :: rest) v (d + 1)
    (by simp only [List.length_cons]; omega)]
  rfl

theorem setNested_step_idx_fresh (fields : List (JSStr × JSVal)) (k seg : JSStr)
    (rest : List JSStr) (v : JSVal) (opts : ParseOpts) (d : Nat)
    (hd : d ≤ opts.depth) (hk : k ≠ [])
    (hpol : (!opts.allowPrototypes && hasPrototypePollutionM k) = false)
    (harrT : ((seg ≠ [] && isArrayIndexM seg) || seg = []) = true)
    (hpa : opts.parseArrays = true)
    (hfresh : jsTruthy (jsGet fields k) = false) :
    setNestedValueM (.obj fields) (k :: seg :: rest) v opts d =
      handleArrayValueM (.obj (jsSet fields k (.arr []))) k (seg :: rest) v opts
        (d + 1) := by
  have hlt : ¬(d > opts.depth) := by omega
  have hdec : decide (d > opts.depth) = false := by simp [hlt]
  unfold setNestedValueM
  have hf : 2 * (k :: seg :: rest).length + 1 = (2 * rest.length + 4) + 1 := by
    simp only [List.length_cons]; omega
  rw [hf, engine_succ]
  simp only [engineStep, hdec, Bool.and_false, Bool.false_eq_true, if_false,
    if_neg hlt, if_neg hk, hpol, hfresh, Bool.not_false, eq_self_iff_true,
    if_true, harrT, hpa, Bool.and_self]
  rw [engine_harr_eq opts (2 * rest.length + 4) _ k (seg :: rest) v (d + 1)
    (by simp only [List.length_cons]; omega)]

theorem setNested_step_idx_present (fields : List (JSStr × JSVal)) (k seg : JSStr)
    (rest : List JSStr) (v : JSVal) (opts : ParseOpts) (d : Nat)
    (hd : d ≤ opts.depth) (hk : k ≠ [])
    (hpol : (!opts.allowPrototypes && hasPrototypePollutionM k) = false)
    (harrT : ((seg ≠ [] && isArrayIndexM seg) || seg = []) = true)
    (hpa : opts.parseArrays = true)
    (htr : jsTruthy (jsGet fields k) = true) :
    setNestedValueM (.obj fields) (k :: seg :: rest) v opts d =
      handleArrayValueM (.obj fields) k (seg :: rest) v opts (d + 1) := by
  have hlt : ¬(d > opts.depth) := by omega
  have hdec : decide (d > opts.depth) = false := by simp [hlt]
  unfold setNestedValueM
  have hf : 2 * (k :: seg :: rest).length + 1 = (2 * rest.length + 4) + 1 := by
    simp only [List.length_cons]; omega
  rw [hf, engine_succ]
  simp only [engineStep, hdec, Bool.and_false, Bool.false_eq_true, if_false,
    if_neg hlt, if_neg hk, hpol, htr, Bool.not_true, harrT, hpa, Bool.and_self]
  rw [engine_harr_eq opts (2 * rest.length + 4) _ k (seg :: rest) v (d + 1)
    (by simp only [List.length_cons]; omega)]
  rw [if_pos trivial]

theorem harr_leaf_append (fields : List (JSStr × JSVal)) (k seg : JSStr)
    (xs : List JSVal) (v : JSVal) (opts : ParseOpts) (d : Nat)
    (hseg : ¬(seg = [])) (hidx : isArrayIndexM seg = true)
    (hlim : parseIntM seg ≤ opts.arrayLimit)
    (hAE : opts.allowEmptyArrays = false)
    (harrV : jsGet fields k = .arr xs)
    (hi : parseIntM seg = xs.length) :
    handleArrayValueM (.obj fields) k [seg] v opts d =
      .ok (.obj (jsSet fields k (.arr (xs ++ [v])))) := by
  unfold handleArrayValueM
  have hf : 2 * ([seg] : List JSStr).length + 2 = (2 * 0 + 3) + 1 := by simp
  rw [hf, engine_succ]
  simp only [engineStep]
  rw [harrV]
  dsimp only
  rw [if_neg hseg]
  rw [hidx]
  simp only [eq_self_iff_true, if_true]
  rw [if_neg (by omega : ¬(parseIntM seg > opts.arrayLimit))]
  rw [if_pos (by omega : xs.length ≤ parseIntM seg)]
  rw [hi, hAE, emptyToArr_false]
  rw [show xs.length + 1 - xs.length = 1 from by omega]
  rw [show List.replicate 1 JSVal.undef = [JSVal.undef] from rfl]
  rw [listSetU_append_self]

theorem harr_deep_append (fields : List (JSStr × JSVal)) (k seg : JSStr)
    (rest : List JSStr) (xs : List JSVal) (v : JSVal) (opts : ParseOpts) (d : Nat)
    (hseg : ¬(seg = [])) (hidx : isArrayIndexM seg = true)
    (hlim : parseIntM seg ≤ opts.arrayLimit)
    (harrV : jsGet fields k = .arr xs)
    (hi : parseIntM seg = xs.length) (hrest : rest ≠ []) :
    handleArrayValueM (.obj fields) k (seg :: rest) v opts d =
      (setNestedValueM (.obj []) rest v opts d).map
        fun e => .obj (jsSet fields k (.arr (xs ++ [e]))) := by
  obtain ⟨r0, rs, rfl⟩ : ∃ r0 rs, rest = r0 :: rs := by
    cases rest with
    | nil => exact absurd rfl hrest
    | cons r0 rs => exact ⟨r0, rs, rfl⟩
  unfold handleArrayValueM
  have hf : 2 * (seg :: r0 :: rs).length + 2 = (2 * rs.length + 5) + 1 := by
    simp only [List.length_cons]; omega
  rw [hf, engine_succ]
  simp only [engineStep]
  rw [harrV]
  dsimp only
  rw [if_neg hseg]
  rw [hidx]
  simp only [eq_self_iff_true, if_true]
  rw [if_neg (by omega : ¬(parseIntM seg > opts.arrayLimit))]
  rw [if_pos (by omega : xs.length ≤ parseIntM seg)]
  rw [hi]
  rw [show xs.length + 1 - xs.length = 1 from by omega]
  rw [show List.replicate 1 JSVal.undef = [JSVal.undef] from rfl]
  rw [listGetU_append_self]
  simp only [jsTruthy, Bool.not_false, if_true]
  rw [engine_set_eq opts (2 * rs.length + 5) (.obj []) (r0 :: rs) v d
    (by simp only [List.length_cons]; omega)]
  have hset : ∀ e, listSetU (xs ++ [JSVal.undef]) xs.length e = xs ++ [e] :=
    fun e => listSetU_append_self xs JSVal.undef e
  simp only [hset]

theorem harr_deep_existing (fields : List (JSStr × JSVal)) (k seg : JSStr)
    (rest : List JSStr) (xs : List JSVal) (v : JSVal) (opts : ParseOpts) (d : Nat)
    (hseg : ¬(seg = [])) (hidx : isArrayIndexM seg = true)
    (hlim : parseIntM seg ≤ opts.arrayLimit)
    (harrV : jsGet fields k = .arr xs)
    (hi : parseIntM seg < xs.length) (hrest : rest ≠ [])
    (helem : jsTruthy (listGetU xs (parseIntM seg)) = true) :
    handleArrayValueM (.obj fields) k (seg :: rest) v opts d =
      (setNestedValueM (listGetU xs (parseIntM seg)) rest v opts d).map
        fun e => .obj (jsSet fields k (.arr (xs.set (parseIntM seg) e))) := by
  obtain ⟨r0, rs, rfl⟩ : ∃ r0 rs, rest = r0 :: rs := by
    cases rest with
    | nil => exact absurd rfl hrest
    | cons r0 rs => exact ⟨r0, rs, rfl⟩
  unfold handleArrayValueM
  have hf : 2 * (seg :: r0 :: rs).length + 2 = (2 * rs.length + 5) + 1 := by
    simp only [List.length_cons]; omega
  rw [hf, engine_succ]
  simp only [engineStep]
  rw [harrV]
  dsimp only
  rw [if_neg hseg]
  rw [hidx]
  simp only [eq_self_iff_true, if_true]
  rw [if_neg (by omega : ¬(parseIntM seg > opts.arrayLimit))]
  rw [if_neg (by omega : ¬(xs.length ≤ parseIntM seg))]
  rw [helem]
  simp only [Bool.not_true, Bool.false_eq_true, if_false]
  rw [engine_set_eq opts (2 * rs.length + 5) _ (r0 :: rs) v d
    (by simp only [List.length_cons]; omega)]
  have hset : ∀ e, listSetU xs (parseIntM seg) e = xs.set (parseIntM seg) e :=
    fun e => listSetU_lt xs (parseIntM seg) e hi
  simp only [hset]

/-! ### The builder implements `graft` -/

theorem pathOk_head (lim : Nat) (k : JSStr) (P : List JSStr)
    (h : pathOk lim (k :: P) = true) :
    ¬(k = []) ∧ hasPrototypePollutionM k = false ∧ pathOk lim P = true ∧
      (isArrayIndexM k = true → parseIntM k ≤ lim) := by
  unfold pathOk at h
  simp only [List.all_cons, Bool.and_eq_true] at h
  obtain ⟨⟨⟨hsk, hallseg⟩, hcons⟩, hlimk, hallim⟩ := h
  have hconsT : noConsecIdx P = true := by
    cases P with
    | nil => rfl
    | cons b rest =>
        simp only [noConsecIdx, Bool.and_eq_true] at hcons
        exact hcons.2
  unfold segOk at hsk
  simp only [Bool.and_eq_true, Bool.not_eq_true', decide_eq_false_iff_not] at hsk
  refine ⟨hsk.1, by simpa using hsk.2, ?_, ?_⟩
  · unfold pathOk
    simp only [Bool.and_eq_true]
    exact ⟨⟨hallseg, hconsT⟩, hallim⟩
  · intro hidx
    simp only [Bool.or_eq_true, Bool.not_eq_true', decide_eq_true_eq] at hlimk
    rcases hlimk with h1 | h1
    · rw [hidx] at h1; exact absurd h1 (by simp)
    · exact h1

theorem pathOk_noConsec (lim : Nat) (P : List JSStr) (h : pathOk lim P = true) :
    noConsecIdx P = true := by
  unfold pathOk at h
  simp only [Bool.and_eq_true] at h
  exact h.1.2

theorem noConsec_pair (a b : JSStr) (rest : List JSStr)
    (h : noConsecIdx (a :: b :: rest) = true) (ha : isArrayIndexM a = true) :
    isArrayIndexM b = false := by
  simp only [noConsecIdx, Bool.and_eq_true, Bool.not_eq_true',
    Bool.and_eq_false_iff] at h
  rcases h.1 with h1 | h1
  · rw [ha] at h1; exact absurd h1 (by simp)
  · exact h1

theorem buildFresh_cons (k : JSStr) (rest : List JSStr) (w : JSVal) :
    buildFresh (k :: rest) w =
      if isArrayIndexM k then .arr [buildFresh rest w]
      else .obj [(k, buildFresh rest w)] := rfl

theorem graft_obj (fields : List (JSStr × JSVal)) (k : JSStr)
    (rest : List JSStr) (w : JSVal) :
    graft (.obj fields) (k :: rest) w =
      (match jsGet fields k with
       | .undef => .obj (jsSet fields k (buildFresh rest w))
       | sub => .obj (jsSet fields k (graft sub rest w))) := rfl

theorem graft_arr (xs : List JSVal) (k : JSStr) (rest : List JSStr) (w : JSVal) :
    graft (.arr xs) (k :: rest) w =
      (if parseIntM k < xs.length then
        .arr (xs.set (parseIntM k) (graft (listGetU xs (parseIntM k)) rest w))
      else .arr (xs ++ [buildFresh rest w])) := rfl

theorem graft_empty (seg : JSStr) (rest : List JSStr) (w : JSVal)
    (hseg : isArrayIndexM seg = false) :
    graft (.obj []) (seg :: rest) w = buildFresh (seg :: rest) w := by
  rw [show graft (JSVal.obj []) (seg :: rest) w =
    JSVal.obj (jsSet [] seg (buildFresh rest w)) from rfl]
  rw [buildFresh_cons seg rest w, hseg]
  simp only [Bool.false_eq_true, if_false]
  rfl

theorem preB_empty_obj (seg : JSStr) (rest : List JSStr)
    (hsegn : isArrayIndexM seg = false) (hfr : freshIdx0 rest = true) :
    preB (.obj []) (seg :: rest) = true := by
  simp only [preB, Bool.and_eq_true, Bool.not_eq_true']
  exact ⟨hsegn, hfr⟩

/-- The tree builder's write is exactly `graft` on every admissible
accumulator and path. -/
theorem setNested_graft (opts : ParseOpts)
    (hpa : opts.parseArrays = true) (hAE : opts.allowEmptyArrays = false) :
    ∀ n : Nat, ∀ (fields : List (JSStr × JSVal)) (P : List JSStr) (w : JSVal)
      (d : Nat),
      P.length ≤ n → pathOk opts.arrayLimit P = true →
      preB (.obj fields) P = true → d + P.length ≤ opts.depth + 1 →
      setNestedValueM (.obj fields) P w opts d = .ok (graft (.obj fields) P w) := by
  intro n
  induction n with
  | zero =>
      intro fields P w d hn hpath hpre hd
      cases P with
      | nil => exact absurd hpre (by simp [preB])
      | cons k P' => simp at hn
  | succ m ih =>
      intro fields P w d hn hpath hpre hd
      cases P with
      | nil => exact absurd hpre (by simp [preB])
      | cons k P' =>
          obtain ⟨hk, hpolk, hpathT, _⟩ := pathOk_head _ k P' hpath
          have hpol : (!opts.allowPrototypes && hasPrototypePollutionM k) = false := by
            rw [hpolk, Bool.and_false]
          simp only [preB, Bool.and_eq_true, Bool.not_eq_true'] at hpre
          obtain ⟨hknotidx, hpreM⟩ := hpre
          cases P' with
          | nil =>
              cases hget : jsGet fields k with
              | undef =>
                  rw [setNested_leaf (.obj fields) k w opts d
                    (by simp only [List.length_cons] at hd; omega) hk hpol]
                  rw [handleDuplicate_fresh fields k w opts hget hpol]
                  rw [graft_obj fields k [] w, hget]
                  rfl
              | null => rw [hget] at hpreM; exact absurd hpreM (by simp [preB])
              | str s => rw [hget] at hpreM; exact absurd hpreM (by simp [preB])
              | num nn => rw [hget] at hpreM; exact absurd hpreM (by simp [preB])
              | bool b => rw [hget] at hpreM; exact absurd hpreM (by simp [preB])
              | arr xs => rw [hget] at hpreM; exact absurd hpreM (by simp [preB])
              | obj sub => rw [hget] at hpreM; exact absurd hpreM (by simp [preB])
          | cons seg rest =>
              obtain ⟨hsegne, _, hpathT2, hsegLim⟩ := pathOk_head _ seg rest hpathT
              have hd' : d ≤ opts.depth := by
                simp only [List.length_cons] at hd; omega
              cases hget : jsGet fields k with
              | undef =>
                  rw [hget] at hpreM
                  have hfresh : jsTruthy (jsGet fields k) = false := by
                    rw [hget]; rfl
                  have hfreshT : freshIdx0 (seg :: rest) = true := hpreM
                  simp only [freshIdx0, Bool.and_eq_true, Bool.or_eq_true,
                    Bool.not_eq_true', decide_eq_true_eq] at hfreshT
                  obtain ⟨hseg0, hfrT⟩ := hfreshT
                  by_cases hsegi : isArrayIndexM seg = true
                  · have hi0 : parseIntM seg = 0 := by
                      rcases hseg0 with h1 | h1
                      · rw [hsegi] at h1; exact absurd h1 (by simp)
                      · exact h1
                    have harrT : ((seg ≠ [] && isArrayIndexM seg) || seg = []) = true := by
                      simp [hsegi, hsegne]
                    rw [setNested_step_idx_fresh fields k seg rest w opts d hd' hk
                      hpol harrT hpa hfresh]
                    have hget2 : jsGet (jsSet fields k (.arr [])) k = .arr [] :=
                      jsGet_jsSet_self fields k _
                    cases rest with
                    | nil =>
                        rw [harr_leaf_append _ k seg [] w opts (d + 1) hsegne hsegi
                          (hsegLim hsegi) hAE hget2 (by simp [hi0])]
                        rw [jsSet_jsSet]
                        rw [graft_obj fields k [seg] w, hget]
                        dsimp only
                        rw [buildFresh_cons seg [] w, hsegi]
                        rfl
                    | cons r0 rs =>
                        have hr0 : isArrayIndexM r0 = false :=
                          noConsec_pair seg r0 rs
                            (pathOk_noConsec _ _ hpathT) hsegi
                        rw [harr_deep_append _ k seg (r0 :: rs) [] w opts (d + 1)
                          hsegne hsegi (hsegLim hsegi) hget2 (by simp [hi0])
                          (by simp)]
                        rw [ih [] (r0 :: rs) w (d + 1)
                          (by simp only [List.length_cons] at hn ⊢; omega)
                          hpathT2
                          (preB_empty_obj r0 rs hr0 (by
                            simp only [freshIdx0, Bool.and_eq_true] at hfrT
                            exact hfrT.2))
                          (by simp only [List.length_cons] at hd ⊢; omega)]
                        rw [graft_empty r0 rs w hr0]
                        simp only [Except.map, jsSet_jsSet]
                        rw [graft_obj fields k (seg :: r0 :: rs) w, hget]
                        dsimp only
                        rw [buildFresh_cons seg (r0 :: rs) w, hsegi]
                        rfl
                  · have hsegn : isArrayIndexM seg = false := by
                      simpa using hsegi
                    have harrF :
                        ((seg ≠ [] && isArrayIndexM seg) || seg = []) = false := by
                      simp [hsegn, hsegne]
                    rw [setNested_step_named fields k seg rest w opts d hd' hk hpol
                      harrF hfresh]
                    rw [ih [] (seg :: rest) w (d + 1)
                      (by simp only [List.length_cons] at hn ⊢; omega)
                      hpathT
                      (preB_empty_obj seg rest hsegn hfrT)
                      (by simp only [List.length_cons] at hd ⊢; omega)]
                    rw [graft_empty seg rest w hsegn]
                    simp only [Except.map]
                    rw [graft_obj fields k (seg :: rest) w, hget]
              | null => rw [hget] at hpreM; exact absurd hpreM (by simp [preB])
              | str s => rw [hget] at hpreM; exact absurd hpreM (by simp [preB])
              | num nn => rw [hget] at hpreM; exact absurd hpreM (by simp [preB])
              | bool b => rw [hget] at hpreM; exact absurd hpreM (by simp [preB])
              | obj sub =>
                  rw [hget] at hpreM
                  have hpreM2 : preB (.obj sub) (seg :: rest) = true := hpreM
                  have hsegn : isArrayIndexM seg = false := by
                    simp only [preB, Bool.and_eq_true, Bool.not_eq_true'] at hpreM2
                    exact hpreM2.1
                  have harrF :
                      ((seg ≠ [] && isArrayIndexM seg) || seg = []) = false := by
                    simp [hsegn, hsegne]
                  rw [setNested_step_present fields sub k seg rest w opts d hd' hk
                    hpol harrF hget]
                  rw [ih sub (seg :: rest) w (d + 1)
                    (by simp only [List.length_cons] at hn ⊢; omega)
                    hpathT hpreM2
                    (by simp only [List.length_cons] at hd ⊢; omega)]
                  simp only [Except.map]
                  rw [graft_obj fields k (seg :: rest) w, hget]
              | arr xs =>
                  rw [hget] at hpreM
                  have hpreM2 : preB (.arr xs) (seg :: rest) = true := hpreM
                  simp only [preB, Bool.and_eq_true] at hpreM2
                  obtain ⟨hsegi, hrest2⟩ := hpreM2
                  have htr : jsTruthy (jsGet fields k) = true := by rw [hget]; rfl
                  have harrT : ((seg ≠ [] && isArrayIndexM seg) || seg = []) = true := by
                    simp [hsegi, hsegne]
                  rw [setNested_step_idx_present fields k seg rest w opts d hd' hk
                    hpol harrT hpa htr]
                  by_cases hilt : parseIntM seg < xs.length
                  · rw [if_pos hilt] at hrest2
                    cases rest with
                    | nil => exact absurd hrest2 (by simp [preB])
                    | cons r0 rs =>
                        have hr0 : isArrayIndexM r0 = false :=
                          noConsec_pair seg r0 rs
                            (pathOk_noConsec _ _ hpathT) hsegi
                        cases helem : listGetU xs (parseIntM seg) with
                        | undef =>
                            rw [helem] at hrest2
                            exact absurd hrest2 (by simp [preB])
                        | null =>
                            rw [helem] at hrest2
                            exact absurd hrest2 (by simp [preB])
                        | str s =>
                            rw [helem] at hrest2
                            exact absurd hrest2 (by simp [preB])
                        | num nn =>
                            rw [helem] at hrest2
                            exact absurd hrest2 (by simp [preB])
                        | bool b =>
                            rw [helem] at hrest2
                            exact absurd hrest2 (by simp [preB])
                        | arr exs =>
                            rw [helem] at hrest2
                            simp only [preB, Bool.and_eq_true, hr0,
                              Bool.false_eq_true, false_and] at hrest2
                        | obj ef =>
                            rw [helem] at hrest2
                            have htrelem :
                                jsTruthy (listGetU xs (parseIntM seg)) = true := by
                              rw [helem]; rfl
                            rw [harr_deep_existing fields k seg (r0 :: rs) xs w opts
                              (d + 1) hsegne hsegi (hsegLim hsegi) hget hilt
                              (by simp) htrelem]
                            rw [helem]
                            rw [ih ef (r0 :: rs) w (d + 1)
                              (by simp only [List.length_cons] at hn ⊢; omega)
                              hpathT2 hrest2
                              (by simp only [List.length_cons] at hd ⊢; omega)]
                            simp only [Except.map]
                            rw [graft_obj fields k (seg :: r0 :: rs) w, hget]
                            dsimp only
                            rw [graft_arr xs seg (r0 :: rs) w, if_pos hilt, helem]
                  · rw [if_neg hilt] at hrest2
                    simp only [Bool.and_eq_true, decide_eq_true_eq] at hrest2
                    obtain ⟨hieq, hfrT⟩ := hrest2
                    cases rest with
                    | nil =>
                        rw [harr_leaf_append fields k seg xs w opts (d + 1) hsegne
                          hsegi (hsegLim hsegi) hAE hget hieq]
                        rw [graft_obj fields k [seg] w, hget]
                        dsimp only
                        rw [graft_arr xs seg [] w, if_neg hilt]
                        rfl
                    | cons r0 rs =>
                        have hr0 : isArrayIndexM r0 = false :=
                          noConsec_pair seg r0 rs
                            (pathOk_noConsec _ _ hpathT) hsegi
                        rw [harr_deep_append fields k seg (r0 :: rs) xs w opts
                          (d + 1) hsegne hsegi (hsegLim hsegi) hget hieq (by simp)]
                        rw [ih [] (r0 :: rs) w (d + 1)
                          (by simp only [List.length_cons] at hn ⊢; omega)
                          hpathT2
                          (preB_empty_obj r0 rs hr0 (by
                            simp only [freshIdx0, Bool.and_eq_true] at hfrT
                            exact hfrT.2))
                          (by simp only [List.length_cons] at hd ⊢; omega)]
                        rw [graft_empty r0 rs w hr0]
                        simp only [Except.map]
                        rw [graft_obj fields k (seg :: r0 :: rs) w, hget]
                        dsimp only
                        rw [graft_arr xs seg (r0 :: rs) w, if_neg hilt]

/-! ### Graft algebra -/

theorem buildFresh_append (P Q : List JSStr) (u : JSVal) :
    buildFresh (P ++ Q) u = buildFresh P (buildFresh Q u) := by
  induction P with
  | nil => rfl
  | cons k rest ih =>
      simp only [List.cons_append, buildFresh_cons, ih]

theorem buildFresh_ne_undef (P : List JSStr) (w : JSVal) (hw : w ≠ JSVal.undef) :
    buildFresh P w ≠ JSVal.undef := by
  cases P with
  | nil => exact hw
  | cons k rest =>
      rw [buildFresh_cons]
      by_cases hk : isArrayIndexM k = true
      · rw [hk]; simp
      · rw [Bool.not_eq_true] at hk; rw [hk]; simp

theorem graft_obj_present (fields : List (JSStr × JSVal)) (k : JSStr)
    (rest : List JSStr) (w sub : JSVal) (hget : jsGet fields k = sub)
    (hne : sub ≠ JSVal.undef) :
    graft (.obj fields) (k :: rest) w = .obj (jsSet fields k (graft sub rest w)) := by
  rw [graft_obj, hget]
  cases sub with
  | undef => exact absurd rfl hne
  | null => rfl
  | str s => rfl
  | num n => rfl
  | bool b => rfl
  | arr xs => rfl
  | obj g => rfl

theorem graft_obj_absent (fields : List (JSStr × JSVal)) (k : JSStr)
    (rest : List JSStr) (w : JSVal) (hget : jsGet fields k = .undef) :
    graft (.obj fields) (k :: rest) w = .obj (jsSet fields k (buildFresh rest w)) := by
  rw [graft_obj, hget]

theorem graft_ne_undef (P : List JSStr) (A w : JSVal) (hA : A ≠ JSVal.undef)
    (hw : w ≠ JSVal.undef) : graft A P w ≠ JSVal.undef := by
  cases P with
  | nil => cases A <;> exact hw
  | cons k rest =>
      cases A with
      | undef => exact absurd rfl hA
      | null => exact fun h => JSVal.noConfusion h
      | str s => exact fun h => JSVal.noConfusion h
      | num n => exact fun h => JSVal.noConfusion h
      | bool b => exact fun h => JSVal.noConfusion h
      | arr xs =>
          rw [graft_arr]
          by_cases hi : parseIntM k < xs.length
          · rw [if_pos hi]; simp
          · rw [if_neg hi]; simp
      | obj fields =>
          rw [graft_obj]
          cases jsGet fields k <;> simp

theorem listGetU_set_self (xs : List JSVal) (i : Nat) (v : JSVal)
    (h : i < xs.length) : listGetU (xs.set i v) i = v := by
  unfold listGetU
  rw [List.getD_eq_getElem?_getD, List.getElem?_set_self (by simpa using h)]
  rfl

theorem set_append_last (xs : List JSVal) (w v : JSVal) :
    (xs ++ [w]).set xs.length v = xs ++ [v] := by
  rw [set_append_right xs [w] xs.length v (le_refl _)]
  simp

theorem jsSet_self_head (k : JSStr) (x y : JSVal) (rest : List (JSStr × JSVal)) :
    jsSet ((k, x) :: rest) k y = (k, y) :: rest := by
  rw [jsSet_cons, if_pos rfl]

/-- Grafting below a fresh chain continues inside the chain's leaf. -/
theorem graft_buildFresh (w u : JSVal) (hw : w ≠ JSVal.undef) :
    ∀ (P Q : List JSStr), freshIdx0 P = true →
      graft (buildFresh P w) (P ++ Q) u = buildFresh P (graft w Q u) := by
  intro P
  induction P with
  | nil => intro Q _; rfl
  | cons k rest ih =>
      intro Q hfr
      simp only [freshIdx0, Bool.and_eq_true, Bool.or_eq_true, Bool.not_eq_true',
        decide_eq_true_eq] at hfr
      obtain ⟨hk0, hfrT⟩ := hfr
      simp only [List.cons_append, buildFresh_cons]
      by_cases hki : isArrayIndexM k = true
      · have hi0 : parseIntM k = 0 := by
          rcases hk0 with h1 | h1
          · rw [hki] at h1; exact absurd h1 (by simp)
          · exact h1
        rw [hki]
        simp only [if_true, eq_self_iff_true]
        rw [graft_arr, hi0]
        rw [if_pos (by simp : (0 : Nat) < [buildFresh rest w].length)]
        rw [show listGetU [buildFresh rest w] 0 = buildFresh rest w from rfl]
        rw [ih Q hfrT]
        rfl
      · rw [Bool.not_eq_true] at hki
        rw [hki]
        simp only [Bool.false_eq_true, if_false]
        rw [graft_obj_present [(k, buildFresh rest w)] k (rest ++ Q) u
          (buildFresh rest w) (by rw [jsGet_cons, if_pos rfl])
          (buildFresh_ne_undef rest w hw)]
        rw [ih Q hfrT, jsSet_self_head]

theorem preB_null (P : List JSStr) : preB JSVal.null P = false := by
  cases P <;> rfl

theorem preB_str (s : JSStr) (P : List JSStr) : preB (JSVal.str s) P = false := by
  cases P <;> rfl

theorem preB_num (n : Int) (P : List JSStr) : preB (JSVal.num n) P = false := by
  cases P <;> rfl

theorem preB_bool (b : Bool) (P : List JSStr) : preB (JSVal.bool b) P = false := by
  cases P <;> rfl

theorem preB_obj (fields : List (JSStr × JSVal)) (k : JSStr) (rest : List JSStr) :
    preB (.obj fields) (k :: rest) =
      (!isArrayIndexM k &&
        (match jsGet fields k with
         | .undef => freshIdx0 rest
         | sub => preB sub rest)) := rfl

theorem preB_arr (xs : List JSVal) (k : JSStr) (rest : List JSStr) :
    preB (.arr xs) (k :: rest) =
      (isArrayIndexM k &&
        (if parseIntM k < xs.length then preB (listGetU xs (parseIntM k)) rest
         else decide (parseIntM k = xs.length) && freshIdx0 rest)) := rfl

theorem preB_obj_present (fields : List (JSStr × JSVal)) (k : JSStr)
    (rest : List JSStr) (sub : JSVal) (hget : jsGet fields k = sub)
    (hne : sub ≠ JSVal.undef) :
    preB (.obj fields) (k :: rest) = (!isArrayIndexM k && preB sub rest) := by
  rw [preB_obj, hget]
  cases sub with
  | undef => exact absurd rfl hne
  | null => rfl
  | str s => rfl
  | num n => rfl
  | bool b => rfl
  | arr xs => rfl
  | obj g => rfl

/-- Readiness below a fresh chain is readiness inside its leaf. -/
theorem preB_buildFresh (w : JSVal) (hw : w ≠ JSVal.undef) :
    ∀ (P Q : List JSStr), freshIdx0 P = true →
      preB (buildFresh P w) (P ++ Q) = preB w Q := by
  intro P
  induction P with
  | nil => intro Q _; rfl
  | cons k P' ih =>
      intro Q hfr
      simp only [freshIdx0, Bool.and_eq_true, Bool.or_eq_true, Bool.not_eq_true',
        decide_eq_true_eq] at hfr
      obtain ⟨hk0, hfrT⟩ := hfr
      simp only [List.cons_append, buildFresh_cons]
      by_cases hki : isArrayIndexM k = true
      · have hi0 : parseIntM k = 0 := by
          rcases hk0 with h1 | h1
          · rw [hki] at h1; exact absurd h1 (by simp)
          · exact h1
        rw [hki]
        simp only [if_true, eq_self_iff_true]
        rw [preB_arr, hki, hi0]
        rw [if_pos (by simp : (0 : Nat) < [buildFresh P' w].length)]
        rw [show listGetU [buildFresh P' w] 0 = buildFresh P' w from rfl]
        rw [ih Q hfrT]
        simp
      · rw [Bool.not_eq_true] at hki
        rw [hki]
        simp only [Bool.false_eq_true, if_false]
        rw [preB_obj_present [(k, buildFresh P' w)] k (P' ++ Q) (buildFresh P' w)
          (by rw [jsGet_cons, if_pos rfl]) (buildFresh_ne_undef P' w hw)]
        rw [ih Q hfrT, hki]
        simp

/-- Readiness through a graft is readiness inside the grafted value. -/
theorem preB_graft (w : JSVal) (hw : w ≠ JSVal.undef) :
    ∀ (P : List JSStr) (A : JSVal), preB A P = true →
      ∀ Q : List JSStr, preB (graft A P w) (P ++ Q) = preB w Q := by
  intro P
  induction P with
  | nil => intro A hpre; exact absurd hpre (by simp [preB])
  | cons k P' ih =>
      intro A hpre Q
      cases A with
      | undef => exact absurd hpre (by simp [preB])
      | null => exact absurd hpre (by simp [preB])
      | str s => exact absurd hpre (by simp [preB])
      | num n => exact absurd hpre (by simp [preB])
      | bool b => exact absurd hpre (by simp [preB])
      | obj fields =>
          rw [preB_obj] at hpre
          simp only [Bool.and_eq_true, Bool.not_eq_true'] at hpre
          obtain ⟨hkn, hmatch⟩ := hpre
          cases hget : jsGet fields k with
          | undef =>
              rw [hget] at hmatch
              have hfr : freshIdx0 P' = true := hmatch
              rw [graft_obj_absent fields k P' w hget]
              show preB _ (k :: (P' ++ Q)) = _
              rw [preB_obj_present (jsSet fields k (buildFresh P' w)) k (P' ++ Q)
                (buildFresh P' w) (jsGet_jsSet_self fields k _)
                (buildFresh_ne_undef P' w hw)]
              rw [preB_buildFresh w hw P' Q hfr, hkn]
              simp
          | null =>
              rw [hget] at hmatch
              have h2 : preB JSVal.null P' = true := hmatch
              rw [preB_null] at h2
              exact absurd h2 (by simp)
          | str s =>
              rw [hget] at hmatch
              have h2 : preB (JSVal.str s) P' = true := hmatch
              rw [preB_str] at h2
              exact absurd h2 (by simp)
          | num n =>
              rw [hget] at hmatch
              have h2 : preB (JSVal.num n) P' = true := hmatch
              rw [preB_num] at h2
              exact absurd h2 (by simp)
          | bool b =>
              rw [hget] at hmatch
              have h2 : preB (JSVal.bool b) P' = true := hmatch
              rw [preB_bool] at h2
              exact absurd h2 (by simp)
          | arr xs =>
              rw [hget] at hmatch
              have hpreS : preB (.arr xs) P' = true := hmatch
              rw [graft_obj_present fields k P' w (.arr xs) hget (by simp)]
              show preB _ (k :: (P' ++ Q)) = _
              rw [preB_obj_present (jsSet fields k (graft (.arr xs) P' w)) k
                (P' ++ Q) (graft (.arr xs) P' w) (jsGet_jsSet_self fields k _)
                (graft_ne_undef P' _ w (by simp) hw)]
              rw [ih (.arr xs) hpreS Q, hkn]
              simp
          | obj g =>
              rw [hget] at hmatch
              have hpreS : preB (.obj g) P' = true := hmatch
              rw [graft_obj_present fields k P' w (.obj g) hget (by simp)]
              show preB _ (k :: (P' ++ Q)) = _
              rw [preB_obj_present (jsSet fields k (graft (.obj g) P' w)) k
                (P' ++ Q) (graft (.obj g) P' w) (jsGet_jsSet_self fields k _)
                (graft_ne_undef P' _ w (by simp) hw)]
              rw [ih (.obj g) hpreS Q, hkn]
              simp
      | arr xs =>
          rw [preB_arr] at hpre
          simp only [Bool.and_eq_true] at hpre
          obtain ⟨hki, hif⟩ := hpre
          by_cases hilt : parseIntM k < xs.length
          · rw [if_pos hilt] at hif
            rw [graft_arr, if_pos hilt]
            show preB _ (k :: (P' ++ Q)) = _
            rw [preB_arr, hki]
            rw [if_pos (by simpa using hilt)]
            rw [listGetU_set_self xs (parseIntM k) _ hilt]
            rw [ih (listGetU xs (parseIntM k)) hif Q]
            simp
          · rw [if_neg hilt] at hif
            simp only [Bool.and_eq_true, decide_eq_true_eq] at hif
            obtain ⟨hieq, hfr⟩ := hif
            rw [graft_arr, if_neg hilt]
            show preB _ (k :: (P' ++ Q)) = _
            rw [preB_arr, hki]
            rw [if_pos (by simp only [List.length_append, List.length_cons,
              List.length_nil]; omega)]
            rw [hieq, listGetU_append_self]
            rw [preB_buildFresh w hw P' Q hfr]
            simp

/-- Composing two grafts along a shared readiness prefix. -/
theorem graft_graft (w : JSVal) (hw : w ≠ JSVal.undef) :
    ∀ (P : List JSStr) (A : JSVal), preB A P = true →
      ∀ (Q : List JSStr) (u : JSVal),
        graft (graft A P w) (P ++ Q) u = graft A P (graft w Q u) := by
  intro P
  induction P with
  | nil => intro A hpre; exact absurd hpre (by simp [preB])
  | cons k P' ih =>
      intro A hpre Q u
      cases A with
      | undef => exact absurd hpre (by simp [preB])
      | null => exact absurd hpre (by simp [preB])
      | str s => exact absurd hpre (by simp [preB])
      | num n => exact absurd hpre (by simp [preB])
      | bool b => exact absurd hpre (by simp [preB])
      | obj fields =>
          rw [preB_obj] at hpre
          simp only [Bool.and_eq_true, Bool.not_eq_true'] at hpre
          obtain ⟨hkn, hmatch⟩ := hpre
          cases hget : jsGet fields k with
          | undef =>
              rw [hget] at hmatch
              have hfr : freshIdx0 P' = true := hmatch
              rw [graft_obj_absent fields k P' w hget]
              rw [show (k :: P') ++ Q = k :: (P' ++ Q) from rfl]
              rw [graft_obj_present (jsSet fields k (buildFresh P' w)) k (P' ++ Q)
                u (buildFresh P' w) (jsGet_jsSet_self fields k _)
                (buildFresh_ne_undef P' w hw)]
              rw [graft_buildFresh w u hw P' Q hfr, jsSet_jsSet]
              rw [graft_obj_absent fields k P' (graft w Q u) hget]
          | null =>
              rw [hget] at hmatch
              have h2 : preB JSVal.null P' = true := hmatch
              rw [preB_null] at h2
              exact absurd h2 (by simp)
          | str s =>
              rw [hget] at hmatch
              have h2 : preB (JSVal.str s) P' = true := hmatch
              rw [preB_str] at h2
              exact absurd h2 (by simp)
          | num n =>
              rw [hget] at hmatch
              have h2 : preB (JSVal.num n) P' = true := hmatch
              rw [preB_num] at h2
              exact absurd h2 (by simp)
          | bool b =>
              rw [hget] at hmatch
              have h2 : preB (JSVal.bool b) P' = true := hmatch
              rw [preB_bool] at h2
              exact absurd h2 (by simp)
          | arr axs =>
              rw [hget] at hmatch
              have hpreS : preB (.arr axs) P' = true := hmatch
              rw [graft_obj_present fields k P' w (.arr axs) hget (by simp)]
              rw [show (k :: P') ++ Q = k :: (P' ++ Q) from rfl]
              rw [graft_obj_present (jsSet fields k (graft (.arr axs) P' w)) k
                (P' ++ Q) u (graft (.arr axs) P' w) (jsGet_jsSet_self fields k _)
                (graft_ne_undef P' _ w (by simp) hw)]
              rw [ih (.arr axs) hpreS Q u, jsSet_jsSet]
              rw [graft_obj_present fields k P' (graft w Q u) (.arr axs) hget
                (by simp)]
          | obj g =>
              rw [hget] at hmatch
              have hpreS : preB (.obj g) P' = true := hmatch
              rw [graft_obj_present fields k P' w (.obj g) hget (by simp)]
              rw [show (k :: P') ++ Q = k :: (P' ++ Q) from rfl]
              rw [graft_obj_present (jsSet fields k (graft (.obj g) P' w)) k
                (P' ++ Q) u (graft (.obj g) P' w) (jsGet_jsSet_self fields k _)
                (graft_ne_undef P' _ w (by simp) hw)]
              rw [ih (.obj g) hpreS Q u, jsSet_jsSet]
              rw [graft_obj_present fields k P' (graft w Q u) (.obj g) hget
                (by simp)]
      | arr xs =>
          rw [preB_arr] at hpre
          simp only [Bool.and_eq_true] at hpre
          obtain ⟨hki, hif⟩ := hpre
          by_cases hilt : parseIntM k < xs.length
          · rw [if_pos hilt] at hif
            rw [graft_arr, if_pos hilt]
            rw [show (k :: P') ++ Q = k :: (P' ++ Q) from rfl]
            rw [graft_arr, if_pos (by simpa using hilt)]
            rw [listGetU_set_self xs (parseIntM k) _ hilt]
            rw [List.set_set]
            rw [ih (listGetU xs (parseIntM k)) hif Q u]
            rw [graft_arr, if_pos hilt]
          · rw [if_neg hilt] at hif
            simp only [Bool.and_eq_true, decide_eq_true_eq] at hif
            obtain ⟨hieq, hfr⟩ := hif
            rw [graft_arr, if_neg hilt]
            rw [show (k :: P') ++ Q = k :: (P' ++ Q) from rfl]
            rw [graft_arr, if_pos (by simp only [List.length_append,
              List.length_cons, List.length_nil]; omega)]
            rw [hieq, listGetU_append_self, set_append_last]
            rw [graft_buildFresh w u hw P' Q hfr]
            rw [graft_arr, if_neg hilt]

/-- Grafting along an extension of a ready path builds a fresh chain
inside the written value. -/
theorem graft_ext :
    ∀ (P : List JSStr) (A : JSVal), preB A P = true →
      ∀ (Q : List JSStr) (u : JSVal),
        graft A (P ++ Q) u = graft A P (buildFresh Q u) := by
  intro P
  induction P with
  | nil => intro A hpre; exact absurd hpre (by simp [preB])
  | cons k P' ih =>
      intro A hpre Q u
      cases A with
      | undef => exact absurd hpre (by simp [preB])
      | null => exact absurd hpre (by simp [preB])
      | str s => exact absurd hpre (by simp [preB])
      | num n => exact absurd hpre (by simp [preB])
      | bool b => exact absurd hpre (by simp [preB])
      | obj fields =>
          rw [preB_obj] at hpre
          simp only [Bool.and_eq_true, Bool.not_eq_true'] at hpre
          obtain ⟨hkn, hmatch⟩ := hpre
          rw [show (k :: P') ++ Q = k :: (P' ++ Q) from rfl]
          cases hget : jsGet fields k with
          | undef =>
              rw [graft_obj_absent fields k (P' ++ Q) u hget]
              rw [graft_obj_absent fields k P' (buildFresh Q u) hget]
              rw [buildFresh_append]
          | null =>
              rw [hget] at hmatch
              have h2 : preB JSVal.null P' = true := hmatch
              rw [preB_null] at h2
              exact absurd h2 (by simp)
          | str s =>
              rw [hget] at hmatch
              have h2 : preB (JSVal.str s) P' = true := hmatch
              rw [preB_str] at h2
              exact absurd h2 (by simp)
          | num n =>
              rw [hget] at hmatch
              have h2 : preB (JSVal.num n) P' = true := hmatch
              rw [preB_num] at h2
              exact absurd h2 (by simp)
          | bool b =>
              rw [hget] at hmatch
              have h2 : preB (JSVal.bool b) P' = true := hmatch
              rw [preB_bool] at h2
              exact absurd h2 (by simp)
          | arr axs =>
              rw [hget] at hmatch
              rw [graft_obj_present fields k (P' ++ Q) u (.arr axs) hget (by simp)]
              rw [graft_obj_present fields k P' (buildFresh Q u) (.arr axs) hget
                (by simp)]
              rw [ih (.arr axs) hmatch Q u]
          | obj g =>
              rw [hget] at hmatch
              rw [graft_obj_present fields k (P' ++ Q) u (.obj g) hget (by simp)]
              rw [graft_obj_present fields k P' (buildFresh Q u) (.obj g) hget
                (by simp)]
              rw [ih (.obj g) hmatch Q u]
      | arr xs =>
          rw [preB_arr] at hpre
          simp only [Bool.and_eq_true] at hpre
          obtain ⟨hki, hif⟩ := hpre
          rw [show (k :: P') ++ Q = k :: (P' ++ Q) from rfl]
          by_cases hilt : parseIntM k < xs.length
          · rw [if_pos hilt] at hif
            rw [graft_arr, if_pos hilt, graft_arr, if_pos hilt]
            rw [ih (listGetU xs (parseIntM k)) hif Q u]
          · rw [if_neg hilt] at hif
            rw [graft_arr, if_neg hilt, graft_arr, if_neg hilt]
            rw [buildFresh_append]

/-! ### Scalar coercion round-trip facts -/

theorem digit_ne_dash (c : Char) (h : '0' ≤ c ∧ c ≤ '9') : ¬c = '-' := by
  intro hc; subst hc; exact absurd h (by decide)

theorem isIntNumeric_cons (c : Char) (rest : JSStr) (h : ¬c = '-') :
    isIntNumericStringM (c :: rest) = isArrayIndexM (c :: rest) := by
  unfold isIntNumericStringM
  split
  · rename_i heq
    injection heq with h1 _
    exact absurd h1 h
  · rfl

theorem numberOf_cons (c : Char) (rest : JSStr) (h : ¬c = '-') :
    numberOfM (c :: rest) = (parseIntM (c :: rest) : Int) := by
  unfold numberOfM
  split
  · rename_i heq
    injection heq with h1 _
    exact absurd h1 h
  · rfl

theorem isIntNumeric_dash (rest : JSStr) :
    isIntNumericStringM ('-' :: rest) = isArrayIndexM rest := rfl

theorem numberOf_dash (rest : JSStr) :
    numberOfM ('-' :: rest) = -(parseIntM rest : Int) := rfl

theorem natToStr_head_digit (n : Nat) :
    ∃ c rest, natToStr n = c :: rest ∧ ('0' ≤ c ∧ c ≤ '9') := by
  cases hs : natToStr n with
  | nil => exact absurd hs (natToStr_ne_nil n)
  | cons c rest =>
      exact ⟨c, rest, rfl, natToStr_digits n c (by rw [hs]; simp)⟩

theorem isIntNumeric_intToStr (n : Int) :
    isIntNumericStringM (intToStr n) = true := by
  unfold intToStr
  by_cases hn : n < 0
  · rw [if_pos hn, isIntNumeric_dash]
    exact isArrayIndexM_natToStr _
  · rw [if_neg hn]
    obtain ⟨c, rest, hs, hd⟩ := natToStr_head_digit n.natAbs
    rw [hs, isIntNumeric_cons c rest (digit_ne_dash c hd), ← hs]
    exact isArrayIndexM_natToStr _

theorem numberOf_intToStr (n : Int) : numberOfM (intToStr n) = n := by
  unfold intToStr
  by_cases hn : n < 0
  · rw [if_pos hn, numberOf_dash, parseIntM_natToStr]
    omega
  · rw [if_neg hn]
    obtain ⟨c, rest, hs, hd⟩ := natToStr_head_digit n.natAbs
    rw [hs, numberOf_cons c rest (digit_ne_dash c hd), ← hs, parseIntM_natToStr]
    omega

theorem intToStr_chars (n : Int) :
    ∀ c ∈ intToStr n, c = '-' ∨ ('0' ≤ c ∧ c ≤ '9') := by
  intro c hc
  unfold intToStr at hc
  by_cases hn : n < 0
  · rw [if_pos hn] at hc
    rcases List.mem_cons.mp hc with rfl | hc2
    · exact Or.inl rfl
    · exact Or.inr (natToStr_digits _ c hc2)
  · rw [if_neg hn] at hc
    exact Or.inr (natToStr_digits _ c hc)

theorem isBooleanString_intToStr (n : Int) :
    isBooleanStringM (intToStr n) = false := by
  cases hb : isBooleanStringM (intToStr n)
  · rfl
  · exfalso
    simp only [isBooleanStringM, Bool.or_eq_true, decide_eq_true_eq] at hb
    rcases hb with hb | hb
    · have ht := intToStr_chars n 't' (by rw [hb]; decide)
      rcases ht with h | h <;> revert h <;> decide
    · have ht := intToStr_chars n 'f' (by rw [hb]; decide)
      rcases ht with h | h <;> revert h <;> decide

theorem intToStr_ne_nil (n : Int) : intToStr n ≠ [] := by
  unfold intToStr
  by_cases hn : n < 0
  · rw [if_pos hn]; simp
  · rw [if_neg hn]; exact natToStr_ne_nil _

theorem autoConvert_ne_undef (s : JSStr) (pn pb : Bool) :
    autoConvertM s pn pb ≠ JSVal.undef := by
  unfold autoConvertM
  split
  · simp
  · split
    · simp
    · split
      · simp
      · simp

theorem autoConvert_off (s : JSStr) : autoConvertM s false false = JSVal.str s := by
  unfold autoConvertM
  split
  · rfl
  · simp

theorem mapLeaf_conv_ne_undef (pn pb : Bool) (v : JSVal) :
    mapLeaf (fun s => autoConvertM s pn pb) v ≠ JSVal.undef := by
  cases v with
  | obj fields => simp [mapLeaf]
  | arr xs => simp [mapLeaf]
  | undef => exact autoConvert_ne_undef _ _ _
  | null => exact autoConvert_ne_undef _ _ _
  | str s => exact autoConvert_ne_undef _ _ _
  | num n => exact autoConvert_ne_undef _ _ _
  | bool b => exact autoConvert_ne_undef _ _ _

/-! ### Size, height and leaf-count membership bounds -/

theorem sizeV_pos (v : JSVal) : 1 ≤ sizeV v := by
  cases v <;> simp only [sizeV] <;> omega

theorem sizeV_mem_fields (fields : List (JSStr × JSVal)) :
    ∀ p ∈ fields, sizeV p.2 + 1 ≤ sizeFields fields := by
  induction fields with
  | nil => intro p hp; exact absurd hp (by simp)
  | cons q rest ih =>
      intro p hp
      rcases List.mem_cons.mp hp with rfl | hp2
      · simp only [sizeFields]; omega
      · have := ih p hp2
        simp only [sizeFields]; omega

theorem sizeV_mem_elems (xs : List JSVal) :
    ∀ v ∈ xs, sizeV v + 1 ≤ sizeElems xs := by
  induction xs with
  | nil => intro v hv; exact absurd hv (by simp)
  | cons x rest ih =>
      intro v hv
      rcases List.mem_cons.mp hv with rfl | hv2
      · simp only [sizeElems]; omega
      · have := ih v hv2
        simp only [sizeElems]; omega

theorem heightV_mem_fields (fields : List (JSStr × JSVal)) :
    ∀ p ∈ fields, heightV p.2 ≤ heightFields fields := by
  induction fields with
  | nil => intro p hp; exact absurd hp (by simp)
  | cons q rest ih =>
      intro p hp
      rcases List.mem_cons.mp hp with rfl | hp2
      · simp only [heightFields]; omega
      · have := ih p hp2
        simp only [heightFields]; omega

theorem heightV_mem_elems (xs : List JSVal) :
    ∀ v ∈ xs, heightV v ≤ heightElems xs := by
  induction xs with
  | nil => intro v hv; exact absurd hv (by simp)
  | cons x rest ih =>
      intro v hv
      rcases List.mem_cons.mp hv with rfl | hv2
      · simp only [heightElems]; omega
      · have := ih v hv2
        simp only [heightElems]; omega

/-! ### Well-formedness extraction -/

theorem wfV_obj (fields : List (JSStr × JSVal)) (h : wfV (.obj fields) = true) :
    fields ≠ [] ∧ keysDistinct (fields.map Prod.fst) = true ∧
      wfFields fields = true := by
  have h2 : (!(fields.isEmpty) && keysDistinct (fields.map Prod.fst) &&
      wfFields fields) = true := h
  simp only [Bool.and_eq_true, Bool.not_eq_true'] at h2
  exact ⟨by simpa using h2.1.1, h2.1.2, h2.2⟩

theorem wfV_arr (xs : List JSVal) (h : wfV (.arr xs) = true) :
    xs ≠ [] ∧ xs.length ≤ 21 ∧ wfElems xs = true := by
  have h2 : (!(xs.isEmpty) && decide (xs.length ≤ 21) && wfElems xs) = true := h
  simp only [Bool.and_eq_true, Bool.not_eq_true', decide_eq_true_eq] at h2
  exact ⟨by simpa using h2.1.1, h2.1.2, h2.2⟩

theorem wfFields_mem (fields : List (JSStr × JSVal)) (h : wfFields fields = true) :
    ∀ p ∈ fields, keyOk p.1 = true ∧ wfV p.2 = true := by
  induction fields with
  | nil => intro p hp; exact absurd hp (by simp)
  | cons q rest ih =>
      have h2 : (keyOk q.1 && wfV q.2 && wfFields rest) = true := h
      simp only [Bool.and_eq_true] at h2
      intro p hp
      rcases List.mem_cons.mp hp with rfl | hp2
      · exact ⟨h2.1.1, h2.1.2⟩
      · exact ih h2.2 p hp2

theorem wfElems_cons (x : JSVal) (rest : List JSVal)
    (h : wfElems (x :: rest) = true) :
    wfV x = true ∧ wfElems rest = true ∧ ∀ ys, x ≠ JSVal.arr ys := by
  cases x with
  | arr ys =>
      have h2 : (false && wfV (JSVal.arr ys) && wfElems rest) = true := h
      simp at h2
  | undef =>
      have h2 : (true && wfV JSVal.undef && wfElems rest) = true := h
      simp only [Bool.true_and, Bool.and_eq_true] at h2
      exact ⟨h2.1, h2.2, by simp⟩
  | null =>
      have h2 : (true && wfV JSVal.null && wfElems rest) = true := h
      simp only [Bool.true_and, Bool.and_eq_true] at h2
      exact ⟨h2.1, h2.2, by simp⟩
  | str s =>
      have h2 : (true && wfV (JSVal.str s) && wfElems rest) = true := h
      simp only [Bool.true_and, Bool.and_eq_true] at h2
      exact ⟨h2.1, h2.2, by simp⟩
  | num n =>
      have h2 : (true && wfV (JSVal.num n) && wfElems rest) = true := h
      simp only [Bool.true_and, Bool.and_eq_true] at h2
      exact ⟨h2.1, h2.2, by simp⟩
  | bool b =>
      have h2 : (true && wfV (JSVal.bool b) && wfElems rest) = true := h
      simp only [Bool.true_and, Bool.and_eq_true] at h2
      exact ⟨h2.1, h2.2, by simp⟩
  | obj g =>
      have h2 : (true && wfV (JSVal.obj g) && wfElems rest) = true := h
      simp only [Bool.true_and, Bool.and_eq_true] at h2
      exact ⟨h2.1, h2.2, by simp⟩

theorem wfElems_mem (xs : List JSVal) (h : wfElems xs = true) :
    ∀ v ∈ xs, (∀ ys, v ≠ JSVal.arr ys) ∧ wfV v = true := by
  induction xs with
  | nil => intro v hv; exact absurd hv (by simp)
  | cons x rest ih =>
      obtain ⟨hx, hrest, hnarr⟩ := wfElems_cons x rest h
      intro v hv
      rcases List.mem_cons.mp hv with rfl | hv2
      · exact ⟨hnarr, hx⟩
      · exact ih hrest v hv2

theorem keyOk_spec (k : JSStr) (h : keyOk k = true) :
    k ≠ [] ∧ isArrayIndexM k = false ∧ hasPrototypePollutionM k = false ∧
      ∀ c ∈ k, ¬c = '[' ∧ ¬c = ']' := by
  unfold keyOk at h
  simp only [Bool.and_eq_true, Bool.not_eq_true', List.all_eq_true,
    decide_eq_true_eq, ne_eq] at h
  obtain ⟨⟨⟨⟨h1, h2⟩, h3⟩, h5⟩, h4⟩ := h
  refine ⟨by simpa using h1, h2, h3, fun c hc => ?_⟩
  have := h4 c hc
  simp only [Bool.and_eq_true, Bool.not_eq_true', decide_eq_false_iff_not] at this
  exact this

theorem keyOk_not_inherited (k : JSStr) (h : keyOk k = true) :
    isObjectProtoMember k = false := by
  unfold keyOk at h
  simp only [Bool.and_eq_true, Bool.not_eq_true'] at h
  exact h.1.2

theorem segOk_of_keyOk (k : JSStr) (h : keyOk k = true) : segOk k = true := by
  obtain ⟨h1, _, h3, _⟩ := keyOk_spec k h
  unfold segOk
  simp [h1, h3]

theorem keysDistinct_append_head (ks : List JSStr) (k : JSStr) (rest : List JSStr)
    (h : keysDistinct (ks ++ k :: rest) = true) : ∀ k0 ∈ ks, ¬k = k0 := by
  induction ks with
  | nil => intro k0 hk0; exact absurd hk0 (by simp)
  | cons a ks2 ih =>
      have h2 : ((ks2 ++ k :: rest).all (fun k2 => !(k2 = a)) &&
          keysDistinct (ks2 ++ k :: rest)) = true := h
      simp only [Bool.and_eq_true, List.all_eq_true] at h2
      intro k0 hk0
      rcases List.mem_cons.mp hk0 with rfl | hk02
      · have := h2.1 k (by simp)
        simpa using this
      · exact ih h2.2 k0 hk02

/-! ### Path extension lemmas -/

theorem lastSeg_pair (a b : JSStr) (rest : List JSStr) :
    lastSeg (a :: b :: rest) = lastSeg (b :: rest) := rfl

theorem lastSeg_snoc (P : List JSStr) (k : JSStr) : lastSeg (P ++ [k]) = k := by
  induction P with
  | nil => rfl
  | cons a P2 ih =>
      cases P2 with
      | nil => rfl
      | cons b r =>
          rw [show (a :: b :: r) ++ [k] = a :: ((b :: r) ++ [k]) from rfl]
          rw [show (b :: r) ++ [k] = b :: (r ++ [k]) from rfl]
          rw [lastSeg_pair]
          rw [show b :: (r ++ [k]) = (b :: r) ++ [k] from rfl]
          exact ih

theorem noConsecIdx_snoc (P : List JSStr) (k : JSStr)
    (h : noConsecIdx P = true)
    (hj : (isArrayIndexM (lastSeg P) && isArrayIndexM k) = false) :
    noConsecIdx (P ++ [k]) = true := by
  induction P with
  | nil => rfl
  | cons a P2 ih =>
      cases P2 with
      | nil =>
          show (!(isArrayIndexM a && isArrayIndexM k) && noConsecIdx [k]) = true
          have : lastSeg [a] = a := rfl
          rw [this] at hj
          simp [hj, noConsecIdx]
      | cons b r =>
          have h2 : (!(isArrayIndexM a && isArrayIndexM b) &&
              noConsecIdx (b :: r)) = true := h
          simp only [Bool.and_eq_true] at h2
          rw [lastSeg_pair] at hj
          have htail := ih h2.2 hj
          show (!(isArrayIndexM a && isArrayIndexM b) &&
            noConsecIdx ((b :: r) ++ [k])) = true
          rw [htail, h2.1]
          rfl

theorem pathOk_snoc (lim : Nat) (P : List JSStr) (k : JSStr)
    (h : pathOk lim P = true) (hk : segOk k = true)
    (hlim : isArrayIndexM k = true → parseIntM k ≤ lim)
    (hj : (isArrayIndexM (lastSeg P) && isArrayIndexM k) = false) :
    pathOk lim (P ++ [k]) = true := by
  unfold pathOk at h ⊢
  simp only [Bool.and_eq_true, List.all_eq_true] at h
  obtain ⟨⟨hseg, hcons⟩, hlims⟩ := h
  simp only [Bool.and_eq_true, List.all_eq_true]
  refine ⟨⟨?_, noConsecIdx_snoc P k hcons hj⟩, ?_⟩
  · intro x hx
    rcases List.mem_append.mp hx with hx1 | hx1
    · exact hseg x hx1
    · rcases List.mem_singleton.mp hx1 with rfl
      exact hk
  · intro x hx
    rcases List.mem_append.mp hx with hx1 | hx1
    · exact hlims x hx1
    · rcases List.mem_singleton.mp hx1 with rfl
      cases hxi : isArrayIndexM x
      · rfl
      · simp [hlim hxi]

theorem brackFree_spec (P : List JSStr) (h : brackFree P = true) :
    ∀ x ∈ P, ∀ c ∈ x, ¬c = '[' ∧ ¬c = ']' := by
  unfold brackFree at h
  simp only [List.all_eq_true, Bool.and_eq_true, Bool.not_eq_true',
    decide_eq_false_iff_not] at h
  intro x hx c hc
  exact h x hx c hc

theorem brackFree_snoc (P : List JSStr) (k : JSStr) (h : brackFree P = true)
    (hk : ∀ c ∈ k, ¬c = '[' ∧ ¬c = ']') : brackFree (P ++ [k]) = true := by
  unfold brackFree at h ⊢
  simp only [List.all_eq_true, Bool.and_eq_true, Bool.not_eq_true',
    decide_eq_false_iff_not] at h ⊢
  intro x hx
  rcases List.mem_append.mp hx with hx1 | hx1
  · exact h x hx1
  · rcases List.mem_singleton.mp hx1 with rfl
    exact hk

theorem freshIdx0_append (P Q : List JSStr) (hp : freshIdx0 P = true)
    (hq : freshIdx0 Q = true) : freshIdx0 (P ++ Q) = true := by
  induction P with
  | nil => exact hq
  | cons a P2 ih =>
      have h2 : ((!isArrayIndexM a || decide (parseIntM a = 0)) &&
          freshIdx0 P2) = true := hp
      simp only [Bool.and_eq_true] at h2
      show ((!isArrayIndexM a || decide (parseIntM a = 0)) &&
        freshIdx0 (P2 ++ Q)) = true
      rw [ih h2.2, h2.1]
      rfl

theorem preB_append (Q : List JSStr) (hfr : freshIdx0 Q = true) :
    ∀ (P : List JSStr) (A : JSVal), preB A P = true → preB A (P ++ Q) = true := by
  intro P
  induction P with
  | nil => intro A hpre; exact absurd hpre (by simp [preB])
  | cons k P' ih =>
      intro A hpre
      cases A with
      | undef => exact absurd hpre (by simp [preB])
      | null => exact absurd hpre (by simp [preB])
      | str s => exact absurd hpre (by simp [preB])
      | num n => exact absurd hpre (by simp [preB])
      | bool b => exact absurd hpre (by simp [preB])
      | obj fields =>
          rw [preB_obj] at hpre
          simp only [Bool.and_eq_true, Bool.not_eq_true'] at hpre
          obtain ⟨hkn, hmatch⟩ := hpre
          show preB _ (k :: (P' ++ Q)) = true
          rw [preB_obj]
          simp only [Bool.and_eq_true, Bool.not_eq_true']
          refine ⟨hkn, ?_⟩
          cases hget : jsGet fields k with
          | undef =>
              rw [hget] at hmatch
              exact freshIdx0_append P' Q hmatch hfr
          | null =>
              rw [hget] at hmatch
              have h2 : preB JSVal.null P' = true := hmatch
              rw [preB_null] at h2
              exact absurd h2 (by simp)
          | str s =>
              rw [hget] at hmatch
              have h2 : preB (JSVal.str s) P' = true := hmatch
              rw [preB_str] at h2
              exact absurd h2 (by simp)
          | num n =>
              rw [hget] at hmatch
              have h2 : preB (JSVal.num n) P' = true := hmatch
              rw [preB_num] at h2
              exact absurd h2 (by simp)
          | bool b =>
              rw [hget] at hmatch
              have h2 : preB (JSVal.bool b) P' = true := hmatch
              rw [preB_bool] at h2
              exact absurd h2 (by simp)
          | arr axs =>
              rw [hget] at hmatch
              exact ih (.arr axs) hmatch
          | obj g =>
              rw [hget] at hmatch
              exact ih (.obj g) hmatch
      | arr xs =>
          rw [preB_arr] at hpre
          simp only [Bool.and_eq_true] at hpre
          obtain ⟨hki, hif⟩ := hpre
          show preB _ (k :: (P' ++ Q)) = true
          rw [preB_arr]
          simp only [Bool.and_eq_true]
          refine ⟨hki, ?_⟩
          by_cases hilt : parseIntM k < xs.length
          · rw [if_pos hilt] at hif ⊢
            exact ih (listGetU xs (parseIntM k)) hif
          · rw [if_neg hilt] at hif ⊢
            simp only [Bool.and_eq_true, decide_eq_true_eq] at hif ⊢
            exact ⟨hif.1, freshIdx0_append P' Q hif.2 hfr⟩

theorem graft_obj_shape (fields : List (JSStr × JSVal)) (k : JSStr)
    (P : List JSStr) (w : JSVal) :
    ∃ g, graft (.obj fields) (k :: P) w = .obj g := by
  rw [graft_obj]
  cases jsGet fields k <;> exact ⟨_, rfl⟩

theorem mapLeafElems_length (f : JSStr → JSVal) (xs : List JSVal) :
    (mapLeafElems f xs).length = xs.length := by
  induction xs with
  | nil => rfl
  | cons x rest ih =>
      show (mapLeaf f x :: mapLeafElems f rest).length = _
      simp [ih]

/-! ### Stringifier unfolding on the round-trip domain -/

theorem renderPath_cons_ne_nil (k : JSStr) (P : List JSStr) (hk : ¬k = []) :
    renderPath (k :: P) ≠ [] := by
  unfold renderPath
  simp [hk]

theorem nestedKey_renderPath (P : List JSStr) (hP : P ≠ []) (k : JSStr) :
    nestedKeyOf (renderPath P) k {} = renderPath (P ++ [k]) := by
  rw [renderPath_snoc P hP k]
  rfl

theorem stringifyObjectGo_cons (key k : JSStr) (w : JSVal)
    (rest : List (JSStr × JSVal)) (opts : StrOpts) (hw : wfV w = true) :
    stringifyObjectGo key ((k, w) :: rest) opts =
      stringifyValueM (nestedKeyOf key k opts) w opts ++
        stringifyObjectGo key rest opts := by
  cases w with
  | undef => exact absurd hw (by decide)
  | null => exact absurd hw (by decide)
  | str s => rfl
  | num n => rfl
  | bool b => rfl
  | arr xs => rfl
  | obj g => rfl

theorem stringifyTopGo_cons (k : JSStr) (w : JSVal) (rest : List (JSStr × JSVal))
    (opts : StrOpts) (hw : wfV w = true) :
    stringifyTopGo ((k, w) :: rest) opts =
      stringifyValueM k w opts ++ stringifyTopGo rest opts := by
  cases w with
  | undef => exact absurd hw (by decide)
  | null => exact absurd hw (by decide)
  | str s => rfl
  | num n => rfl
  | bool b => rfl
  | arr xs => rfl
  | obj g => rfl

theorem stringifyArrayGo_cons_indices (key : JSStr) (v : JSVal)
    (rest : List JSVal) (i : Nat) (hv : v ≠ JSVal.undef) :
    stringifyArrayGo key (v :: rest) {} i =
      stringifyValueM (key ++ '[' :: natToStr i ++ [']']) v {} ++
        stringifyArrayGo key rest {} (i + 1) := by
  cases v with
  | undef => exact absurd rfl hv
  | null => rfl
  | str s => rfl
  | num n => rfl
  | bool b => rfl
  | arr xs => rfl
  | obj g => rfl

theorem stringifyValue_arr_cons (key : JSStr) (x0 : JSVal) (xs : List JSVal) :
    stringifyValueM key (.arr (x0 :: xs)) {} =
      stringifyArrayGo key (x0 :: xs) {} 0 := rfl

/-! ### Decoding one emitted pair -/

theorem decodeKey_encoded (s : JSStr) (hs : s ≠ []) :
    decodeKeyM (rfc3986EncoderM s) = s := by
  unfold decodeKeyM
  rw [if_neg (encoded_ne_nil s hs), defaultDecoder_encoded]

theorem decodeValue_encoded (lv : JSStr) (opts : ParseOpts)
    (hsnh : opts.strictNullHandling = false) :
    decodeValueM (rfc3986EncoderM lv) opts =
      autoConvertM lv opts.parseNumbers opts.parseBooleans := by
  by_cases hlv : lv = []
  · subst hlv
    show decodeValueM [] opts = _
    unfold decodeValueM
    rw [if_pos rfl, hsnh]
    rw [if_neg (by simp : ¬(false = true))]
    rfl
  · unfold decodeValueM
    rw [if_neg (encoded_ne_nil lv hlv), defaultDecoder_encoded]

theorem commaAdjust_off (v : JSVal) (opts : ParseOpts) (h : opts.comma = false) :
    commaAdjust v opts = v := by
  unfold commaAdjust
  rw [h]
  simp

/-! ### Single-segment graft shapes -/

theorem graft_single_obj (W : List (JSStr × JSVal)) (k : JSStr) (w : JSVal)
    (hmem : ∀ p ∈ W, p.1 ≠ k) :
    graft (.obj W) [k] w = .obj (W ++ [(k, w)]) := by
  rw [graft_obj_absent W k [] w (jsGet_undef_of_not_mem W k hmem)]
  rw [show buildFresh [] w = w from rfl]
  rw [jsSet_append_of_not_mem W k w hmem]

theorem graft_single_arr (E : List JSVal) (w : JSVal) :
    graft (.arr E) [natToStr E.length] w = .arr (E ++ [w]) := by
  rw [graft_arr, parseIntM_natToStr]
  rw [if_neg (lt_irrefl _)]
  rfl

theorem buildFresh_single_obj (k : JSStr) (w : JSVal)
    (hki : isArrayIndexM k = false) : buildFresh [k] w = .obj [(k, w)] := by
  rw [buildFresh_cons, hki]
  rfl

theorem buildFresh_single_arr (k : JSStr) (w : JSVal)
    (hki : isArrayIndexM k = true) : buildFresh [k] w = .arr [w] := by
  rw [buildFresh_cons, hki]
  rfl

theorem freshIdx0_single (k : JSStr)
    (h : isArrayIndexM k = false ∨ parseIntM k = 0) : freshIdx0 [k] = true := by
  unfold freshIdx0
  rcases h with h | h <;> simp [h, freshIdx0]

theorem preB_single_obj (W : List (JSStr × JSVal)) (k : JSStr)
    (hki : isArrayIndexM k = false) (hmem : ∀ p ∈ W, p.1 ≠ k) :
    preB (.obj W) [k] = true := by
  rw [preB_obj, jsGet_undef_of_not_mem W k hmem, hki]
  rfl

theorem preB_single_arr (E : List JSVal) :
    preB (.arr E) [natToStr E.length] = true := by
  rw [preB_arr, isArrayIndexM_natToStr, parseIntM_natToStr]
  rw [if_neg (lt_irrefl _)]
  simp [freshIdx0]

/-! ### The parse step for one emitted `key=value` pair -/

theorem parse_leaf_pair (opts : ParseOpts)
    (hdots : opts.allowDots = false) (hcomma : opts.comma = false)
    (hsnh : opts.strictNullHandling = false)
    (hpa : opts.parseArrays = true) (hAE : opts.allowEmptyArrays = false)
    (afields : List (JSStr × JSVal)) (P : List JSStr) (lv : JSStr)
    (c : Nat) (rest : List JSStr)
    (hc : c + 1 ≤ opts.parameterLimit)
    (hPne : P ≠ []) (hbr : brackFree P = true)
    (hpath : pathOk opts.arrayLimit P = true)
    (hpre : preB (.obj afields) P = true)
    (hd : P.length ≤ opts.depth + 1) :
    parsePairsM opts
        ((rfc3986EncoderM (renderPath P) ++ '=' :: rfc3986EncoderM lv) :: rest)
        c (.obj afields) =
      parsePairsM opts rest (c + 1)
        (graft (.obj afields) P
          (autoConvertM lv opts.parseNumbers opts.parseBooleans)) := by
  obtain ⟨k0, Ps, rfl⟩ : ∃ k0 Ps, P = k0 :: Ps := by
    cases P with
    | nil => exact absurd rfl hPne
    | cons a b => exact ⟨a, b, rfl⟩
  obtain ⟨hk0ne, _, _, _⟩ := pathOk_head _ k0 Ps hpath
  have hrpne : renderPath (k0 :: Ps) ≠ [] := renderPath_cons_ne_nil k0 Ps hk0ne
  have hpkv : parseKeyValueM (JSVal.obj afields) (renderPath (k0 :: Ps))
      (autoConvertM lv opts.parseNumbers opts.parseBooleans) opts =
      .ok (graft (JSVal.obj afields) (k0 :: Ps)
        (autoConvertM lv opts.parseNumbers opts.parseBooleans)) := by
    unfold parseKeyValueM
    rw [commaAdjust_off _ _ hcomma]
    rw [parseKeyPath_render opts hdots k0 Ps hk0ne
      (brackFree_spec _ hbr k0 (by simp))
      (fun k hk => brackFree_spec _ hbr k (by simp [hk]))]
    exact setNested_graft opts hpa hAE (k0 :: Ps).length afields (k0 :: Ps) _ 0
      (le_refl _) hpath hpre (by omega)
  rw [show parsePairsM opts
      ((rfc3986EncoderM (renderPath (k0 :: Ps)) ++ '=' :: rfc3986EncoderM lv) :: rest)
      c (JSVal.obj afields) =
      (if c + 1 > opts.parameterLimit then .ok (JSVal.obj afields)
       else if (rfc3986EncoderM (renderPath (k0 :: Ps)) ++ '=' :: rfc3986EncoderM lv) = []
       then parsePairsM opts rest (c + 1) (JSVal.obj afields)
       else
         (fun kv : JSStr × JSStr =>
           if decodeKeyM kv.1 = [] then parsePairsM opts rest (c + 1) (JSVal.obj afields)
           else
             match parseKeyValueM (JSVal.obj afields) (decodeKeyM kv.1)
                 (decodeValueM kv.2 opts) opts with
             | .error e => .error e
             | .ok result => parsePairsM opts rest (c + 1) result)
           (match splitAtEq (rfc3986EncoderM (renderPath (k0 :: Ps)) ++ '=' :: rfc3986EncoderM lv) with
            | none => ((rfc3986EncoderM (renderPath (k0 :: Ps)) ++ '=' :: rfc3986EncoderM lv), ([] : JSStr))
            | some kv => kv)) from rfl]
  rw [if_neg (show ¬(c + 1 > opts.parameterLimit) by omega)]
  rw [if_neg (show ¬(rfc3986EncoderM (renderPath (k0 :: Ps)) ++ '=' :: rfc3986EncoderM lv = []) by simp)]
  rw [splitAtEq_append _ _ (fun hmem => ((encoded_chars _ '=' hmem).2.2.1) rfl)]
  show (if decodeKeyM (rfc3986EncoderM (renderPath (k0 :: Ps))) = [] then _ else _) = _
  rw [decodeKey_encoded _ hrpne]
  rw [if_neg hrpne]
  rw [decodeValue_encoded lv opts hsnh]
  rw [hpkv]

/-- The whole emission of `stringifyValue` at one rendered path parses
back, on the round-trip domain, as a single spec-level `graft` of the
leaf-mapped subtree. -/
theorem stringify_parse_graft (opts : ParseOpts)
    (hdots : opts.allowDots = false) (hcomma : opts.comma = false)
    (hsnh : opts.strictNullHandling = false)
    (hpa : opts.parseArrays = true) (hAE : opts.allowEmptyArrays = false)
    (hlim20 : 20 ≤ opts.arrayLimit) :
    ∀ n : Nat, ∀ v : JSVal, sizeV v ≤ n →
      ∀ (P : List JSStr) (afields : List (JSStr × JSVal)) (c : Nat)
        (rest : List JSStr),
        wfV v = true → P ≠ [] → brackFree P = true →
        pathOk opts.arrayLimit P = true →
        preB (.obj afields) P = true →
        P.length + heightV v ≤ opts.depth + 1 →
        c + leafCount v ≤ opts.parameterLimit →
        (∀ ys, v = JSVal.arr ys → isArrayIndexM (lastSeg P) = false) →
        parsePairsM opts (stringifyValueM (renderPath P) v {} ++ rest) c
            (.obj afields) =
          parsePairsM opts rest (c + leafCount v)
            (graft (.obj afields) P
              (mapLeaf (fun s => autoConvertM s opts.parseNumbers opts.parseBooleans) v)) := by
  intro n
  induction n with
  | zero =>
      intro v hsz
      exact absurd hsz (by have := sizeV_pos v; omega)
  | succ m ih =>
      intro v hsz P afields c rest hwf hPne hbr hpath hpre hdep hcnt hlast
      cases v with
      | undef => exact absurd hwf (by decide)
      | null => exact absurd hwf (by decide)
      | str s =>
          have hc1 : c + 1 ≤ opts.parameterLimit := hcnt
          have hd1 : P.length ≤ opts.depth + 1 := by
            have h0 : heightV (JSVal.str s) = 0 := rfl
            omega
          exact parse_leaf_pair opts hdots hcomma hsnh hpa hAE afields P
            (jsToStringM (JSVal.str s)) c rest hc1 hPne hbr hpath hpre hd1
      | num k =>
          have hc1 : c + 1 ≤ opts.parameterLimit := hcnt
          have hd1 : P.length ≤ opts.depth + 1 := by
            have h0 : heightV (JSVal.num k) = 0 := rfl
            omega
          exact parse_leaf_pair opts hdots hcomma hsnh hpa hAE afields P
            (jsToStringM (JSVal.num k)) c rest hc1 hPne hbr hpath hpre hd1
      | bool b =>
          have hc1 : c + 1 ≤ opts.parameterLimit := hcnt
          have hd1 : P.length ≤ opts.depth + 1 := by
            have h0 : heightV (JSVal.bool b) = 0 := rfl
            omega
          exact parse_leaf_pair opts hdots hcomma hsnh hpa hAE afields P
            (jsToStringM (JSVal.bool b)) c rest hc1 hPne hbr hpath hpre hd1
      | obj fields =>
          obtain ⟨k0, Ps, rfl⟩ : ∃ k0 Ps, P = k0 :: Ps := by
            cases P with
            | nil => exact absurd rfl hPne
            | cons a b => exact ⟨a, b, rfl⟩
          obtain ⟨hfne, hdist, hwff⟩ := wfV_obj fields hwf
          obtain ⟨⟨k1, w1⟩, todo, rfl⟩ :
              ∃ p todo, fields = p :: todo := by
            cases fields with
            | nil => exact absurd rfl hfne
            | cons p t => exact ⟨p, t, rfl⟩
          have hdep2 : (k0 :: Ps).length + (1 + heightFields ((k1, w1) :: todo)) ≤
              opts.depth + 1 := hdep
          have hcnt2 : c + leafCountFields ((k1, w1) :: todo) ≤
              opts.parameterLimit := hcnt
          have hszF : sizeFields ((k1, w1) :: todo) ≤ m := by
            have h2 : sizeV (JSVal.obj ((k1, w1) :: todo)) =
                1 + sizeFields ((k1, w1) :: todo) := rfl
            omega
          have hprops : ∀ p ∈ (k1, w1) :: todo,
              keyOk p.1 = true ∧ wfV p.2 = true ∧ sizeV p.2 ≤ m ∧
                heightV p.2 ≤ heightFields ((k1, w1) :: todo) := by
            intro p hp
            obtain ⟨hok, hwfp⟩ := wfFields_mem _ hwff p hp
            refine ⟨hok, hwfp, ?_, heightV_mem_fields _ p hp⟩
            have h1 : sizeV p.2 + 1 ≤ sizeFields ((k1, w1) :: todo) :=
              sizeV_mem_fields _ p hp
            omega
          have fold : ∀ todo2 : List (JSStr × JSVal),
              (∀ p ∈ todo2, keyOk p.1 = true ∧ wfV p.2 = true ∧ sizeV p.2 ≤ m ∧
                heightV p.2 ≤ heightFields ((k1, w1) :: todo)) →
              ∀ (W : List (JSStr × JSVal)) (c2 : Nat),
                c2 + leafCountFields todo2 ≤ opts.parameterLimit →
                keysDistinct (W.map Prod.fst ++ todo2.map Prod.fst) = true →
                parsePairsM opts
                    (stringifyObjectGo (renderPath (k0 :: Ps)) todo2 {} ++ rest) c2
                    (graft (.obj afields) (k0 :: Ps) (.obj W)) =
                  parsePairsM opts rest (c2 + leafCountFields todo2)
                    (graft (.obj afields) (k0 :: Ps)
                      (.obj (W ++ mapLeafFields
                        (fun s => autoConvertM s opts.parseNumbers opts.parseBooleans)
                        todo2))) := by
            intro todo2
            induction todo2 with
            | nil =>
                intro _ W c2 _ _
                show parsePairsM opts ([] ++ rest) c2
                    (graft (JSVal.obj afields) (k0 :: Ps) (JSVal.obj W)) =
                  parsePairsM opts rest (c2 + 0)
                    (graft (JSVal.obj afields) (k0 :: Ps) (JSVal.obj (W ++ [])))
                simp
            | cons p todo3 ihf =>
                obtain ⟨k, w⟩ := p
                intro hprops2 W c2 hc2 hdist2
                obtain ⟨hkok, hwfw, hszw, hhw⟩ := hprops2 (k, w) (by simp)
                have hszw2 : sizeV w ≤ m := hszw
                have hhw2 : heightV w ≤ heightFields ((k1, w1) :: todo) := hhw
                obtain ⟨hkne, hkidx, hkpol, hkbr⟩ := keyOk_spec k hkok
                have hknotW : ∀ p2 ∈ W, p2.1 ≠ k := by
                  intro p2 hp2 hpk
                  have hh := keysDistinct_append_head (W.map Prod.fst) k
                    (todo3.map Prod.fst) (by simpa using hdist2) p2.1
                    (List.mem_map_of_mem _ hp2)
                  exact hh hpk.symm
                obtain ⟨G, hG⟩ := graft_obj_shape afields k0 Ps (JSVal.obj W)
                rw [stringifyObjectGo_cons (renderPath (k0 :: Ps)) k w todo3 {} hwfw]
                rw [nestedKey_renderPath (k0 :: Ps) (by simp) k]
                rw [List.append_assoc]
                rw [hG]
                rw [ih w hszw ((k0 :: Ps) ++ [k]) G c2
                  (stringifyObjectGo (renderPath (k0 :: Ps)) todo3 {} ++ rest)
                  hwfw (by simp) (brackFree_snoc _ k hbr hkbr)
                  (pathOk_snoc _ _ k hpath (segOk_of_keyOk k hkok)
                    (fun h => absurd h (by rw [hkidx]; simp))
                    (by rw [hkidx, Bool.and_false]))
                  (by rw [← hG]
                      rw [preB_graft (JSVal.obj W) (by simp) (k0 :: Ps)
                        (JSVal.obj afields) hpre [k]]
                      exact preB_single_obj W k hkidx hknotW)
                  (by simp only [List.length_append, List.length_cons,
                        List.length_nil]
                      simp only [List.length_cons] at hdep2
                      omega)
                  (by have e : leafCountFields ((k, w) :: todo3) =
                        leafCount w + leafCountFields todo3 := rfl
                      omega)
                  (fun ys hys => by rw [lastSeg_snoc]; exact hkidx)]
                rw [← hG]
                rw [graft_graft (JSVal.obj W) (by simp) (k0 :: Ps)
                  (JSVal.obj afields) hpre [k]
                  (mapLeaf (fun s => autoConvertM s opts.parseNumbers opts.parseBooleans) w)]
                rw [graft_single_obj W k _ hknotW]
                rw [ihf (fun p hp => hprops2 p (by simp [hp]))
                  (W ++ [(k, mapLeaf (fun s => autoConvertM s opts.parseNumbers opts.parseBooleans) w)])
                  (c2 + leafCount w)
                  (by have e : leafCountFields ((k, w) :: todo3) =
                        leafCount w + leafCountFields todo3 := rfl
                      omega)
                  (by simpa [List.map_append, List.map_cons, List.append_assoc]
                    using hdist2)]
                have hcc : c2 + leafCount w + leafCountFields todo3 =
                    c2 + leafCountFields ((k, w) :: todo3) := by
                  have e : leafCountFields ((k, w) :: todo3) =
                      leafCount w + leafCountFields todo3 := rfl
                  omega
                rw [hcc, List.append_assoc]
                rfl
          rw [show stringifyValueM (renderPath (k0 :: Ps))
              (JSVal.obj ((k1, w1) :: todo)) {} =
              stringifyObjectGo (renderPath (k0 :: Ps)) ((k1, w1) :: todo) {}
              from rfl]
          obtain ⟨hk1ok, hw1, hszw1, hhw1⟩ := hprops (k1, w1) (by simp)
          have hszw12 : sizeV w1 ≤ m := hszw1
          have hhw12 : heightV w1 ≤ heightFields ((k1, w1) :: todo) := hhw1
          obtain ⟨hk1ne, hk1idx, hk1pol, hk1br⟩ := keyOk_spec k1 hk1ok
          rw [stringifyObjectGo_cons (renderPath (k0 :: Ps)) k1 w1 todo {} hw1]
          rw [nestedKey_renderPath (k0 :: Ps) (by simp) k1]
          rw [List.append_assoc]
          rw [ih w1 hszw1 ((k0 :: Ps) ++ [k1]) afields c
            (stringifyObjectGo (renderPath (k0 :: Ps)) todo {} ++ rest)
            hw1 (by simp) (brackFree_snoc _ k1 hbr hk1br)
            (pathOk_snoc _ _ k1 hpath (segOk_of_keyOk k1 hk1ok)
              (fun h => absurd h (by rw [hk1idx]; simp))
              (by rw [hk1idx, Bool.and_false]))
            (preB_append [k1] (freshIdx0_single k1 (Or.inl hk1idx)) _ _ hpre)
            (by simp only [List.length_append, List.length_cons, List.length_nil]
                simp only [List.length_cons] at hdep2
                omega)
            (by have e : leafCountFields ((k1, w1) :: todo) =
                  leafCount w1 + leafCountFields todo := rfl
                omega)
            (fun ys hys => by rw [lastSeg_snoc]; exact hk1idx)]
          rw [graft_ext (k0 :: Ps) (JSVal.obj afields) hpre [k1]
            (mapLeaf (fun s => autoConvertM s opts.parseNumbers opts.parseBooleans) w1)]
          rw [buildFresh_single_obj k1 _ hk1idx]
          rw [fold todo (fun p hp => hprops p (by simp [hp]))
            [(k1, mapLeaf (fun s => autoConvertM s opts.parseNumbers opts.parseBooleans) w1)]
            (c + leafCount w1)
            (by have e : leafCountFields ((k1, w1) :: todo) =
                  leafCount w1 + leafCountFields todo := rfl
                omega)
            (by simpa using hdist)]
          have hcc : c + leafCount w1 + leafCountFields todo =
              c + leafCountFields ((k1, w1) :: todo) := by
            have e : leafCountFields ((k1, w1) :: todo) =
                leafCount w1 + leafCountFields todo := rfl
            omega
          rw [hcc]
          rfl
      | arr xs =>
          obtain ⟨k0, Ps, rfl⟩ : ∃ k0 Ps, P = k0 :: Ps := by
            cases P with
            | nil => exact absurd rfl hPne
            | cons a b => exact ⟨a, b, rfl⟩
          obtain ⟨hxne, hxlen, hwfe⟩ := wfV_arr xs hwf
          have hlastP : isArrayIndexM (lastSeg (k0 :: Ps)) = false := hlast xs rfl
          obtain ⟨x0, xs2, rfl⟩ : ∃ x0 xs2, xs = x0 :: xs2 := by
            cases xs with
            | nil => exact absurd rfl hxne
            | cons a b => exact ⟨a, b, rfl⟩
          have hdep2 : (k0 :: Ps).length + (1 + heightElems (x0 :: xs2)) ≤
              opts.depth + 1 := hdep
          have hcnt2 : c + leafCountElems (x0 :: xs2) ≤ opts.parameterLimit := hcnt
          have hszE : sizeElems (x0 :: xs2) ≤ m := by
            have h2 : sizeV (JSVal.arr (x0 :: xs2)) =
                1 + sizeElems (x0 :: xs2) := rfl
            omega
          have hprops : ∀ e ∈ x0 :: xs2,
              (∀ ys, e ≠ JSVal.arr ys) ∧ wfV e = true ∧ sizeV e ≤ m ∧
                heightV e ≤ heightElems (x0 :: xs2) := by
            intro e he
            obtain ⟨hnarr, hwfp⟩ := wfElems_mem _ hwfe e he
            refine ⟨hnarr, hwfp, ?_, heightV_mem_elems _ e he⟩
            have h1 : sizeV e + 1 ≤ sizeElems (x0 :: xs2) :=
              sizeV_mem_elems _ e he
            omega
          have hdigbr : ∀ i : Nat, ∀ c2 ∈ natToStr i, ¬c2 = '[' ∧ ¬c2 = ']' := by
            intro i c2 hc2
            have hd := natToStr_digits i c2 hc2
            constructor <;> (intro h; subst h; revert hd; decide)
          have hsegN : ∀ i : Nat, segOk (natToStr i) = true := by
            intro i
            unfold segOk
            rw [pollution_of_index _ (isArrayIndexM_natToStr i)]
            simp [natToStr_ne_nil i]
          have foldA : ∀ todo2 : List JSVal,
              (∀ e ∈ todo2, (∀ ys, e ≠ JSVal.arr ys) ∧ wfV e = true ∧
                sizeV e ≤ m ∧ heightV e ≤ heightElems (x0 :: xs2)) →
              ∀ (E : List JSVal) (c2 : Nat),
                E.length + todo2.length = (x0 :: xs2).length →
                c2 + leafCountElems todo2 ≤ opts.parameterLimit →
                parsePairsM opts
                    (stringifyArrayGo (renderPath (k0 :: Ps)) todo2 {} E.length ++
                      rest) c2
                    (graft (.obj afields) (k0 :: Ps) (.arr E)) =
                  parsePairsM opts rest (c2 + leafCountElems todo2)
                    (graft (.obj afields) (k0 :: Ps)
                      (.arr (E ++ mapLeafElems
                        (fun s => autoConvertM s opts.parseNumbers opts.parseBooleans)
                        todo2))) := by
            intro todo2
            induction todo2 with
            | nil =>
                intro _ E c2 _ _
                show parsePairsM opts ([] ++ rest) c2
                    (graft (JSVal.obj afields) (k0 :: Ps) (JSVal.arr E)) =
                  parsePairsM opts rest (c2 + 0)
                    (graft (JSVal.obj afields) (k0 :: Ps) (JSVal.arr (E ++ [])))
                simp
            | cons e todo3 ihf =>
                intro hprops2 E c2 hinv hc2
                obtain ⟨hnarr, hwfw, hszw, hhw⟩ := hprops2 e (by simp)
                have hneU : e ≠ JSVal.undef := by
                  intro h
                  subst h
                  exact absurd hwfw (by decide)
                obtain ⟨G, hG⟩ := graft_obj_shape afields k0 Ps (JSVal.arr E)
                rw [stringifyArrayGo_cons_indices (renderPath (k0 :: Ps)) e todo3
                  E.length hneU]
                rw [← renderPath_snoc (k0 :: Ps) (by simp) (natToStr E.length)]
                rw [List.append_assoc]
                rw [hG]
                rw [ih e hszw ((k0 :: Ps) ++ [natToStr E.length]) G c2
                  (stringifyArrayGo (renderPath (k0 :: Ps)) todo3 {}
                    (E.length + 1) ++ rest)
                  hwfw (by simp)
                  (brackFree_snoc _ _ hbr (hdigbr E.length))
                  (pathOk_snoc _ _ _ hpath (hsegN E.length)
                    (fun _ => by
                      rw [parseIntM_natToStr]
                      simp only [List.length_cons] at hinv hxlen
                      omega)
                    (by rw [hlastP, Bool.false_and]))
                  (by rw [← hG]
                      rw [preB_graft (JSVal.arr E) (by simp) (k0 :: Ps)
                        (JSVal.obj afields) hpre [natToStr E.length]]
                      exact preB_single_arr E)
                  (by simp only [List.length_append, List.length_cons,
                        List.length_nil]
                      simp only [List.length_cons] at hdep2
                      omega)
                  (by have e2 : leafCountElems (e :: todo3) =
                        leafCount e + leafCountElems todo3 := rfl
                      omega)
                  (fun ys hys => absurd hys (hnarr ys))]
                rw [← hG]
                rw [graft_graft (JSVal.arr E) (by simp) (k0 :: Ps)
                  (JSVal.obj afields) hpre [natToStr E.length]
                  (mapLeaf (fun s => autoConvertM s opts.parseNumbers opts.parseBooleans) e)]
                rw [graft_single_arr E _]
                rw [show stringifyArrayGo (renderPath (k0 :: Ps)) todo3 {}
                    (E.length + 1) =
                    stringifyArrayGo (renderPath (k0 :: Ps)) todo3 {}
                    ((E ++ [mapLeaf (fun s => autoConvertM s opts.parseNumbers opts.parseBooleans) e]).length)
                    from by simp]
                rw [ihf (fun e2 he2 => hprops2 e2 (by simp [he2]))
                  (E ++ [mapLeaf (fun s => autoConvertM s opts.parseNumbers opts.parseBooleans) e])
                  (c2 + leafCount e)
                  (by simp only [List.length_append, List.length_cons,
                        List.length_nil] at hinv ⊢
                      omega)
                  (by have e2 : leafCountElems (e :: todo3) =
                        leafCount e + leafCountElems todo3 := rfl
                      omega)]
                have hcc : c2 + leafCount e + leafCountElems todo3 =
                    c2 + leafCountElems (e :: todo3) := by
                  have e2 : leafCountElems (e :: todo3) =
                      leafCount e + leafCountElems todo3 := rfl
                  omega
                rw [hcc, List.append_assoc]
                rfl
          obtain ⟨hx0narr, hx0wf, hx0sz, hx0h⟩ := hprops x0 (by simp)
          have hx0neU : x0 ≠ JSVal.undef := by
            intro h
            subst h
            exact absurd hx0wf (by decide)
          rw [show stringifyValueM (renderPath (k0 :: Ps))
              (JSVal.arr (x0 :: xs2)) {} =
              stringifyArrayGo (renderPath (k0 :: Ps)) (x0 :: xs2) {} 0
              from rfl]
          rw [stringifyArrayGo_cons_indices (renderPath (k0 :: Ps)) x0 xs2 0 hx0neU]
          rw [← renderPath_snoc (k0 :: Ps) (by simp) (natToStr 0)]
          rw [List.append_assoc]
          rw [ih x0 hx0sz ((k0 :: Ps) ++ [natToStr 0]) afields c
            (stringifyArrayGo (renderPath (k0 :: Ps)) xs2 {} (0 + 1) ++ rest)
            hx0wf (by simp)
            (brackFree_snoc _ _ hbr (hdigbr 0))
            (pathOk_snoc _ _ _ hpath (hsegN 0)
              (fun _ => by rw [parseIntM_natToStr]; omega)
              (by rw [hlastP, Bool.false_and]))
            (preB_append [natToStr 0]
              (freshIdx0_single _ (Or.inr (parseIntM_natToStr 0))) _ _ hpre)
            (by simp only [List.length_append, List.length_cons, List.length_nil]
                simp only [List.length_cons] at hdep2
                omega)
            (by have e2 : leafCountElems (x0 :: xs2) =
                  leafCount x0 + leafCountElems xs2 := rfl
                omega)
            (fun ys hys => absurd hys (hx0narr ys))]
          rw [graft_ext (k0 :: Ps) (JSVal.obj afields) hpre [natToStr 0]
            (mapLeaf (fun s => autoConvertM s opts.parseNumbers opts.parseBooleans) x0)]
          rw [buildFresh_single_arr _ _ (isArrayIndexM_natToStr 0)]
          rw [show stringifyArrayGo (renderPath (k0 :: Ps)) xs2 {} (0 + 1) =
              stringifyArrayGo (renderPath (k0 :: Ps)) xs2 {}
              ([mapLeaf (fun s => autoConvertM s opts.parseNumbers opts.parseBooleans) x0].length)
              from rfl]
          rw [foldA xs2 (fun e2 he2 => hprops e2 (by simp [he2]))
            [mapLeaf (fun s => autoConvertM s opts.parseNumbers opts.parseBooleans) x0]
            (c + leafCount x0)
            (by simp only [List.length_cons, List.length_nil]; omega)
            (by have e2 : leafCountElems (x0 :: xs2) =
                  leafCount x0 + leafCountElems xs2 := rfl
                omega)]
          have hcc : c + leafCount x0 + leafCountElems xs2 =
              c + leafCountElems (x0 :: xs2) := by
            have e2 : leafCountElems (x0 :: xs2) =
                leafCount x0 + leafCountElems xs2 := rfl
            omega
          rw [hcc]
          rfl

/-! ### Strict leaves coerce back to themselves -/

theorem strict_mapLeaf : ∀ n : Nat, ∀ v : JSVal, sizeV v ≤ n → wfV v = true →
    strictV v = true → mapLeaf (fun s => autoConvertM s true true) v = v := by
  intro n
  induction n with
  | zero =>
      intro v hsz
      exact absurd hsz (by have := sizeV_pos v; omega)
  | succ m ih =>
      intro v hsz hwf hstrict
      cases v with
      | undef => exact absurd hwf (by decide)
      | null => exact absurd hwf (by decide)
      | bool b => cases b <;> rfl
      | num k =>
          show autoConvertM (intToStr k) true true = JSVal.num k
          unfold autoConvertM
          rw [if_neg (intToStr_ne_nil k)]
          rw [isBooleanString_intToStr, isIntNumeric_intToStr, numberOf_intToStr]
          simp
      | str s =>
          have h2 : (!isBooleanStringM s && !isIntNumericStringM s) = true := hstrict
          simp only [Bool.and_eq_true, Bool.not_eq_true'] at h2
          show autoConvertM s true true = JSVal.str s
          unfold autoConvertM
          by_cases hs : s = []
          · rw [if_pos hs]
          · rw [if_neg hs, h2.1, h2.2]
            simp
      | obj fields =>
          have hwff := (wfV_obj fields hwf).2.2
          have hstrf : strictFieldsV fields = true := hstrict
          have hszF : sizeFields fields ≤ m := by
            have e : sizeV (JSVal.obj fields) = 1 + sizeFields fields := rfl
            omega
          show JSVal.obj (mapLeafFields (fun s => autoConvertM s true true) fields) =
            JSVal.obj fields
          congr 1
          clear hwf hstrict hsz
          revert hwff hstrf hszF
          induction fields with
          | nil => intro _ _ _; rfl
          | cons q fr ihf =>
              obtain ⟨k, w⟩ := q
              intro hwff hstrf hszF
              have hw2 : (keyOk k && wfV w && wfFields fr) = true := hwff
              simp only [Bool.and_eq_true] at hw2
              have hs2 : (strictV w && strictFieldsV fr) = true := hstrf
              simp only [Bool.and_eq_true] at hs2
              have hsw : sizeV w ≤ m := by
                have e : sizeFields ((k, w) :: fr) = sizeV w + 1 + sizeFields fr := rfl
                omega
              have hsF : sizeFields fr ≤ m := by
                have e : sizeFields ((k, w) :: fr) = sizeV w + 1 + sizeFields fr := rfl
                omega
              show (k, mapLeaf (fun s => autoConvertM s true true) w) ::
                mapLeafFields (fun s => autoConvertM s true true) fr = (k, w) :: fr
              rw [ih w hsw hw2.1.2 hs2.1]
              rw [ihf hw2.2 hs2.2 hsF]
      | arr xs =>
          have hwfe := (wfV_arr xs hwf).2.2
          have hstre : strictElemsV xs = true := hstrict
          have hszE : sizeElems xs ≤ m := by
            have e : sizeV (JSVal.arr xs) = 1 + sizeElems xs := rfl
            omega
          show JSVal.arr (mapLeafElems (fun s => autoConvertM s true true) xs) =
            JSVal.arr xs
          congr 1
          clear hwf hstrict hsz
          revert hwfe hstre hszE
          induction xs with
          | nil => intro _ _ _; rfl
          | cons e er ihe =>
              intro hwfe hstre hszE
              obtain ⟨hwe, hwer, _⟩ := wfElems_cons e er hwfe
              have hs2 : (strictV e && strictElemsV er) = true := hstre
              simp only [Bool.and_eq_true] at hs2
              have hse : sizeV e ≤ m := by
                have e2 : sizeElems (e :: er) = sizeV e + 1 + sizeElems er := rfl
                omega
              have hsEr : sizeElems er ≤ m := by
                have e2 : sizeElems (e :: er) = sizeV e + 1 + sizeElems er := rfl
                omega
              show mapLeaf (fun s => autoConvertM s true true) e ::
                mapLeafElems (fun s => autoConvertM s true true) er = e :: er
              rw [ih e hse hwe hs2.1, ihe hwer hs2.2 hsEr]

/-! ### The emitted pair texts are inert for the outer query syntax -/

theorem pair_chars (a b : JSStr) :
    ∀ ch ∈ rfc3986EncoderM a ++ '=' :: rfc3986EncoderM b,
      ¬ch = '&' ∧ ch.isWhitespace = false := by
  intro ch hch
  rcases List.mem_append.mp hch with h | h
  · exact ⟨(encoded_chars a ch h).2.1, (encoded_chars a ch h).2.2.2⟩
  · rcases List.mem_cons.mp h with rfl | h2
    · exact ⟨by decide, by decide⟩
    · exact ⟨(encoded_chars b ch h2).2.1, (encoded_chars b ch h2).2.2.2⟩

theorem stringify_pairs_wf : ∀ n : Nat, ∀ v : JSVal, sizeV v ≤ n →
    ∀ key : JSStr, wfV v = true →
      stringifyValueM key v {} ≠ [] ∧
        ∀ p ∈ stringifyValueM key v {}, p ≠ [] ∧
          ∀ ch ∈ p, ¬ch = '&' ∧ ch.isWhitespace = false := by
  intro n
  induction n with
  | zero =>
      intro v hsz
      exact absurd hsz (by have := sizeV_pos v; omega)
  | succ m ih =>
      intro v hsz key hwf
      cases v with
      | undef => exact absurd hwf (by decide)
      | null => exact absurd hwf (by decide)
      | str s =>
          constructor
          · show ¬([rfc3986EncoderM key ++ '=' ::
              rfc3986EncoderM (jsToStringM (JSVal.str s))] = [])
            simp
          · intro p hp
            have hp2 : p ∈ [rfc3986EncoderM key ++ '=' ::
              rfc3986EncoderM (jsToStringM (JSVal.str s))] := hp
            rcases List.mem_singleton.mp hp2 with rfl
            exact ⟨by simp, pair_chars key _⟩
      | num k =>
          constructor
          · show ¬([rfc3986EncoderM key ++ '=' ::
              rfc3986EncoderM (jsToStringM (JSVal.num k))] = [])
            simp
          · intro p hp
            have hp2 : p ∈ [rfc3986EncoderM key ++ '=' ::
              rfc3986EncoderM (jsToStringM (JSVal.num k))] := hp
            rcases List.mem_singleton.mp hp2 with rfl
            exact ⟨by simp, pair_chars key _⟩
      | bool b =>
          constructor
          · show ¬([rfc3986EncoderM key ++ '=' ::
              rfc3986EncoderM (jsToStringM (JSVal.bool b))] = [])
            simp
          · intro p hp
            have hp2 : p ∈ [rfc3986EncoderM key ++ '=' ::
              rfc3986EncoderM (jsToStringM (JSVal.bool b))] := hp
            rcases List.mem_singleton.mp hp2 with rfl
            exact ⟨by simp, pair_chars key _⟩
      | obj fields =>
          obtain ⟨hfne, _, hwff⟩ := wfV_obj fields hwf
          have hszm : ∀ q ∈ fields, sizeV q.2 ≤ m := by
            intro q hq
            have h1 : sizeV q.2 + 1 ≤ sizeFields fields := sizeV_mem_fields fields q hq
            have e : sizeV (JSVal.obj fields) = 1 + sizeFields fields := rfl
            omega
          have hfold : ∀ fs : List (JSStr × JSVal), wfFields fs = true →
              (∀ q ∈ fs, sizeV q.2 ≤ m) →
              ∀ p ∈ stringifyObjectGo key fs {}, p ≠ [] ∧
                ∀ ch ∈ p, ¬ch = '&' ∧ ch.isWhitespace = false := by
            intro fs
            induction fs with
            | nil =>
                intro _ _ p hp
                have e0 : stringifyObjectGo key [] {} = [] := rfl
                rw [e0] at hp
                exact absurd hp (by simp)
            | cons q fr ihf =>
                obtain ⟨k2, w2⟩ := q
                intro hwff2 hq p hp
                have h2 : (keyOk k2 && wfV w2 && wfFields fr) = true := hwff2
                simp only [Bool.and_eq_true] at h2
                rw [stringifyObjectGo_cons key k2 w2 fr {} h2.1.2] at hp
                rcases List.mem_append.mp hp with h | h
                · exact (ih w2 (hq (k2, w2) (by simp)) (nestedKeyOf key k2 {})
                    h2.1.2).2 p h
                · exact ihf h2.2 (fun q2 hq2 => hq q2 (by simp [hq2])) p h
          obtain ⟨⟨k1, w1⟩, todo, rfl⟩ : ∃ q todo, fields = q :: todo := by
            cases fields with
            | nil => exact absurd rfl hfne
            | cons a b => exact ⟨a, b, rfl⟩
          have h2 : (keyOk k1 && wfV w1 && wfFields todo) = true := hwff
          simp only [Bool.and_eq_true] at h2
          constructor
          · show ¬(stringifyObjectGo key ((k1, w1) :: todo) {} = [])
            rw [stringifyObjectGo_cons key k1 w1 todo {} h2.1.2]
            intro hnil
            exact (ih w1 (hszm (k1, w1) (by simp)) (nestedKeyOf key k1 {})
              h2.1.2).1 (List.append_eq_nil.mp hnil).1
          · intro p hp
            exact hfold ((k1, w1) :: todo) hwff hszm p hp
      | arr xs =>
          obtain ⟨hxne, _, hwfe⟩ := wfV_arr xs hwf
          have hszm : ∀ e ∈ xs, sizeV e ≤ m := by
            intro e he
            have h1 : sizeV e + 1 ≤ sizeElems xs := sizeV_mem_elems xs e he
            have e2 : sizeV (JSVal.arr xs) = 1 + sizeElems xs := rfl
            omega
          have hfoldA : ∀ es : List JSVal, wfElems es = true →
              (∀ e ∈ es, sizeV e ≤ m) → ∀ i : Nat,
              ∀ p ∈ stringifyArrayGo key es {} i, p ≠ [] ∧
                ∀ ch ∈ p, ¬ch = '&' ∧ ch.isWhitespace = false := by
            intro es
            induction es with
            | nil =>
                intro _ _ i p hp
                have e0 : stringifyArrayGo key [] {} i = [] := rfl
                rw [e0] at hp
                exact absurd hp (by simp)
            | cons e2 er ihf =>
                intro hwfe2 hq i p hp
                obtain ⟨hwe, hwer, _⟩ := wfElems_cons e2 er hwfe2
                have hneU : e2 ≠ JSVal.undef := by
                  intro h; subst h; exact absurd hwe (by decide)
                rw [stringifyArrayGo_cons_indices key e2 er i hneU] at hp
                rcases List.mem_append.mp hp with h | h
                · exact (ih e2 (hq e2 (by simp)) _ hwe).2 p h
                · exact ihf hwer (fun e3 he3 => hq e3 (by simp [he3])) (i + 1) p h
          obtain ⟨x0, xs2, rfl⟩ : ∃ x0 xs2, xs = x0 :: xs2 := by
            cases xs with
            | nil => exact absurd rfl hxne
            | cons a b => exact ⟨a, b, rfl⟩
          obtain ⟨hwx0, _, _⟩ := wfElems_cons x0 xs2 hwfe
          have hneU : x0 ≠ JSVal.undef := by
            intro h; subst h; exact absurd hwx0 (by decide)
          constructor
          · show ¬(stringifyArrayGo key (x0 :: xs2) {} 0 = [])
            rw [stringifyArrayGo_cons_indices key x0 xs2 0 hneU]
            intro hnil
            exact (ih x0 (hszm x0 (by simp)) _ hwx0).1
              (List.append_eq_nil.mp hnil).1
          · intro p hp
            exact hfoldA (x0 :: xs2) hwfe hszm 0 p hp

theorem stringifyTop_pairs_wf : ∀ fields : List (JSStr × JSVal),
    wfFields fields = true →
    ∀ p ∈ stringifyTopGo fields {}, p ≠ [] ∧
      ∀ ch ∈ p, ¬ch = '&' ∧ ch.isWhitespace = false := by
  intro fields
  induction fields with
  | nil =>
      intro _ p hp
      have e0 : stringifyTopGo [] {} = [] := rfl
      rw [e0] at hp
      exact absurd hp (by simp)
  | cons q fr ih =>
      obtain ⟨k, w⟩ := q
      intro hwff p hp
      have h2 : (keyOk k && wfV w && wfFields fr) = true := hwff
      simp only [Bool.and_eq_true] at h2
      rw [stringifyTopGo_cons k w fr {} h2.1.2] at hp
      rcases List.mem_append.mp hp with h | h
      · exact (stringify_pairs_wf (sizeV w) w (le_refl _) k h2.1.2).2 p h
      · exact ih h2.2 p h

theorem stringifyTop_cons_ne_nil (k : JSStr) (w : JSVal)
    (rest : List (JSStr × JSVal)) (hw : wfV w = true) :
    stringifyTopGo ((k, w) :: rest) {} ≠ [] := by
  rw [stringifyTopGo_cons k w rest {} hw]
  intro h
  exact (stringify_pairs_wf (sizeV w) w (le_refl _) k hw).1
    (List.append_eq_nil.mp h).1

/-! ### Joining and re-splitting the pair list -/

theorem joinSep_chars (pairs : List JSStr) :
    ∀ ch ∈ joinSep (js "&") pairs, ch = '&' ∨ ∃ p ∈ pairs, ch ∈ p := by
  induction pairs with
  | nil =>
      intro ch hch
      exact absurd hch (by simp [joinSep])
  | cons p rest ih =>
      cases rest with
      | nil =>
          intro ch hch
          exact Or.inr ⟨p, by simp, hch⟩
      | cons q r =>
          intro ch hch
          have e0 : joinSep (js "&") (p :: q :: r) =
              p ++ js "&" ++ joinSep (js "&") (q :: r) := rfl
          rw [e0] at hch
          rcases List.mem_append.mp hch with h | h
          · rcases List.mem_append.mp h with h2 | h2
            · exact Or.inr ⟨p, by simp, h2⟩
            · have h3 : ch ∈ ['&'] := h2
              left
              simpa using h3
          · rcases ih ch h with h2 | ⟨p2, hp2, hchp⟩
            · exact Or.inl h2
            · exact Or.inr ⟨p2, by simp [hp2], hchp⟩

theorem joinSep_ne_nil (pairs : List JSStr) (hne : pairs ≠ [])
    (hp : ∀ p ∈ pairs, p ≠ []) : joinSep (js "&") pairs ≠ [] := by
  cases pairs with
  | nil => exact absurd rfl hne
  | cons p rest =>
      cases rest with
      | nil => exact hp p (by simp)
      | cons q r =>
          rw [show joinSep (js "&") (p :: q :: r) =
              p ++ js "&" ++ joinSep (js "&") (q :: r) from rfl]
          intro h
          rcases List.append_eq_nil.mp h with ⟨h1, _⟩
          rcases List.append_eq_nil.mp h1 with ⟨h2, _⟩
          exact hp p (by simp) h2

/-! ### The top-level key loop parses back field by field -/

theorem parse_top_fold (opts : ParseOpts)
    (hdots : opts.allowDots = false) (hcomma : opts.comma = false)
    (hsnh : opts.strictNullHandling = false)
    (hpa : opts.parseArrays = true) (hAE : opts.allowEmptyArrays = false)
    (hlim20 : 20 ≤ opts.arrayLimit) :
    ∀ todo : List (JSStr × JSVal),
      wfFields todo = true →
      (∀ p ∈ todo, heightV p.2 + 1 ≤ opts.depth + 1) →
      ∀ (W : List (JSStr × JSVal)) (c : Nat),
        c + leafCountFields todo ≤ opts.parameterLimit →
        keysDistinct (W.map Prod.fst ++ todo.map Prod.fst) = true →
        parsePairsM opts (stringifyTopGo todo {}) c (.obj W) =
          .ok (.obj (W ++ mapLeafFields
            (fun s => autoConvertM s opts.parseNumbers opts.parseBooleans) todo)) := by
  intro todo
  induction todo with
  | nil =>
      intro _ _ W c _ _
      show Except.ok (JSVal.obj W) = Except.ok (JSVal.obj (W ++ []))
      simp
  | cons q rest ih =>
      obtain ⟨k, w⟩ := q
      intro hwff hhs W c hc hdist
      have h2 : (keyOk k && wfV w && wfFields rest) = true := hwff
      simp only [Bool.and_eq_true] at h2
      obtain ⟨⟨hkok, hww⟩, hwfr⟩ := h2
      obtain ⟨hkne, hkidx, hkpol, hkbr⟩ := keyOk_spec k hkok
      have hknotW : ∀ p2 ∈ W, p2.1 ≠ k := by
        intro p2 hp2 hpk
        have hh := keysDistinct_append_head (W.map Prod.fst) k
          (rest.map Prod.fst) (by simpa using hdist) p2.1
          (List.mem_map_of_mem _ hp2)
        exact hh hpk.symm
      have hhw : heightV w + 1 ≤ opts.depth + 1 := hhs (k, w) (by simp)
      rw [stringifyTopGo_cons k w rest {} hww]
      rw [show stringifyValueM k w {} = stringifyValueM (renderPath [k]) w {}
        from by rw [renderPath_single]]
      rw [stringify_parse_graft opts hdots hcomma hsnh hpa hAE hlim20
        (sizeV w) w (le_refl _) [k] W c (stringifyTopGo rest {})
        hww (by simp)
        (brackFree_snoc [] k rfl hkbr)
        (pathOk_snoc _ [] k rfl (segOk_of_keyOk k hkok)
          (fun h => absurd h (by rw [hkidx]; simp))
          (by rw [hkidx, Bool.and_false]))
        (preB_single_obj W k hkidx hknotW)
        (by simp only [List.length_cons, List.length_nil]; omega)
        (by have e : leafCountFields ((k, w) :: rest) =
              leafCount w + leafCountFields rest := rfl
            omega)
        (fun ys hys => hkidx)]
      rw [graft_single_obj W k _ hknotW]
      rw [ih hwfr (fun p hp => hhs p (by simp [hp])) (W ++ [(k,
        mapLeaf (fun s => autoConvertM s opts.parseNumbers opts.parseBooleans) w)])
        (c + leafCount w)
        (by have e : leafCountFields ((k, w) :: rest) =
              leafCount w + leafCountFields rest := rfl
            omega)
        (by simpa [List.map_append, List.map_cons, List.append_assoc] using hdist)]
      rw [List.append_assoc]
      rfl

/-- C2: the claim (matching the repository's own test
`__tests__/index.test.ts:27-33` and the README) says that with
`strictNullHandling` an absent value (`a`) parses to `null` while an
explicit empty value (`b=`) parses to `""`.  The code instead returns
`null` for both: `decodeValue` maps the empty string to `null` whenever
`strictNullHandling` is set, and the `opts.strictNullHandling ? '' : ''`
ternary in `parse` has two identical arms, so `b=` cannot be
distinguished from `b`.  This theorem evaluates the code at the failing
input. -/
theorem c2_strict_null_code_eval :
    parseM (js "a&b=") {strictNullHandling := true} =
      .ok (.obj [(js "a", .null), (js "b", .null)]) := rfl

/-- C3 counterexample: the claim says a `%2E` sequence that reaches the
key-path splitter is restored to `'.'` and NOT treated as a separator.
For the raw key `a%252Eb.c` (which decodes to `a%2Eb.c`), the code
first rewrites `%2E` to `.` and then splits on `.`, so the restored dot
creates a new nesting level: the result is `{a:{b:{c:"1"}}}`, not the
`{"a.b":{c:"1"}}` the claim predicts. -/
theorem c3_counterexample :
    parseM (js "a%252Eb.c=1") {allowDots := true, decodeDotInKeys := true} =
        .ok (.obj [(js "a", .obj [(js "b", .obj [(js "c", .str (js "1"))])])]) ∧
      (.obj [(js "a", .obj [(js "b", .obj [(js "c", .str (js "1"))])])] : JSVal) ≠
        .obj [(js "a.b", .obj [(js "c", .str (js "1"))])] := by
  refine ⟨rfl, ?_⟩
  intro h
  injection h with h
  simp [js] at h

/-- C4 counterexample: the claim says that when an index exceeds
`arrayLimit` the sequence switches to a mapping with the EXISTING
elements re-keyed under their stringified indices.  In fact the code
replaces the array with a fresh empty object, discarding the existing
elements: `a[0]=x&a[21]=y` yields `{a:{"21":"y"}}` (the element `"x"`
is lost), not `{a:{"0":"x","21":"y"}}`. -/
theorem c4_counterexample :
    parseM (js "a[0]=x&a[21]=y") {} =
        .ok (.obj [(js "a", .obj [(js "21", .str (js "y"))])]) ∧
      (.obj [(js "a", .obj [(js "21", .str (js "y"))])] : JSVal) ≠
        .obj [(js "a", .obj [(js "0", .str (js "x")), (js "21", .str (js "y"))])] := by
  refine ⟨rfl, ?_⟩
  intro h
  injection h with h
  simp [js] at h

/-- C3 (amended): with `allowDots` and `decodeDotInKeys` on, a literal
`%2E` in a key is restored to `'.'` only when the key ALSO contains a
literal `'.'` (first vs second conjunct), and the restoration happens
BEFORE the dot split, so a restored dot IS treated as a path separator
and creates a new nesting level: `k1%2Ek2.k3` splits into the three
segments `[k1, k2, k3]`, while `k1%2Ek2` (no literal dot) stays one
segment with its `%2E` untouched. -/
theorem c3_dot_decode (k1 k2 k3 : JSStr)
    (h1 : ∀ c ∈ k1, c ≠ '.' ∧ c ≠ '[' ∧ c ≠ '%')
    (h2 : ∀ c ∈ k2, c ≠ '.' ∧ c ≠ '[' ∧ c ≠ '%')
    (h3 : ∀ c ∈ k3, c ≠ '.' ∧ c ≠ '[' ∧ c ≠ '%') :
    parseKeyPathM (k1 ++ js "%2E" ++ (k2 ++ '.' :: k3))
        {allowDots := true, decodeDotInKeys := true} = [k1, k2, k3] ∧
      parseKeyPathM (k1 ++ js "%2E" ++ k2)
        {allowDots := true, decodeDotInKeys := true} = [k1 ++ js "%2E" ++ k2] := by
  have hp1 : '%' ∉ k1 := fun hc => (h1 '%' hc).2.2 rfl
  have hd1 : '.' ∉ k1 := fun hc => (h1 '.' hc).1 rfl
  have hd2 : '.' ∉ k2 := fun hc => (h2 '.' hc).1 rfl
  have hd3 : '.' ∉ k3 := fun hc => (h3 '.' hc).1 rfl
  have hassoc : k1 ++ js "%2E" ++ (k2 ++ '.' :: k3) =
      k1 ++ '%' :: '2' :: 'E' :: (k2 ++ '.' :: k3) := by
    simp [js, List.append_assoc]
  have hassoc2 : k1 ++ js "%2E" ++ k2 = k1 ++ '%' :: '2' :: 'E' :: k2 := by
    simp [js, List.append_assoc]
  constructor
  · have hmem : ('.' : Char) ∈ k1 ++ js "%2E" ++ (k2 ++ '.' :: k3) := by
      simp
    unfold parseKeyPathM
    rw [contains_true_of_mem _ _ hmem]
    simp only [Bool.and_self, if_true, if_pos rfl]
    rw [hassoc, replacePercent2E_match _ _ hp1]
    rw [replacePercent2E_no_percent (k2 ++ '.' :: k3) (by
      intro hc
      rcases List.mem_append.mp hc with hc | hc
      · exact (h2 '%' hc).2.2 rfl
      · rcases List.mem_cons.mp hc with hc | hc
        · exact absurd hc.symm (by decide)
        · exact (h3 '%' hc).2.2 rfl)]
    rw [splitOnChar_append_sep '.' k1 (k2 ++ '.' :: k3),
      splitOnChar_append_sep '.' k2 k3,
      splitOnChar_not_mem _ _ hd1, splitOnChar_not_mem _ _ hd2,
      splitOnChar_not_mem _ _ hd3]
    rfl
  · have hnmem : ('.' : Char) ∉ k1 ++ js "%2E" ++ k2 := by
      intro hc
      rcases List.mem_append.mp hc with hc | hc
      · rcases List.mem_append.mp hc with hc | hc
        · exact hd1 hc
        · exact absurd hc (by decide)
      · exact hd2 hc
    have hnb : ('[' : Char) ∉ k1 ++ js "%2E" ++ k2 := by
      intro hc
      rcases List.mem_append.mp hc with hc | hc
      · rcases List.mem_append.mp hc with hc | hc
        · exact (h1 '[' hc).2.1 rfl
        · exact absurd hc (by decide)
      · exact (h2 '[' hc).2.1 rfl
    unfold parseKeyPathM
    rw [contains_false_of_not_mem _ _ hnmem, contains_false_of_not_mem _ _ hnb]
    simp

/-- Witness for C3 (amended) at `k1 = "a"`, `k2 = "b"`, `k3 = "c"`:
`a%2Eb.c` splits into `[a, b, c]` and `a%2Eb` stays whole. -/
theorem c3_dot_decode_witness :
    (∀ c ∈ js "a", c ≠ '.' ∧ c ≠ '[' ∧ c ≠ '%') ∧
    parseKeyPathM (js "a" ++ js "%2E" ++ (js "b" ++ '.' :: js "c"))
        {allowDots := true, decodeDotInKeys := true} = [js "a", js "b", js "c"] ∧
    parseKeyPathM (js "a" ++ js "%2E" ++ js "b")
        {allowDots := true, decodeDotInKeys := true} = [js "a" ++ js "%2E" ++ js "b"] := by
  have h := c3_dot_decode (js "a") (js "b") (js "c") (by decide) (by decide) (by decide)
  exact ⟨by decide, h.1, h.2⟩

/-- C4 (amended): with an array `xs` stored at `key`, (1) a leaf index
`i` beyond `arrayLimit` replaces the array by a FRESH mapping holding
only the new entry under the decimal string `natToStr i` — the
existing elements are discarded, not re-keyed — and processing
continues there; (2) a leaf index `j` within the limit (and at or past
the current length) grows the array with `undefined` holes up to `j`
and stores the value there. -/
theorem c4_array_limit (fields : List (JSStr × JSVal)) (key : JSStr)
    (xs : List JSVal) (i j : Nat) (v w : JSVal) (opts : ParseOpts) (d : Nat)
    (hd : d ≤ opts.depth)
    (hget : jsGet fields key = .arr xs)
    (hi : i > opts.arrayLimit)
    (hj : j ≤ opts.arrayLimit) (hjlen : xs.length ≤ j)
    (hempty : opts.allowEmptyArrays = false) :
    handleArrayValueM (.obj fields) key [natToStr i] v opts d =
        .ok (.obj (jsSet fields key (.obj [(natToStr i, v)]))) ∧
      handleArrayValueM (.obj fields) key [natToStr j] w opts d =
        .ok (.obj (jsSet fields key
          (.arr (xs ++ List.replicate (j - xs.length) JSVal.undef ++ [w])))) := by
  have hne : ∀ n : Nat, ¬(natToStr n = []) := fun n => by
    simpa using natToStr_ne_nil n
  constructor
  · -- over the limit: fresh object, existing elements dropped
    unfold handleArrayValueM
    have hf : 2 * ([natToStr i] : List JSStr).length + 2 = 3 + 1 := by simp
    rw [hf, engine_succ]
    simp only [engineStep, hget, if_neg (hne i), isArrayIndexM_natToStr,
      parseIntM_natToStr, if_pos hi, isObjectM, Bool.false_eq_true, if_false,
      jsGet_jsSet_self]
    rw [engine_set_eq _ _ _ _ _ _ (by simp),
      setNested_leaf _ _ _ _ _ hd (hne i)
        (by rw [pollution_of_index _ (isArrayIndexM_natToStr i)]; simp),
      handleDuplicate_fresh _ _ _ _ (jsGet_nil _)
        (by rw [pollution_of_index _ (isArrayIndexM_natToStr i)]; simp)]
    simp [jsSet_nil, jsSet_jsSet, Except.map]
  · -- within the limit: growth with undefined holes
    unfold handleArrayValueM
    have hf : 2 * ([natToStr j] : List JSStr).length + 2 = 3 + 1 := by simp
    rw [hf, engine_succ]
    have hjle : ¬(j > opts.arrayLimit) := by omega
    simp only [engineStep, hget, if_neg (hne j), isArrayIndexM_natToStr,
      parseIntM_natToStr, if_neg hjle, if_pos hjlen, emptyToArr, hempty,
      Bool.false_eq_true, if_false]
    have hlen : j < (xs ++ List.replicate (j + 1 - xs.length) JSVal.undef).length := by
      simp [List.length_append, List.length_replicate]; omega
    simp only [listSetU, if_pos hlen]
    rw [set_append_right _ _ _ _ (by omega)]
    have harith : j + 1 - xs.length = (j - xs.length) + 1 := by omega
    rw [harith, replicate_set_last]
    simp

/-- Witness for C4 (amended) at `{a:["x"]}` with indices 21 (over the
default limit 20) and 3. -/
theorem c4_array_limit_witness :
    jsGet [(js "a", JSVal.arr [.str (js "x")])] (js "a") = .arr [.str (js "x")] ∧
    (21 : Nat) > ({} : ParseOpts).arrayLimit ∧
    handleArrayValueM (.obj [(js "a", JSVal.arr [.str (js "x")])]) (js "a")
        [natToStr 21] (.str (js "y")) {} 1 =
      .ok (.obj [(js "a", .obj [(natToStr 21, .str (js "y"))])]) ∧
    handleArrayValueM (.obj [(js "a", JSVal.arr [.str (js "x")])]) (js "a")
        [natToStr 3] (.str (js "z")) {} 1 =
      .ok (.obj [(js "a", .arr [.str (js "x"), .undef, .undef, .str (js "z")])]) := by
  have h := c4_array_limit [(js "a", JSVal.arr [.str (js "x")])] (js "a")
    [.str (js "x")] 21 3 (.str (js "y")) (.str (js "z")) {} 1
    (by decide) rfl (by decide) (by decide) (by decide) rfl
  exact ⟨rfl, by decide, h.1, h.2⟩

/-- C5 counterexample: the claim says every mapping in the parse result
whose keys are all non-negative decimal integer strings (and dense
enough) is normalized to a sequence.  `parse` never applies the
`maybeConvertToArray` normalization: `parse("a[0]=x", {parseArrays:
false})` returns the mapping `{a:{"0":"x"}}` even though the utility
(second conjunct) would convert that mapping to the sequence `["x"]`. -/
theorem c5_counterexample :
    parseM (js "a[0]=x") {parseArrays := false} =
        .ok (.obj [(js "a", .obj [(js "0", .str (js "x"))])]) ∧
      maybeConvertToArrayM [(js "0", .str (js "x"))] false = .arr [.str (js "x")] ∧
      (.obj [(js "0", .str (js "x"))] : JSVal) ≠ .arr [.str (js "x")] := by
  refine ⟨rfl, rfl, ?_⟩
  intro h
  exact JSVal.noConfusion h

/-- C5 (amended): the utility `maybeConvertToArray` implements the
claimed normalization policy — on a mapping whose keys are all
non-negative decimal integer strings (listed ascending, as
`Object.keys` enumerates integer-like keys): (1) when sparse arrays
are not allowed and the maximum index is at least twice the number of
entries, the mapping is retained; (2) otherwise (dense) it converts to
the compacted sequence of the values in index order; (3) with sparse
arrays allowed it converts with holes preserved as present-but-undefined
slots (`buildFrom` interleaves exactly those holes).  But `parse` never
invokes this normalization, so numeric-key mappings remain mappings in
the parse result — the fourth conjunct shows a dense all-numeric
mapping surviving an actual parse. -/
theorem c5_sparse_normalization (fields : List (JSStr × JSVal))
    (hne : fields ≠ [])
    (hkeys : ∀ p ∈ fields, isArrayIndexM p.1 = true)
    (hasc : List.Pairwise (fun p q => parseIntM p.1 < parseIntM q.1) fields)
    (hdef : ∀ p ∈ fields, p.2 ≠ JSVal.undef) :
    (((fields.map Prod.fst).map parseIntM).foldl max 0 ≥ (fields.map Prod.fst).length * 2 →
        maybeConvertToArrayM fields false = .obj fields) ∧
      (¬(((fields.map Prod.fst).map parseIntM).foldl max 0 ≥ (fields.map Prod.fst).length * 2) →
        maybeConvertToArrayM fields false = .arr (fields.map Prod.snd)) ∧
      maybeConvertToArrayM fields true = .arr (buildFrom 0 fields) ∧
      parseM (js "b[0]=y&b[1]=z") {parseArrays := false} =
        .ok (.obj [(js "b", .obj [(js "0", .str (js "y")), (js "1", .str (js "z"))])]) := by
  have hkeysne : ¬(fields.map Prod.fst = []) := by
    simpa using hne
  have hall : (fields.map Prod.fst).all isArrayIndexM = true := by
    rw [List.all_eq_true]
    intro k hk
    rcases List.mem_map.mp hk with ⟨p, hp, rfl⟩
    exact hkeys p hp
  have hfold : fields.foldl (fun a p => listSetU a (parseIntM p.1) p.2) [] =
      buildFrom 0 fields := by
    rw [fold_listSetU_build fields [] hasc (fun p _ => by simp)]
    rfl
  refine ⟨?_, ?_, ?_, rfl⟩
  · intro hmx
    simp only [maybeConvertToArrayM, if_neg hkeysne, hall, Bool.not_true,
      Bool.false_eq_true, if_false, Bool.and_eq_true, decide_eq_true_eq]
    rw [if_pos (by simpa using hmx)]
  · intro hmx
    simp only [maybeConvertToArrayM, if_neg hkeysne, hall, Bool.not_true,
      Bool.false_eq_true, if_false, Bool.and_eq_true, decide_eq_true_eq]
    rw [if_neg (by simpa using hmx), hfold, compact_buildFrom fields 0 hdef]
  · simp only [maybeConvertToArrayM, if_neg hkeysne, hall, Bool.not_true,
      Bool.false_eq_true, if_false, Bool.false_and]
    rw [if_pos trivial, hfold]

/-- Witness for C5 (amended) at the two-entry dense mapping
`{"0":"y","2":"z"}` (max index 2 < 2·2) and its behaviours. -/
theorem c5_sparse_normalization_witness :
    ([(js "0", JSVal.str (js "y")), (js "2", JSVal.str (js "z"))] ≠
        ([] : List (JSStr × JSVal))) ∧
    maybeConvertToArrayM [(js "0", JSVal.str (js "y")), (js "2", JSVal.str (js "z"))] false =
      .arr [.str (js "y"), .str (js "z")] ∧
    maybeConvertToArrayM [(js "0", JSVal.str (js "y")), (js "2", JSVal.str (js "z"))] true =
      .arr [.str (js "y"), .undef, .str (js "z")] := by
  have h := c5_sparse_normalization
    [(js "0", JSVal.str (js "y")), (js "2", JSVal.str (js "z"))]
    (by simp) (by decide)
    (by simp [List.pairwise_cons]; decide)
    (by
      intro p hp
      rcases List.mem_cons.mp hp with rfl | hp2
      · simp
      · rcases List.mem_singleton.mp hp2 with rfl
        simp)
  refine ⟨by simp, ?_, ?_⟩
  · have := h.2.1 (by decide)
    simpa using this
  · have := h.2.2.1
    simpa [buildFrom] using this

/-- C6 counterexample: the claim says the `comma` array format joins
only scalar elements and that a nested mapping inside the sequence
still recurses and emits its own pairs.  The code flattens every
element with `String(v)`: a nested mapping becomes the literal text
`[object Object]` and no per-element pair is emitted. -/
theorem c6_counterexample :
    stringifyM (.obj [(js "a", .arr [.obj [(js "b", .str (js "c"))]])])
        {arrayFormat := .comma} = js "a=%5Bobject%20Object%5D" ∧
      js "a=%5Bobject%20Object%5D" ≠ js "a%5B0%5D%5Bb%5D=c" := by
  exact ⟨rfl, by decide⟩

/-- Under the `comma` array format every loop iteration past index 0
falls through without emitting anything (`continue` in both the
`undefined` guard and the `i !== 0` comma branch). -/
theorem stringifyArrayGo_comma_tail (key : JSStr) (opts : StrOpts)
    (hfmt : opts.arrayFormat = .comma) (xs : List JSVal) :
    ∀ i : Nat, i ≠ 0 → stringifyArrayGo key xs opts i = [] := by
  induction xs with
  | nil => intro i hi; rfl
  | cons v rest ih =>
      intro i hi
      cases v
      case undef =>
        rw [stringifyArrayGo.eq_def]
        exact ih (i + 1) (by omega)
      all_goals
        rw [stringifyArrayGo.eq_def]
        dsimp only
        rw [hfmt]
        dsimp only
        rw [if_neg hi]
        exact ih (i + 1) (by omega)

/-- C6 (amended): under the `comma` array format, when the sequence's
FIRST element is defined, stringify emits exactly one
`key=v1,v2,...` pair joining ALL defined elements — including nested
mappings, which are flattened by JS `String(v)` to the literal
`[object Object]` (second conjunct) instead of recursing per element.
When the first element is `undefined`, the index-0 comma branch is
never reached and the sequence emits no pair at all (third conjunct). -/
theorem c6_comma_single_pair (key : JSStr) (v : JSVal) (rest : List JSVal)
    (opts : StrOpts) (hfmt : opts.arrayFormat = .comma) (hv : v ≠ JSVal.undef) :
    (stringifyValueM key (.arr (v :: rest)) opts =
        [encodeKeyM key opts ++ '=' ::
          joinSep (encoderApp opts (js ","))
            ((v :: rest).filterMap fun e =>
              match e with
              | .undef => none
              | e => some (encodeValueM (jsToStringM e) opts))]) ∧
      (∀ fields : List (JSStr × JSVal),
        jsToStringM (.obj fields) = js "[object Object]") ∧
      stringifyValueM key (.arr (JSVal.undef :: rest)) opts = [] := by
  have harr : ∀ w : JSVal, ∀ ws : List JSVal,
      stringifyValueM key (.arr (w :: ws)) opts =
        stringifyArrayGo key (w :: ws) opts 0 := by
    intro w ws
    simp only [stringifyValueM, List.isEmpty_cons, Bool.false_eq_true, if_false]
  refine ⟨?_, fun _ => rfl, ?_⟩
  · rw [harr]
    cases v
    case undef => exact absurd rfl hv
    all_goals
      rw [stringifyArrayGo.eq_def]
      dsimp only
      rw [hfmt]
      dsimp only
      rw [if_pos rfl]
  · rw [harr, stringifyArrayGo.eq_def]
    exact stringifyArrayGo_comma_tail key opts hfmt rest 1 (by omega)

/-- Witness for C6 (amended) at the sequence
`["b", {c:"d"}, undefined]` under `arrayFormat = comma`: one pair with
the mapping flattened to `[object Object]` inside the joined value, and
the `undefined`-headed sequence `[undefined, \x7bc:"d"\x7d, undefined]`
emitting nothing. -/
theorem c6_comma_single_pair_witness :
    ({arrayFormat := ArrayFormat.comma : StrOpts}.arrayFormat =
        ArrayFormat.comma) ∧
      (JSVal.str (js "b") ≠ JSVal.undef) ∧
      stringifyValueM (js "a")
          (.arr [.str (js "b"), .obj [(js "c", .str (js "d"))], JSVal.undef])
          {arrayFormat := ArrayFormat.comma} =
        [js "a=b%2C%5Bobject%20Object%5D"] ∧
      stringifyValueM (js "a")
          (.arr [JSVal.undef, .obj [(js "c", .str (js "d"))], JSVal.undef])
          {arrayFormat := ArrayFormat.comma} = [] := by
  have h := c6_comma_single_pair (js "a") (.str (js "b"))
    [.obj [(js "c", .str (js "d"))], JSVal.undef]
    {arrayFormat := ArrayFormat.comma} rfl
    (fun hc => JSVal.noConfusion hc)
  refine ⟨rfl, fun hc => JSVal.noConfusion hc, ?_, h.2.2⟩
  rw [h.1]
  rfl

/-- C7 counterexample: the claim says the depth-exceeded error is
raised IF AND ONLY IF `strictDepth` is on and a key's nesting depth
exceeds the configured depth.  The key `__proto__[b][c][d][e][f][g]`
has nesting depth 6 > 5 and `strictDepth` is on, yet parse returns
`{}` with no error: the prototype-pollution guard abandons the key
before the depth check can ever run. -/
theorem c7_counterexample :
    parseM (js "__proto__[b][c][d][e][f][g]=2") {strictDepth := true} =
      .ok (.obj []) := rfl

/-- C7 (amended): along the canonical clean nesting family
`a[b][b]...[b]` (path `a` followed by `n` `b`-segments, which trips
none of the guards that can abandon a key before the depth check —
the original iff fails on such guarded keys, see the counterexample):
with `strictDepth` on, the tree builder raises the depth-exceeded
error carrying the machine-readable `DEPTH_EXCEEDED` code exactly when
`n` exceeds the configured depth (first two conjuncts); with
`strictDepth` off, the levels up to the limit are built and the
segments beyond it are collapsed into ONE literal bracket-annotated
flat key at the truncation point, with no error (third conjunct).  The
last two conjuncts run the whole parser on `a[b]^8=x` both ways. -/
theorem c7_depth_error (opts : ParseOpts) (v : JSVal) (n : Nat) :
    (opts.strictDepth = true → opts.depth < n →
      setNestedValueM (.obj []) (js "a" :: List.replicate n (js "b")) v opts 0 =
        .error depthExceededErr) ∧
    (n ≤ opts.depth →
      setNestedValueM (.obj []) (js "a" :: List.replicate n (js "b")) v opts 0 =
        .ok (nestPath (js "a" :: List.replicate n (js "b")) v)) ∧
    (opts.strictDepth = false → opts.depth < n →
      setNestedValueM (.obj []) (js "a" :: List.replicate n (js "b")) v opts 0 =
        .ok (nestPath (js "a" :: List.replicate opts.depth (js "b"))
          (.obj [(collapsedKey (n - opts.depth - 1), v)]))) ∧
    parseM (js "a[b][b][b][b][b][b][b][b]=x") {strictDepth := true} =
      .error depthExceededErr ∧
    parseM (js "a[b][b][b][b][b][b][b][b]=x") {} =
      .ok (.obj [(js "a", nestPath (List.replicate 5 (js "b"))
        (.obj [(js "b[b][b]", .str (js "x"))]))]) := by
  have hpola : (!opts.allowPrototypes && hasPrototypePollutionM (js "a")) = false := by
    rw [show hasPrototypePollutionM (js "a") = false from by decide, Bool.and_false]
  refine ⟨?_, ?_, ?_, rfl, rfl⟩
  · intro hs hn
    obtain ⟨n', rfl⟩ : ∃ n', n = n' + 1 := ⟨n - 1, by omega⟩
    rw [List.replicate_succ]
    rw [setNested_step_named [] (js "a") (js "b") (List.replicate n' (js "b"))
      v opts 0 (by omega) (by decide) hpola (by decide) (by decide)]
    rw [show (js "b" :: List.replicate n' (js "b")) =
      List.replicate (n' + 1) (js "b") from (List.replicate_succ _ _).symm]
    rw [chain_strict_err opts v hs (n' + 1) (by omega) 1 (by omega)]
    rfl
  · intro hn
    cases n with
    | zero =>
        rw [List.replicate_zero]
        rw [setNested_leaf (.obj []) (js "a") v opts 0 (by omega) (by decide)
          hpola]
        rw [handleDuplicate_fresh [] (js "a") v opts rfl hpola]
        rfl
    | succ n' =>
        rw [List.replicate_succ]
        rw [setNested_step_named [] (js "a") (js "b") (List.replicate n' (js "b"))
          v opts 0 (by omega) (by decide) hpola (by decide) (by decide)]
        rw [show (js "b" :: List.replicate n' (js "b")) =
          List.replicate (n' + 1) (js "b") from (List.replicate_succ _ _).symm]
        rw [chain_desc opts v (n' + 1) (by omega) 1 (by omega)]
        rfl
  · intro hs hn
    obtain ⟨n', rfl⟩ : ∃ n', n = n' + 1 := ⟨n - 1, by omega⟩
    rw [List.replicate_succ]
    rw [setNested_step_named [] (js "a") (js "b") (List.replicate n' (js "b"))
      v opts 0 (by omega) (by decide) hpola (by decide) (by decide)]
    rw [show (js "b" :: List.replicate n' (js "b")) =
      List.replicate (n' + 1) (js "b") from (List.replicate_succ _ _).symm]
    by_cases hD0 : opts.depth = 0
    · rw [setNested_collapse (.obj []) _ v opts 1 hs (by omega)]
      have hfk : (List.replicate (n' + 1) (js "b")).headD (js "undefined") ++
          (((List.replicate (n' + 1) (js "b")).drop 1).map
            fun k => '[' :: k ++ [']']).flatten = collapsedKey n' := by
        rw [List.replicate_succ]
        simp only [List.headD_cons, List.drop_succ_cons, List.drop_zero,
          List.map_replicate]
        rfl
      rw [hfk]
      rw [handleDuplicate_fresh [] (collapsedKey n') v opts rfl
        (by rw [collapsedKey, pollution_head_b, Bool.and_false])]
      rw [hD0]
      rw [show n' + 1 - 0 - 1 = n' from by omega, List.replicate_zero]
      rfl
    · rw [chain_collapse opts v hs (n' + 1) (by omega) 1 (by omega) (by omega)]
      rw [show opts.depth - 1 + 1 = opts.depth from by omega]
      rw [show 1 + (n' + 1) - opts.depth - 2 = n' + 1 - opts.depth - 1 from by omega]
      obtain ⟨D', hD'⟩ : ∃ D', opts.depth = D' + 1 := ⟨opts.depth - 1, by omega⟩
      rw [hD', List.replicate_succ]
      rfl

/-- Witness for C7 (amended): the strict error at `n = 6 > 5`, the
full build at `n = 3 ≤ 5`, and the non-strict collapse at `n = 8`
(flat key `b[b][b]`), at the default depth 5. -/
theorem c7_depth_error_witness :
    setNestedValueM (.obj []) (js "a" :: List.replicate 6 (js "b"))
        (.str (js "x")) {strictDepth := true} 0 = .error depthExceededErr ∧
    setNestedValueM (.obj []) (js "a" :: List.replicate 3 (js "b"))
        (.str (js "x")) {} 0 =
      .ok (nestPath (js "a" :: List.replicate 3 (js "b")) (.str (js "x"))) ∧
    setNestedValueM (.obj []) (js "a" :: List.replicate 8 (js "b"))
        (.str (js "x")) {} 0 =
      .ok (nestPath (js "a" :: List.replicate 5 (js "b"))
        (.obj [(collapsedKey 2, .str (js "x"))])) :=
  ⟨(c7_depth_error {strictDepth := true} (.str (js "x")) 6).1 rfl (by decide),
   (c7_depth_error {} (.str (js "x")) 3).2.1 (by decide),
   (c7_depth_error {} (.str (js "x")) 8).2.2.1 rfl (by decide)⟩

/-- C8: pairs beyond the configured `parameterLimit` are silently
dropped.  For any input `s1` holding exactly `parameterLimit`
delimiter-separated pairs (stated via the split length; the two trim
hypotheses say neither input carries surrounding whitespace), parsing
`s1 & s2` for ANY suffix `s2` gives exactly the result of parsing
`s1` alone: no error is raised, the pairs beyond the ceiling are
ignored, and the pairs before it are parsed normally.  The second
conjunct runs the whole parser on a concrete over-limit input. -/
theorem c8_parameter_limit (s1 s2 : JSStr) (opts : ParseOpts)
    (hne : s1 ≠ [])
    (htrim : trimM (s1 ++ '&' :: s2) = s1 ++ '&' :: s2)
    (htrim1 : trimM s1 = s1)
    (hcount : (splitOnChar '&' s1).length = opts.parameterLimit) :
    (parseM (s1 ++ '&' :: s2) opts = parseM s1 opts) ∧
    parseM (js "a=1&b=2&c=3") {parameterLimit := 2} =
      .ok (.obj [(js "a", .str (js "1")), (js "b", .str (js "2"))]) := by
  refine ⟨?_, rfl⟩
  unfold parseM
  rw [if_neg (by simp : ¬(s1 ++ '&' :: s2 = [])), if_neg hne]
  rw [htrim, htrim1]
  dsimp only
  rw [splitOnChar_append_sep]
  exact parsePairs_truncate opts _ _ 0 _ (by simpa using hcount)

/-- Witness for C8 at `s1 = "a=1&b=2"`, `s2 = "c=3"`,
`parameterLimit = 2`. -/
theorem c8_parameter_limit_witness :
    parseM (js "a=1&b=2" ++ '&' :: js "c=3") {parameterLimit := 2} =
      parseM (js "a=1&b=2") {parameterLimit := 2} :=
  (c8_parameter_limit (js "a=1&b=2") (js "c=3") {parameterLimit := 2}
    (by decide) rfl rfl (by decide)).1

/-- C9: stringify never mutates its input.  Over the explicit heap
model, for every heap, input root, options and filter (none,
allow-list, or transform function), the entire original heap is a
prefix of the heap after `stringify` — the filter's writes go only to
its freshly allocated result object — so every cell the input tree
occupies, at every depth, reads back unchanged (second conjunct). -/
theorem c9_no_mutation (h : Heap) (root : Nat) (opts : StrOpts) (f : Filter) :
    h <+: (stringifyH h root opts f).1 ∧
    ∀ a : Nat, a < h.length →
      heapGet (stringifyH h root opts f).1 a = heapGet h a := by
  have hpre : h <+: (stringifyH h root opts f).1 := by
    unfold stringifyH
    rcases heapGet h root with _ | n
    · exact List.prefix_refl h
    · exact heap_prefix_applyFilter h root f
  refine ⟨hpre, ?_⟩
  obtain ⟨t, ht⟩ := hpre
  intro a ha
  rw [← ht]
  unfold heapGet
  simp only [List.get?_eq_getElem?]
  exact List.getElem?_append_left ha

/-- Witness for C9 at a one-cell heap holding `\x7ba:"b"\x7d`, stringified
under an allow-list filter. -/
theorem c9_no_mutation_witness :
    ([Node.obj [(js "a", HVal.prim (.str (js "b")))]] : Heap) <+:
      (stringifyH [Node.obj [(js "a", HVal.prim (.str (js "b")))]] 0 {}
        (.allowList [js "a"])).1 ∧
    heapGet (stringifyH [Node.obj [(js "a", HVal.prim (.str (js "b")))]] 0 {}
        (.allowList [js "a"])).1 0 =
      heapGet [Node.obj [(js "a", HVal.prim (.str (js "b")))]] 0 :=
  ⟨(c9_no_mutation [Node.obj [(js "a", HVal.prim (.str (js "b")))]] 0 {}
      (.allowList [js "a"])).1,
   (c9_no_mutation [Node.obj [(js "a", HVal.prim (.str (js "b")))]] 0 {}
      (.allowList [js "a"])).2 0 (by decide)⟩

/-- C10 counterexample: the claim says a later pair addressing a deeper
path through a key holding a non-empty-string scalar is ALWAYS silently
discarded with no error.  When the deeper path's next segment is an
empty bracket (`a=1&a[]=2`), the code instead calls `.push` on the
string `"1"` and throws a `TypeError`. -/
theorem c10_counterexample :
    parseM (js "a=1&a[]=2") {} =
      .error (.typeError (js "push is not a function")) := rfl

/-- C10 (amended): when an accumulated key `k` holds a non-empty-string
scalar and a later pair addresses a deeper path through `k` whose first
sub-segment is a NAMED segment (non-numeric, non-empty — so not an
`a[]` or `a[0]` array access), the later pair is silently discarded:
the later insertion returns the accumulator unchanged and raises no
error, as the concrete whole-parse instance in the second conjunct also
shows (`x=n` is untouched, `a` keeps `"1"`). -/
theorem c10_later_pair_dropped (fields : List (JSStr × JSVal)) (k seg : JSStr)
    (rest : List JSStr) (s : JSStr) (v : JSVal) (opts : ParseOpts) (d : Nat)
    (hd : d ≤ opts.depth) (hs : jsGet fields k = .str s) (hne : s ≠ [])
    (hseg1 : seg ≠ []) (hseg2 : isArrayIndexM seg = false) :
    setNestedValueM (.obj fields) (k :: seg :: rest) v opts d = .ok (.obj fields) ∧
    parseM (js "x=n&a=1&a[b][c]=2") {} =
      .ok (.obj [(js "x", .str (js "n")), (js "a", .str (js "1"))]) := by
  refine ⟨?_, rfl⟩
  by_cases hk : k = []
  · subst hk
    exact setNested_empty_key _ _ _ _ _ hd
  · by_cases hpol : (!opts.allowPrototypes && hasPrototypePollutionM k) = true
    · exact setNested_pollution _ _ _ _ _ _ hd hpol
    · have hpol' : (!opts.allowPrototypes && hasPrototypePollutionM k) = false := by
        cases hb : (!opts.allowPrototypes && hasPrototypePollutionM k)
        · rfl
        · exact absurd hb hpol
      refine setNested_drop fields k seg rest v opts d hd hk hpol' ?_ ?_ ?_
      · simp [hseg1, hseg2]
      · rw [hs]; simpa [jsTruthy] using hne
      · rw [hs]; rfl

/-- Witness for C10 (amended) at `{a:"1"}` with the later pair
`a[b]=2`. -/
theorem c10_later_pair_dropped_witness :
    jsGet [(js "a", JSVal.str (js "1"))] (js "a") = .str (js "1") ∧
    isArrayIndexM (js "b") = false ∧
    setNestedValueM (.obj [(js "a", JSVal.str (js "1"))]) [js "a", js "b"]
        (.str (js "2")) {} 0 = .ok (.obj [(js "a", JSVal.str (js "1"))]) :=
  ⟨rfl, by decide,
    (c10_later_pair_dropped [(js "a", JSVal.str (js "1"))] (js "a") (js "b") []
      (js "1") (.str (js "2")) {} 0 (by decide) rfl (by decide) (by decide)
      (by decide)).1⟩

/-- Top-level round trip on the `wfTop` domain, for any parse options
with the relevant fields at their defaults. -/
theorem parseM_stringifyM (fields : List (JSStr × JSVal))
    (hv : wfTop (.obj fields) = true) (opts : ParseOpts)
    (hdots : opts.allowDots = false) (hcomma : opts.comma = false)
    (hsnh : opts.strictNullHandling = false)
    (hpa : opts.parseArrays = true) (hAE : opts.allowEmptyArrays = false)
    (hlim : opts.arrayLimit = 20) (hdepth : opts.depth = 5)
    (hplim : opts.parameterLimit = 1000) :
    parseM (stringifyM (.obj fields) {}) opts =
      .ok (mapLeaf (fun s => autoConvertM s opts.parseNumbers opts.parseBooleans)
        (.obj fields)) := by
  have h2 : (wfV (JSVal.obj fields) && decide (heightV (JSVal.obj fields) ≤ 6) &&
      decide (leafCount (JSVal.obj fields) ≤ 1000)) = true := hv
  simp only [Bool.and_eq_true, decide_eq_true_eq] at h2
  obtain ⟨⟨hwfv, hh6⟩, hlc⟩ := h2
  obtain ⟨hfne, hdist, hwff⟩ := wfV_obj fields hwfv
  obtain ⟨⟨k1, w1⟩, todo, rfl⟩ : ∃ q todo, fields = q :: todo := by
    cases fields with
    | nil => exact absurd rfl hfne
    | cons a b => exact ⟨a, b, rfl⟩
  have h3 : (keyOk k1 && wfV w1 && wfFields todo) = true := hwff
  simp only [Bool.and_eq_true] at h3
  have hpairswf := stringifyTop_pairs_wf ((k1, w1) :: todo) hwff
  have hpne : stringifyTopGo ((k1, w1) :: todo) {} ≠ [] :=
    stringifyTop_cons_ne_nil k1 w1 todo h3.1.2
  have hjoin_ne : joinSep (js "&") (stringifyTopGo ((k1, w1) :: todo) {}) ≠ [] :=
    joinSep_ne_nil _ hpne (fun p hp => (hpairswf p hp).1)
  rw [show stringifyM (JSVal.obj ((k1, w1) :: todo)) {} =
      joinSep (js "&") (stringifyTopGo ((k1, w1) :: todo) {}) from rfl]
  unfold parseM
  rw [if_neg hjoin_ne]
  show parsePairsM opts (splitOnChar '&'
      (trimM (joinSep (js "&") (stringifyTopGo ((k1, w1) :: todo) {})))) 0
      (.obj []) = _
  rw [trimM_id _ (fun ch hch => by
    rcases joinSep_chars _ ch hch with rfl | ⟨p, hp, hchp⟩
    · decide
    · exact ((hpairswf p hp).2 ch hchp).2)]
  rw [splitOnChar_joinSep _ hpne (fun p hp hmem =>
    ((hpairswf p hp).2 '&' hmem).1 rfl)]
  rw [parse_top_fold opts hdots hcomma hsnh hpa hAE (by omega)
    ((k1, w1) :: todo) hwff
    (fun p hp => by
      have h4 := heightV_mem_fields ((k1, w1) :: todo) p hp
      have h5 : heightV (JSVal.obj ((k1, w1) :: todo)) =
          1 + heightFields ((k1, w1) :: todo) := rfl
      omega)
    [] 0
    (by have e : leafCount (JSVal.obj ((k1, w1) :: todo)) =
          leafCountFields ((k1, w1) :: todo) := rfl
        omega)
    (by simpa using hdist)]
  rw [List.nil_append]
  rfl

/-- C1 counterexample: the claim quantifies over every structured value
built from strings, numbers, booleans, mappings and sequences, but
`{a: []}` (an empty sequence value) stringifies to the empty string,
which parses back to the empty mapping — the key is lost, so the
round-trip equation fails outside a restricted domain. -/
theorem c1_counterexample :
    stringifyM (JSVal.obj [(js "a", JSVal.arr [])]) {} = [] ∧
    parseM (stringifyM (JSVal.obj [(js "a", JSVal.arr [])]) {})
        { parseNumbers := true, parseBooleans := true } = .ok (JSVal.obj []) ∧
    JSVal.obj [] ≠ JSVal.obj [(js "a", JSVal.arr [])] := by
  refine ⟨rfl, rfl, ?_⟩
  intro h
  injection h with h2
  exact absurd h2 (by simp)

/-- C1: on the round-trip domain `wfTop` (non-empty nested mappings with
distinct `keyOk` keys — non-empty, non-numeric, bracket-free, not a
prototype-pollution name and not an `Object.prototype` member name such
as `toString`, where the real `obj[key]` read in `handleDuplicateKey`
returns the inherited function and combines instead of assigning —
non-empty sequences of at most 21 elements with no directly nested
sequence, scalar leaves, height at most 6, at most 1000 leaves),
parsing the stringified form with number and boolean coercion returns
the tree with every leaf mapped through `autoConvert` of its string
form — hence exactly the original tree whenever no string leaf itself
looks boolean or numeric (`strictV`, the claim's "up to scalar type
widening") — and a plain parse returns the same tree with every leaf
as its string form. -/
theorem c1_round_trip (v : JSVal) (hv : wfTop v = true) :
    parseM (stringifyM v {}) { parseNumbers := true, parseBooleans := true } =
        .ok (mapLeaf (fun s => autoConvertM s true true) v) ∧
    parseM (stringifyM v {}) {} = .ok (mapLeaf (fun s => JSVal.str s) v) ∧
    (strictV v = true →
      parseM (stringifyM v {}) { parseNumbers := true, parseBooleans := true } =
        .ok v) := by
  cases v with
  | undef => have hf : false = true := hv; exact absurd hf (by simp)
  | null => have hf : false = true := hv; exact absurd hf (by simp)
  | str s => have hf : false = true := hv; exact absurd hf (by simp)
  | num n => have hf : false = true := hv; exact absurd hf (by simp)
  | bool b => have hf : false = true := hv; exact absurd hf (by simp)
  | arr xs => have hf : false = true := hv; exact absurd hf (by simp)
  | obj fields =>
      have h2 : (wfV (JSVal.obj fields) &&
          decide (heightV (JSVal.obj fields) ≤ 6) &&
          decide (leafCount (JSVal.obj fields) ≤ 1000)) = true := hv
      simp only [Bool.and_eq_true, decide_eq_true_eq] at h2
      have hwfv : wfV (JSVal.obj fields) = true := h2.1.1
      have h1 : parseM (stringifyM (JSVal.obj fields) {})
          { parseNumbers := true, parseBooleans := true } =
          .ok (mapLeaf (fun s => autoConvertM s true true) (JSVal.obj fields)) :=
        parseM_stringifyM fields hv { parseNumbers := true, parseBooleans := true }
          rfl rfl rfl rfl rfl rfl rfl rfl
      have h0 : parseM (stringifyM (JSVal.obj fields) {}) {} =
          .ok (mapLeaf (fun s => autoConvertM s false false) (JSVal.obj fields)) :=
        parseM_stringifyM fields hv {} rfl rfl rfl rfl rfl rfl rfl rfl
      refine ⟨h1, ?_, ?_⟩
      · rw [show (fun s => autoConvertM s false false) =
            (fun s => JSVal.str s) from funext autoConvert_off] at h0
        exact h0
      · intro hstrict
        rw [strict_mapLeaf (sizeV (JSVal.obj fields)) (JSVal.obj fields)
          (le_refl _) hwfv hstrict] at h1
        exact h1

theorem c1_round_trip_witness :
    wfTop (JSVal.obj [(js "a", JSVal.str (js "x")),
        (js "b", JSVal.obj [(js "c",
          JSVal.arr [JSVal.num 7, JSVal.bool true])])]) = true ∧
    parseM (stringifyM (JSVal.obj [(js "a", JSVal.str (js "x")),
        (js "b", JSVal.obj [(js "c",
          JSVal.arr [JSVal.num 7, JSVal.bool true])])]) {})
        { parseNumbers := true, parseBooleans := true } =
      .ok (mapLeaf (fun s => autoConvertM s true true)
        (JSVal.obj [(js "a", JSVal.str (js "x")),
          (js "b", JSVal.obj [(js "c",
            JSVal.arr [JSVal.num 7, JSVal.bool true])])])) :=
  ⟨by decide, (c1_round_trip _ (by decide)).1⟩

end TsQs
